import Mathlib

/-!
# The test engine event log (`testengine/eventlog.go`)

A shallow embedding of the time-ordered event log: the doubly linked list of
`EventLogEntry` nodes lives in an explicit heap (a list of nodes, a pointer is
an index into it, `none` is the Go `nil`), and every operation of the source is
a function on a `Store` (heap + the `EventLog` record) that returns an `Except`
value, where a Go panic, a Go `error` and non-termination are the three kinds of
`Failure` (`Insert` also reports the store as the failure leaves it).

The file has two parts: the definitions (the embedding of the source, then the
vocabulary of the specification and some sample data), and the theorems (heap and
list lemmas, the invariant of reachable logs, and the claims `C1` to `C10`).
-/

namespace Testengine

/-! ## Data model -/

/-- Modelled from the spec: the protocol state events of package `mirbftpb`
(tick, proposal, inbound step); the payloads are opaque to the event log and are
kept as plain codes. -/
inductive StateEvent
  | Tick
  | Propose (req : Nat)
  | Step (stepEvent : Nat)
deriving DecidableEq, Repr

/-- Modelled from the spec: the `Type` one-of of `testenginepb.Event`, a protocol
state event or the process marker. -/
inductive EventType
  | StateEvent (stateEvent : StateEvent)
  | Process
deriving DecidableEq, Repr

/-- Modelled from the spec: `testenginepb.Event`, a target, a logical time (both
`uint64` in the source) and the payload one-of `Type` (a Lean keyword, hence
`Type_`), which may be unset. -/
structure Event where
  Target : Nat
  Time : Nat
  Type_ : Option EventType
deriving DecidableEq, Repr

/-- A pointer to an `EventLogEntry`: an index into the heap, or `none` for `nil`. -/
abbrev Ptr := Option Nat

/-- The Go struct `EventLogEntry`. -/
structure EventLogEntry where
  Event : Option Event
  Next : Ptr
  Prev : Ptr
deriving DecidableEq, Repr

/-- The Go struct `EventLog`. -/
structure EventLog where
  Name : String
  Description : String
  FirstEventLogEntry : Ptr
  NextEventLogEntry : Ptr
  LastConsumed : Ptr
  FakeTime : Nat
deriving DecidableEq, Repr

/-- The heap of allocated entries together with the log record that points into it. -/
structure Store where
  heap : List EventLogEntry
  l : EventLog
deriving DecidableEq, Repr

/-- How an operation can fail: a Go panic, a returned Go `error`, or a loop that
never ends (the model runs out of fuel exactly when the Go loop would not stop). -/
inductive Failure
  | panic (msg : String)
  | error (msg : String)
  | diverges
deriving DecidableEq, Repr

/-- The runtime panic of a `nil` pointer dereference. -/
def nilDereference : Failure := Failure.panic "invalid memory address or nil pointer dereference"

/-- The zero value `&EventLog{}` (with a chosen name and description) on an empty heap. -/
def emptyLog (name description : String) : Store :=
  { heap := []
    l := { Name := name, Description := description, FirstEventLogEntry := none,
           NextEventLogEntry := none, LastConsumed := none, FakeTime := 0 } }

/-! ## Heap access -/

/-- Applies a field update to the entry at address `a`. -/
def modifyAt (heap : List EventLogEntry) (a : Nat) (f : EventLogEntry → EventLogEntry) :
    List EventLogEntry :=
  match heap[a]? with
  | none => heap
  | some e => heap.set a (f e)

/-- The assignment `a.Next = v`. -/
def setNext (heap : List EventLogEntry) (a : Nat) (v : Ptr) : List EventLogEntry :=
  modifyAt heap a (fun e => { e with Next := v })

/-- The assignment `a.Prev = v`. -/
def setPrev (heap : List EventLogEntry) (a : Nat) (v : Ptr) : List EventLogEntry :=
  modifyAt heap a (fun e => { e with Prev := v })

/-! ## ConsumeAndAdvance -/

/-- The method `ConsumeAndAdvance`: returns the event at the cursor (or `nil`) and
the updated log. -/
def ConsumeAndAdvance (s : Store) : Except Failure (Option Event × Store) :=
  match s.l.NextEventLogEntry with
  | none => .ok (none, s)
  | some nele =>
    match s.heap[nele]? with
    | none => .error nilDereference
    | some entry =>
      match entry.Event with
      | none => .error nilDereference
      | some ev =>
        .ok (some ev,
          { s with l := { s.l with FakeTime := ev.Time
                                   NextEventLogEntry := entry.Next
                                   LastConsumed := some nele } })

/-! ## Insert -/

/-- The `for` loop of `Insert`, started at `currentEntry`; one unit of fuel per
visited entry. A failure carries the store as it is at that moment. -/
def insertLoop : Nat → Store → Nat → Event → Nat → Except (Failure × Store) Store
  | 0, s, _, _, _ => .error (Failure.diverges, s)
  | fuel + 1, s, logEntry, event, currentEntry =>
    match s.heap[currentEntry]? with
    | none => .error (nilDereference, s)
    | some ce =>
      match ce.Event with
      | none => .error (nilDereference, s)
      | some cev =>
        if cev.Time > event.Time then
          -- logEntry.Next = currentEntry; logEntry.Prev = currentEntry.Prev
          let h1 := setNext s.heap logEntry (some currentEntry)
          let h2 := setPrev h1 logEntry ce.Prev
          -- currentEntry.Prev = logEntry
          let h3 := setPrev h2 currentEntry (some logEntry)
          -- if logEntry.Prev != nil then logEntry.Prev.Next = logEntry
          let h4 := match ce.Prev with
            | none => h3
            | some p => setNext h3 p (some logEntry)
          let l1 := if some currentEntry = s.l.NextEventLogEntry
            then { s.l with NextEventLogEntry := some logEntry } else s.l
          let l2 := if some currentEntry = s.l.FirstEventLogEntry
            then { l1 with FirstEventLogEntry := some logEntry } else l1
          .ok { heap := h4, l := l2 }
        else
          match ce.Next with
          | none =>
            -- currentEntry.Next = logEntry; logEntry.Prev = currentEntry
            let h1 := setNext s.heap currentEntry (some logEntry)
            let h2 := setPrev h1 logEntry (some currentEntry)
            .ok { heap := h2, l := s.l }
          | some nx => insertLoop fuel s logEntry event nx

/-- The method `Insert` (the argument is a non-nil `*tpb.Event`). The new entry is
allocated at the end of the heap, so its address is the number of entries
allocated before it. A failure carries the store as the panic leaves it. -/
def Insert (s : Store) (event : Event) : Except (Failure × Store) Store :=
  if event.Time < s.l.FakeTime then
    .error (Failure.panic "attempted to modify the past", s)
  else
    let logEntry := s.heap.length
    let heap := s.heap ++ [{ Event := some event, Next := none, Prev := none }]
    match s.l.FirstEventLogEntry with
    | none =>
      .ok { heap := heap
            l := { s.l with FirstEventLogEntry := some logEntry
                            NextEventLogEntry := some logEntry } }
    | some _ =>
      match s.l.NextEventLogEntry with
      | none =>
        -- l.NextEventLogEntry = logEntry; l.LastConsumed.Next = logEntry
        let l1 := { s.l with NextEventLogEntry := some logEntry }
        match s.l.LastConsumed with
        | none => .error (nilDereference, { heap := heap, l := l1 })
        | some lc =>
          match heap[lc]? with
          | none => .error (nilDereference, { heap := heap, l := l1 })
          | some _ =>
            let h1 := setNext heap lc (some logEntry)
            let h2 := setPrev h1 logEntry (some lc)
            .ok { heap := h2, l := l1 }
      | some currentEntry =>
        insertLoop heap.length { heap := heap, l := s.l } logEntry event currentEntry

/-- The method `InsertStateEvent`; the sum `l.FakeTime + fromNow` is a `uint64` sum
and wraps at `2 ^ 64`. -/
def InsertStateEvent (s : Store) (target : Nat) (stateEvent : StateEvent) (fromNow : Nat) :
    Except (Failure × Store) Store :=
  Insert s { Target := target
             Time := (s.l.FakeTime + fromNow) % 2 ^ 64
             Type_ := some (EventType.StateEvent stateEvent) }

/-- The method `InsertProcess`. -/
def InsertProcess (s : Store) (target : Nat) (fromNow : Nat) :
    Except (Failure × Store) Store :=
  Insert s { Target := target
             Time := (s.l.FakeTime + fromNow) % 2 ^ 64
             Type_ := some EventType.Process }

/-- The method `InsertTickEvent`. -/
def InsertTickEvent (s : Store) (target : Nat) (fromNow : Nat) :
    Except (Failure × Store) Store :=
  InsertStateEvent s target StateEvent.Tick fromNow

/-- The method `InsertProposeEvent`. -/
def InsertProposeEvent (s : Store) (target : Nat) (req : Nat) (fromNow : Nat) :
    Except (Failure × Store) Store :=
  InsertStateEvent s target (StateEvent.Propose req) fromNow

/-- The method `InsertStepEvent`. -/
def InsertStepEvent (s : Store) (target : Nat) (stepEvent : Nat) (fromNow : Nat) :
    Except (Failure × Store) Store :=
  InsertStateEvent s target (StateEvent.Step stepEvent) fromNow

/-! ## Traversal, Count -/

/-- The loop `for e := p; e != nil; e = e.Next`, collecting the visited addresses. -/
def walk (heap : List EventLogEntry) : Nat → Ptr → Except Failure (List Nat)
  | _, none => .ok []
  | 0, some _ => .error Failure.diverges
  | fuel + 1, some a =>
    match heap[a]? with
    | none => .error nilDereference
    | some e => (walk heap fuel e.Next).map (fun r => a :: r)

/-- The addresses of the entries linked from `FirstEventLogEntry`, in list order. -/
def traverse (s : Store) : Except Failure (List Nat) :=
  walk s.heap s.heap.length s.l.FirstEventLogEntry

/-- The event stored at an address (`none` when the entry carries no event). -/
def eventAt (heap : List EventLogEntry) (a : Nat) : Option Event :=
  match heap[a]? with
  | none => none
  | some e => e.Event

/-- The method `Count`. -/
def Count (s : Store) : Except Failure Nat :=
  (traverse s).map List.length

/-- The entries strictly before the cursor, as the loop of `Write` visits them
(it stops at `nil` or at `NextEventLogEntry`). -/
def consumedPart (s : Store) : Except Failure (List Nat) :=
  (traverse s).map (fun as => as.takeWhile (fun a => decide (some a ≠ s.l.NextEventLogEntry)))

/-- The entries from the cursor on. -/
def pendingPart (s : Store) : Except Failure (List Nat) :=
  (traverse s).map (fun as => as.dropWhile (fun a => decide (some a ≠ s.l.NextEventLogEntry)))

/-- Reads the event of every entry of an address list (each entry must carry one). -/
def entriesOf (heap : List EventLogEntry) : List Nat → Except Failure (List (Nat × Event))
  | [] => .ok []
  | a :: as =>
    match eventAt heap a with
    | none => .error nilDereference
    | some e => (entriesOf heap as).map (fun r => (a, e) :: r)

/-- The entries linked from the head, in list order, each as address and event. -/
def entries (s : Store) : Except Failure (List (Nat × Event)) :=
  match traverse s with
  | .error err => .error err
  | .ok as => entriesOf s.heap as

/-- The entries strictly before the cursor (the consumed part), address and event. -/
def consumedEntries (s : Store) : Except Failure (List (Nat × Event)) :=
  match consumedPart s with
  | .error err => .error err
  | .ok as => entriesOf s.heap as

/-- The entries from the cursor on (the pending part), address and event. -/
def pendingEntries (s : Store) : Except Failure (List (Nat × Event)) :=
  match pendingPart s with
  | .error err => .error err
  | .ok as => entriesOf s.heap as

/-- Inserting a list of events one by one. -/
def insertAll (s : Store) : List Event → Except (Failure × Store) Store
  | [] => .ok s
  | e :: es =>
    match Insert s e with
    | .error x => .error x
    | .ok s2 => insertAll s2 es

/-- Calling `ConsumeAndAdvance` `k` times, recording what each call returns and the
`FakeTime` after it. -/
def consumeTrace : Nat → Store → Except Failure (List (Option Event × Nat))
  | 0, _ => .ok []
  | k + 1, s =>
    match ConsumeAndAdvance s with
    | .error x => .error x
    | .ok (r, s2) => (consumeTrace k s2).map (fun t => (r, s2.l.FakeTime) :: t)

/-! ## NodeConfigs -/

/-- Modelled from the spec: `testenginepb.NodeConfig`, of which only `Id` is used. -/
structure NodeConfig where
  Id : Nat
deriving DecidableEq, Repr

/-- The scanning loop of `NodeConfigs`; `idMap` holds the targets seen so far. -/
def nodeConfigsLoop (heap : List EventLogEntry) :
    Nat → Ptr → List Nat → List NodeConfig → Except Failure (List NodeConfig)
  | _, none, _, nodeConfigs => .ok nodeConfigs
  | 0, some _, _, _ => .error Failure.diverges
  | fuel + 1, some a, idMap, nodeConfigs =>
    match heap[a]? with
    | none => .error nilDereference
    | some logEntry =>
      match logEntry.Event with
      | none => .error nilDereference
      | some ev =>
        if ev.Target ∈ idMap then
          nodeConfigsLoop heap fuel logEntry.Next idMap nodeConfigs
        else
          nodeConfigsLoop heap fuel logEntry.Next (ev.Target :: idMap)
            (nodeConfigs ++ [{ Id := ev.Target }])

/-- Modelled from the spec: the library call `sort.Slice(xs, less)`, which leaves
`xs` sorted by `less`; here an insertion sort by "not less the other way round". -/
def sortSlice (xs : List NodeConfig) (less : NodeConfig → NodeConfig → Prop)
    [DecidableRel less] : List NodeConfig :=
  xs.insertionSort (fun a b => ¬ less b a)

/-- The method `NodeConfigs`. -/
def NodeConfigs (s : Store) : Except Failure (List NodeConfig) :=
  (nodeConfigsLoop s.heap s.heap.length s.l.FirstEventLogEntry [] []).map
    (fun nodeConfigs => sortSlice nodeConfigs (fun a b => a.Id < b.Id))

/-! ## The wire format -/

/-- Modelled from the spec: `testenginepb.ScenarioConfig`, the header record. -/
structure ScenarioConfig where
  Name : String
  Description : String
  NodeConfigs : List NodeConfig
deriving DecidableEq, Repr

/-- Modelled from the spec: the one-of of `testenginepb.LogEntry`, a scenario header
or an event, each holding a pointer that may be `nil`. -/
inductive LogEntryType
  | Scenario (Scenario : Option ScenarioConfig)
  | Event (Event : Option Event)
deriving DecidableEq, Repr

/-- Modelled from the spec: `testenginepb.LogEntry`; `Type_` is `none` when no kind
is set. -/
structure LogEntry where
  Type_ : Option LogEntryType
deriving DecidableEq, Repr

/-- The message codec `proto.Marshal` / `proto.Unmarshal`, which is not part of
this repository and is taken as a parameter. -/
structure Codec where
  Marshal : LogEntry → Except Failure (List Nat)
  Unmarshal : List Nat → Except Failure LogEntry

/-- `errors.WithMessage`: the same failure with a message put in front. -/
def withMessage (err : Failure) (msg : String) : Failure :=
  match err with
  | Failure.error m => Failure.error (msg ++ ": " ++ m)
  | other => other

/-- The loop of `binary.PutUvarint`: seven bits per byte, low group first, the high
bit marks continuation. Nine continuation bytes are the most a `uint64` needs. -/
def putUvarintLoop : Nat → Nat → List Nat
  | 0, x => [x % 256]
  | fuel + 1, x =>
    if x ≥ 0x80 then ((x % 256) ||| 0x80) :: putUvarintLoop fuel (x >>> 7)
    else [x % 256]

/-- Modelled from the spec: `binary.PutUvarint` on a `uint64`. -/
def PutUvarint (x : Nat) : List Nat :=
  putUvarintLoop 9 (x % 2 ^ 64)

/-- Modelled from the spec: `binary.PutVarint` on an `int64` (zig-zag, then
`PutUvarint`). -/
def PutVarint (x : Int) : List Nat :=
  let ux := ((x % 2 ^ 64).toNat * 2) % 2 ^ 64
  PutUvarint (if x < 0 then 2 ^ 64 - 1 - ux else ux)

/-- The error `io.EOF`. -/
def ioEOF : Failure := Failure.error "EOF"

/-- The error `io.ErrUnexpectedEOF`. -/
def ioErrUnexpectedEOF : Failure := Failure.error "unexpected EOF"

/-- The overflow error of `binary.ReadUvarint`. -/
def varintOverflow : Failure := Failure.error "binary: varint overflows a 64-bit integer"

/-- The loop of `binary.ReadUvarint`: `k` bytes may still be read, `i` have been
read, `x` is the value so far and `sh` the shift. -/
def readUvarintLoop : Nat → Nat → Nat → Nat → List Nat → Except Failure (Nat × List Nat)
  | 0, _, _, _, _ => .error varintOverflow
  | _ + 1, i, _, _, [] => .error (if i > 0 then ioErrUnexpectedEOF else ioEOF)
  | k + 1, i, x, sh, b :: r =>
    if b < 0x80 then
      if i = 9 ∧ b > 1 then .error varintOverflow
      else .ok ((x ||| (b <<< sh)) % 2 ^ 64, r)
    else readUvarintLoop k (i + 1) ((x ||| ((b &&& 0x7f) <<< sh)) % 2 ^ 64) (sh + 7) r

/-- Modelled from the spec: `binary.ReadUvarint`, at most ten bytes. -/
def ReadUvarint (r : List Nat) : Except Failure (Nat × List Nat) :=
  readUvarintLoop 10 0 0 0 r

/-- Modelled from the spec: `binary.ReadVarint` (undoes the zig-zag). -/
def ReadVarint (r : List Nat) : Except Failure (Int × List Nat) :=
  match ReadUvarint r with
  | .error err => .error err
  | .ok (ux, rest) =>
    let x : Int := ((ux >>> 1 : Nat) : Int)
    .ok (if ux &&& 1 ≠ 0 then -x - 1 else x, rest)

/-- Modelled from the spec: `io.CopyN(buffer, reader, n)` into a reset buffer:
exactly `n` bytes, `io.EOF` when the source ends early, nothing for `n ≤ 0`. -/
def CopyN (r : List Nat) (n : Int) : Except Failure (List Nat × List Nat) :=
  if n ≤ 0 then .ok ([], r)
  else if r.length < n.toNat then .error ioEOF
  else .ok (r.take n.toNat, r.drop n.toNat)

/-- The function `writePrefixedProto`; the destination is an in-memory byte sink,
whose `Write` never fails. -/
def writePrefixedProto (pc : Codec) (dest : List Nat) (msg : LogEntry) :
    Except Failure (List Nat) :=
  match pc.Marshal msg with
  | .error err => .error err
  | .ok msgBytes => .ok (dest ++ PutVarint (msgBytes.length : Int) ++ msgBytes)

/-- The event loop of `Write`: from `logEntry` up to `nil` or the cursor. -/
def writeLoop (pc : Codec) (s : Store) : Nat → Ptr → List Nat → Except Failure (List Nat)
  | _, none, dest => .ok dest
  | fuel, some a, dest =>
    if some a = s.l.NextEventLogEntry then .ok dest
    else
      match fuel with
      | 0 => .error Failure.diverges
      | fuel + 1 =>
        match s.heap[a]? with
        | none => .error nilDereference
        | some logEntry =>
          match logEntry.Event with
          | none => .error (Failure.panic "log-entry has nil event")
          | some ev =>
            match writePrefixedProto pc dest { Type_ := some (LogEntryType.Event (some ev)) } with
            | .error err => .error (withMessage err "could not serialize event")
            | .ok dest2 => writeLoop pc s fuel logEntry.Next dest2

/-- The method `Write`. -/
def Write (pc : Codec) (s : Store) (dest : List Nat) : Except Failure (List Nat) :=
  match NodeConfigs s with
  | .error err => .error err
  | .ok nodeConfigs =>
    match writePrefixedProto pc dest
        { Type_ := some (LogEntryType.Scenario (some
            { Name := s.l.Name, Description := s.l.Description,
              NodeConfigs := nodeConfigs })) } with
    | .error err => .error (withMessage err "could not serialize scenario")
    | .ok dest2 => writeLoop pc s s.heap.length s.l.FirstEventLogEntry dest2

/-- The reading loop of `ReadEventLog`; `eventLog` is `none` until the header has
been read. Every round reads at least one byte, so one unit of fuel per byte
(plus one) is enough. -/
def readLoop (pc : Codec) : Nat → List Nat → Option Store → Except Failure (Option Store)
  | 0, _, _ => .error Failure.diverges
  | fuel + 1, reader, eventLog =>
    match ReadVarint reader with
    | .error err => if err = ioEOF then .ok eventLog else .error err
    | .ok (l, reader1) =>
      match CopyN reader1 l with
      | .error err => .error err
      | .ok (buffer, reader2) =>
        match pc.Unmarshal buffer with
        | .error err => .error (withMessage err "could not decode log entry")
        | .ok pLogEntry =>
          match pLogEntry.Type_ with
          | none => .error (Failure.error "log entry type is nil")
          | some ty =>
            match eventLog with
            | none =>
              match ty with
              | LogEntryType.Scenario none => .error nilDereference
              | LogEntryType.Scenario (some scenario) =>
                readLoop pc fuel reader2 (some
                  { heap := []
                    l := { Name := scenario.Name, Description := scenario.Description,
                           FirstEventLogEntry := none, NextEventLogEntry := none,
                           LastConsumed := none, FakeTime := 0 } })
              | LogEntryType.Event _ =>
                .error (Failure.error "expected first log entry to be of type scenario")
            | some el =>
              match ty with
              | LogEntryType.Scenario _ =>
                .error (Failure.error "expected non-first log entry to be of type event")
              | LogEntryType.Event none => .error (Failure.error "all events must be non-nil")
              | LogEntryType.Event (some event) =>
                let eventLogEntry := el.heap.length
                let heap := el.heap ++ [{ Event := some event, Next := none, Prev := none }]
                match el.l.FirstEventLogEntry with
                | none =>
                  readLoop pc fuel reader2 (some
                    { heap := heap
                      l := { el.l with FirstEventLogEntry := some eventLogEntry
                                       NextEventLogEntry := some eventLogEntry } })
                | some _ =>
                  -- eventLogEntry.Prev = eventLog.NextEventLogEntry
                  let h1 := setPrev heap eventLogEntry el.l.NextEventLogEntry
                  -- eventLog.NextEventLogEntry.Next = eventLogEntry
                  match el.l.NextEventLogEntry with
                  | none => .error nilDereference
                  | some tail =>
                    match h1[tail]? with
                    | none => .error nilDereference
                    | some _ =>
                      readLoop pc fuel reader2 (some
                        { heap := setNext h1 tail (some eventLogEntry)
                          l := { el.l with NextEventLogEntry := some eventLogEntry } })

/-- The function `ReadEventLog` on the bytes of the source. -/
def ReadEventLog (pc : Codec) (source : List Nat) : Except Failure Store :=
  match readLoop pc (source.length + 1) source none with
  | .error err => .error err
  | .ok none => .error (Failure.error "file ended before initial scenario")
  | .ok (some eventLog) =>
    -- Reset the cursor to the beginning of the log
    .ok { eventLog with
      l := { eventLog.l with NextEventLogEntry := eventLog.l.FirstEventLogEntry } }

/-! ## Records of a stream -/

/-- Modelled from the spec: the decoding of the wire codec, frame after frame (read
the length prefix, read exactly that many bytes, deserialize) until the end of the
stream at a frame boundary; the result is the sequence of decoded records. -/
def decodeRecords (pc : Codec) : Nat → List Nat → Except Failure (List LogEntry)
  | 0, _ => .error Failure.diverges
  | fuel + 1, reader =>
    match ReadVarint reader with
    | .error err => if err = ioEOF then .ok [] else .error err
    | .ok (l, reader1) =>
      match CopyN reader1 l with
      | .error err => .error err
      | .ok (buffer, reader2) =>
        match pc.Unmarshal buffer with
        | .error err => .error (withMessage err "could not decode log entry")
        | .ok pLogEntry =>
          match decodeRecords pc fuel reader2 with
          | .error err => .error err
          | .ok rest => .ok (pLogEntry :: rest)

/-- The records of a whole stream. -/
def decodeStream (pc : Codec) (source : List Nat) : Except Failure (List LogEntry) :=
  decodeRecords pc (source.length + 1) source

/-- What one round of the loop of `ReadEventLog` does with a decoded record (the
nil check and the `switch`), as a function of the log built so far. -/
def applyRecord (eventLog : Option Store) (pLogEntry : LogEntry) : Except Failure Store :=
  match pLogEntry.Type_ with
  | none => .error (Failure.error "log entry type is nil")
  | some ty =>
    match eventLog with
    | none =>
      match ty with
      | LogEntryType.Scenario none => .error nilDereference
      | LogEntryType.Scenario (some scenario) =>
        .ok { heap := []
              l := { Name := scenario.Name, Description := scenario.Description,
                     FirstEventLogEntry := none, NextEventLogEntry := none,
                     LastConsumed := none, FakeTime := 0 } }
      | LogEntryType.Event _ =>
        .error (Failure.error "expected first log entry to be of type scenario")
    | some el =>
      match ty with
      | LogEntryType.Scenario _ =>
        .error (Failure.error "expected non-first log entry to be of type event")
      | LogEntryType.Event none => .error (Failure.error "all events must be non-nil")
      | LogEntryType.Event (some event) =>
        let eventLogEntry := el.heap.length
        let heap := el.heap ++ [{ Event := some event, Next := none, Prev := none }]
        match el.l.FirstEventLogEntry with
        | none =>
          .ok { heap := heap
                l := { el.l with FirstEventLogEntry := some eventLogEntry
                                 NextEventLogEntry := some eventLogEntry } }
        | some _ =>
          let h1 := setPrev heap eventLogEntry el.l.NextEventLogEntry
          match el.l.NextEventLogEntry with
          | none => .error nilDereference
          | some tail =>
            match h1[tail]? with
            | none => .error nilDereference
            | some _ =>
              .ok { heap := setNext h1 tail (some eventLogEntry)
                    l := { el.l with NextEventLogEntry := some eventLogEntry } }

/-- The loop of `ReadEventLog` run on a sequence of decoded records. -/
def foldRecords : Option Store → List LogEntry → Except Failure (Option Store)
  | eventLog, [] => .ok eventLog
  | eventLog, m :: ms =>
    match applyRecord eventLog m with
    | .error err => .error err
    | .ok el => foldRecords (some el) ms

/-- The result of `ReadEventLog` as a function of the decoded records. -/
def loadRecords (records : List LogEntry) : Except Failure Store :=
  match foldRecords none records with
  | .error err => .error err
  | .ok none => .error (Failure.error "file ended before initial scenario")
  | .ok (some eventLog) =>
    .ok { eventLog with
      l := { eventLog.l with NextEventLogEntry := eventLog.l.FirstEventLogEntry } }

/-- A scenario header record (with its scenario message). -/
def headerRecord (scenario : ScenarioConfig) : LogEntry :=
  { Type_ := some (LogEntryType.Scenario (some scenario)) }

/-- An event record with a non-nil event. -/
def eventRecord (event : Event) : LogEntry :=
  { Type_ := some (LogEntryType.Event (some event)) }

/-! ## Specification vocabulary -/

/-- Pointer to the first node of a node list, or `q` when the list is empty. -/
def headPtr : List (Nat × Event) → Ptr → Ptr
  | [], q => q
  | x :: _, _ => some x.1

/-- Pointer to the last node of a node list, or `p` when the list is empty. -/
def lastPtr : List (Nat × Event) → Ptr → Ptr
  | [], p => p
  | x :: xs, _ => lastPtr xs (some x.1)

/-- `Fwd heap p xs`: following `Next` from `p` visits exactly the nodes `xs` (address
and event), each carrying an event, and then reaches `nil`. -/
def Fwd (heap : List EventLogEntry) : Ptr → List (Nat × Event) → Prop
  | p, [] => p = none
  | p, x :: xs =>
    p = some x.1 ∧ ∃ e, heap[x.1]? = some e ∧ e.Event = some x.2 ∧ Fwd heap e.Next xs

/-- `Seg heap p xs q`: the nodes `xs` (address and event) form a doubly linked
segment in `heap`; the first node has `Prev = p`, the last has `Next = q`. -/
def Seg (heap : List EventLogEntry) : Ptr → List (Nat × Event) → Ptr → Prop
  | _, [], _ => True
  | p, x :: xs, q =>
    heap[x.1]? = some { Event := some x.2, Next := headPtr xs q, Prev := p } ∧
      Seg heap (some x.1) xs q

/-- The store represents the consumed nodes `cs` followed by the pending nodes `ps`. -/
structure Rep (s : Store) (cs ps : List (Nat × Event)) : Prop where
  seg : Seg s.heap none (cs ++ ps) none
  nodup : ((cs ++ ps).map Prod.fst).Nodup
  first : s.l.FirstEventLogEntry = headPtr (cs ++ ps) none
  cursor : s.l.NextEventLogEntry = headPtr ps none
  last : s.l.LastConsumed = lastPtr cs none

/-- The frame `writePrefixedProto` emits for the serialized bytes of one message. -/
def frameOf (msgBytes : List Nat) : List Nat :=
  PutVarint (msgBytes.length : Int) ++ msgBytes

/-- The log under construction inside `ReadEventLog`: the nodes `ys` are linked, and
`NextEventLogEntry` is used as the pointer to the last node. -/
structure Built (el : Store) (ys : List (Nat × Event)) : Prop where
  seg : Seg el.heap none ys none
  nodup : (ys.map Prod.fst).Nodup
  first : el.l.FirstEventLogEntry = headPtr ys none
  tail : el.l.NextEventLogEntry = lastPtr ys none
  last : el.l.LastConsumed = none
  fake : el.l.FakeTime = 0

/-- Ordered insertion as `Insert` performs it on the pending part: the new node goes
immediately before the first node whose time is strictly greater, else at the end. -/
def insTime (n : Nat × Event) : List (Nat × Event) → List (Nat × Event)
  | [] => [n]
  | x :: xs => if x.2.Time > n.2.Time then n :: x :: xs else x :: insTime n xs

/-- `Reach hist ret s`: the store `s` is reached from an empty log by `Insert` calls
(each with `Time ≥ FakeTime` at the call) and `ConsumeAndAdvance` calls; `hist` lists
the inserted events in call order, `ret` the events returned so far. -/
inductive Reach : List Event → List Event → Store → Prop
  | empty (name description : String) : Reach [] [] (emptyLog name description)
  | insert {hist ret : List Event} {s s2 : Store} (e : Event) :
      Reach hist ret s → s.l.FakeTime ≤ e.Time → Insert s e = .ok s2 →
      Reach (hist ++ [e]) ret s2
  | consume {hist ret : List Event} {s s2 : Store} (r : Option Event) :
      Reach hist ret s → ConsumeAndAdvance s = .ok (r, s2) →
      Reach hist (ret ++ r.toList) s2

/-- A log that some sequence of operations reaches from an empty log. -/
def Reachable (s : Store) : Prop := ∃ hist ret, Reach hist ret s

/-- A log reached from an empty log or from the result of a successful
`ReadEventLog` by `Insert` and `ConsumeAndAdvance` calls that return. -/
inductive ReachAny : Store → Prop
  | empty (name description : String) : ReachAny (emptyLog name description)
  | loaded (pc : Codec) (source : List Nat) {s : Store} :
      ReadEventLog pc source = .ok s → ReachAny s
  | insert {s s2 : Store} (e : Event) : ReachAny s → Insert s e = .ok s2 → ReachAny s2
  | consume {s s2 : Store} (r : Option Event) :
      ReachAny s → ConsumeAndAdvance s = .ok (r, s2) → ReachAny s2

/-- Strict order by time, ties by address (the address is the insertion number). -/
def lexLT (x y : Nat × Event) : Prop :=
  x.2.Time < y.2.Time ∨ (x.2.Time = y.2.Time ∧ x.1 < y.1)

/-- Time of the last node of a list, or `t` when the list is empty. -/
def lastTime : List (Nat × Event) → Nat → Nat
  | [], t => t
  | x :: xs, _ => lastTime xs x.2.Time

/-- The invariant of reachable stores, over the insertion history `hist` and the
returned events `ret`. -/
structure Inv (hist ret : List Event) (s : Store) (cs ps : List (Nat × Event)) : Prop where
  rep : Rep s cs ps
  heapLen : s.heap.length = hist.length
  len : (cs ++ ps).length = hist.length
  hist : ∀ x ∈ cs ++ ps, hist[x.1]? = some x.2
  ordered : (cs ++ ps).Pairwise lexLT
  ret : ret = cs.map Prod.snd
  fake : s.l.FakeTime = lastTime cs 0
  consumedLE : ∀ x ∈ cs, x.2.Time ≤ s.l.FakeTime
  pendingGE : ∀ x ∈ ps, s.l.FakeTime ≤ x.2.Time

/-- Order by time, ties by position in the insertion sequence. -/
def timeIndexLE (a b : Nat × Event) : Prop :=
  a.2.Time < b.2.Time ∨ (a.2.Time = b.2.Time ∧ a.1 ≤ b.1)

instance : DecidableRel timeIndexLE := fun a b => by
  unfold timeIndexLE; exact inferInstance

instance : IsTotal (Nat × Event) timeIndexLE :=
  ⟨fun a b => by unfold timeIndexLE; omega⟩

instance : IsTrans (Nat × Event) timeIndexLE :=
  ⟨fun a b c => by unfold timeIndexLE; omega⟩

/-- The stable sort by time of a sequence of events, following the words of the
spec: sort by time, equal times keep their order in the sequence. -/
def stableSortByTime (events : List Event) : List Event :=
  (events.enum.insertionSort timeIndexLE).map Prod.snd

/-! ## Sample data -/

/-- A process event for target `target` at time `time`. -/
def processEvent (target time : Nat) : Event :=
  { Target := target, Time := time, Type_ := some EventType.Process }

/-- The log after inserting times 10, 5, 20 for target 1 into an empty log. -/
def sampleStore : Store :=
  { heap := [{ Event := some (processEvent 1 10), Next := some 2, Prev := some 1 },
             { Event := some (processEvent 1 5), Next := some 0, Prev := none },
             { Event := some (processEvent 1 20), Next := none, Prev := some 0 }]
    l := { Name := "", Description := "", FirstEventLogEntry := some 1,
           NextEventLogEntry := some 1, LastConsumed := none, FakeTime := 0 } }

/-- The sample log after one `ConsumeAndAdvance`. -/
def sampleStoreConsumed : Store :=
  { sampleStore with
    l := { sampleStore.l with FakeTime := 5, NextEventLogEntry := some 0,
                              LastConsumed := some 1 } }

/-- A log whose entries, in list order, have the targets 5, 1, 3, 1, 5. -/
def targetsStore : Store :=
  { heap := [{ Event := some (processEvent 5 1), Next := some 1, Prev := none },
             { Event := some (processEvent 1 2), Next := some 2, Prev := some 0 },
             { Event := some (processEvent 3 3), Next := some 3, Prev := some 1 },
             { Event := some (processEvent 1 4), Next := some 4, Prev := some 2 },
             { Event := some (processEvent 5 5), Next := none, Prev := some 3 }]
    l := { Name := "", Description := "", FirstEventLogEntry := some 0,
           NextEventLogEntry := some 0, LastConsumed := none, FakeTime := 0 } }

/-- A small codec for the examples: a header with empty name and description is
the byte 0 followed by the node ids, a process event is 1, target, time. -/
def sampleCodec : Codec where
  Marshal m :=
    match m.Type_ with
    | some (LogEntryType.Scenario (some sc)) =>
      if sc.Name = "" ∧ sc.Description = "" ∧ sc.NodeConfigs.length < 1000 then
        .ok (0 :: sc.NodeConfigs.map (fun c => c.Id))
      else .error (Failure.error "unsupported")
    | some (LogEntryType.Event (some e)) =>
      if e.Type_ = some EventType.Process then .ok [1, e.Target, e.Time]
      else .error (Failure.error "unsupported")
    | _ => .error (Failure.error "unsupported")
  Unmarshal bs :=
    match bs with
    | 0 :: ids =>
      .ok { Type_ := some (LogEntryType.Scenario (some
        { Name := "", Description := "", NodeConfigs := ids.map (fun i => { Id := i }) })) }
    | [1, target, time] =>
      .ok { Type_ := some (LogEntryType.Event (some (processEvent target time))) }
    | _ => .error (Failure.error "cannot parse")

/-- A stream for the sample codec: a header and two process events whose times, 10
and then 5, are not in order. -/
def unsortedStream : List Nat := [4, 0, 1, 6, 1, 1, 10, 6, 1, 1, 5]

/-- The log `ReadEventLog` returns for `unsortedStream`. -/
def unsortedStore : Store :=
  { heap := [{ Event := some (processEvent 1 10), Next := some 1, Prev := none },
             { Event := some (processEvent 1 5), Next := none, Prev := some 0 }]
    l := { Name := "", Description := "", FirstEventLogEntry := some 0,
           NextEventLogEntry := some 0, LastConsumed := none, FakeTime := 0 } }

/-- The log after inserting one event at time 5 into an empty log and consuming it:
the head is set and the cursor is empty. -/
def drainedStore : Store :=
  { heap := [{ Event := some (processEvent 1 5), Next := none, Prev := none }]
    l := { Name := "", Description := "", FirstEventLogEntry := some 0,
           NextEventLogEntry := none, LastConsumed := some 0, FakeTime := 5 } }

/-- The log after `Insert` of a process event for node 1 at time 5, `Insert` of one
for node 2 at time 10, and one `ConsumeAndAdvance`: the entry of node 2 is pending. -/
def pendingTargetStore : Store :=
  { heap := [{ Event := some (processEvent 1 5), Next := some 1, Prev := none },
             { Event := some (processEvent 2 10), Next := none, Prev := some 0 }]
    l := { Name := "", Description := "", FirstEventLogEntry := some 0,
           NextEventLogEntry := some 1, LastConsumed := some 0, FakeTime := 5 } }

/-- The log `ReadEventLog` returns for the bytes `Write` emits for
`sampleStoreConsumed` with the sample codec. -/
def reloadedStore : Store :=
  { heap := [{ Event := some (processEvent 1 5), Next := none, Prev := none }]
    l := { Name := "", Description := "", FirstEventLogEntry := some 0,
           NextEventLogEntry := some 0, LastConsumed := none, FakeTime := 0 } }

/-! ## Heap and segment lemmas -/

theorem headPtr_append (xs ys : List (Nat × Event)) (q : Ptr) :
    headPtr (xs ++ ys) q = headPtr xs (headPtr ys q) := by
  cases xs <;> rfl

theorem lastPtr_append (xs ys : List (Nat × Event)) (p : Ptr) :
    lastPtr (xs ++ ys) p = lastPtr ys (lastPtr xs p) := by
  induction xs generalizing p with
  | nil => rfl
  | cons x xs ih => exact ih _

theorem headPtr_eq_none {xs : List (Nat × Event)} (h : headPtr xs none = none) : xs = [] := by
  cases xs with
  | nil => rfl
  | cons x xs => simp [headPtr] at h

theorem Seg_append (heap : List EventLogEntry) (xs ys : List (Nat × Event)) (p q : Ptr) :
    Seg heap p (xs ++ ys) q ↔ Seg heap p xs (headPtr ys q) ∧ Seg heap (lastPtr xs p) ys q := by
  induction xs generalizing p with
  | nil => simp [Seg, lastPtr]
  | cons x xs ih =>
    simp only [List.cons_append, Seg, lastPtr, List.append_eq, ih, headPtr_append, and_assoc]

theorem Seg_congr {heap heap2 : List EventLogEntry} {xs : List (Nat × Event)} {p q : Ptr}
    (hag : ∀ x ∈ xs, heap2[x.1]? = heap[x.1]?) (h : Seg heap p xs q) : Seg heap2 p xs q := by
  induction xs generalizing p with
  | nil => trivial
  | cons x xs ih =>
    obtain ⟨h1, h2⟩ := h
    refine ⟨?_, ih (fun y hy => hag y (List.mem_cons_of_mem _ hy)) h2⟩
    rw [hag x (List.mem_cons_self _ _)]; exact h1

theorem getElem?_modifyAt (heap : List EventLogEntry) (a b : Nat)
    (f : EventLogEntry → EventLogEntry) :
    (modifyAt heap a f)[b]? = if b = a then (heap[b]?).map f else heap[b]? := by
  unfold modifyAt
  by_cases hba : b = a
  · subst hba
    cases hb : heap[b]? with
    | none => simp [hb]
    | some e =>
      have hlt : b < heap.length := by
        by_contra hge
        rw [List.getElem?_eq_none (by omega)] at hb
        cases hb
      simp [List.getElem?_set, hlt]
  · cases ha : heap[a]? with
    | none => simp [hba]
    | some e => simp [List.getElem?_set, hba, Ne.symm hba]

theorem length_modifyAt (heap : List EventLogEntry) (a : Nat)
    (f : EventLogEntry → EventLogEntry) : (modifyAt heap a f).length = heap.length := by
  unfold modifyAt
  cases heap[a]? <;> simp

theorem Seg_lt {heap : List EventLogEntry} {xs : List (Nat × Event)} {p q : Ptr}
    (h : Seg heap p xs q) : ∀ x ∈ xs, x.1 < heap.length := by
  induction xs generalizing p with
  | nil => simp
  | cons x xs ih =>
    obtain ⟨h1, h2⟩ := h
    intro y hy
    rcases List.mem_cons.1 hy with rfl | hy
    · by_contra hge
      rw [List.getElem?_eq_none (by omega)] at h1
      cases h1
    · exact ih h2 y hy

theorem lastPtr_concat (xs : List (Nat × Event)) (x : Nat × Event) (p : Ptr) :
    lastPtr (xs ++ [x]) p = some x.1 := by
  rw [lastPtr_append]; rfl

theorem getElem?_setNext (heap : List EventLogEntry) (a b : Nat) (v : Ptr) :
    (setNext heap a v)[b]? =
      if b = a then (heap[b]?).map (fun e => { e with Next := v }) else heap[b]? :=
  getElem?_modifyAt heap a b _

theorem getElem?_setPrev (heap : List EventLogEntry) (a b : Nat) (v : Ptr) :
    (setPrev heap a v)[b]? =
      if b = a then (heap[b]?).map (fun e => { e with Prev := v }) else heap[b]? :=
  getElem?_modifyAt heap a b _

@[simp] theorem headPtr_nil (q : Ptr) : headPtr [] q = q := rfl

@[simp] theorem headPtr_cons (x : Nat × Event) (xs : List (Nat × Event)) (q : Ptr) :
    headPtr (x :: xs) q = some x.1 := rfl

@[simp] theorem lastPtr_nil (p : Ptr) : lastPtr [] p = p := rfl

theorem Seg_cons (heap : List EventLogEntry) (x : Nat × Event) (xs : List (Nat × Event))
    (p q : Ptr) :
    Seg heap p (x :: xs) q ↔
      heap[x.1]? = some { Event := some x.2, Next := headPtr xs q, Prev := p } ∧
        Seg heap (some x.1) xs q := Iff.rfl

theorem nodup_fst_append {A B : List (Nat × Event)} (h : ((A ++ B).map Prod.fst).Nodup) :
    (A.map Prod.fst).Nodup ∧ (B.map Prod.fst).Nodup ∧ ∀ x ∈ A, ∀ y ∈ B, x.1 ≠ y.1 := by
  rw [List.map_append, List.nodup_append] at h
  refine ⟨h.1, h.2.1, fun x hx y hy hxy => ?_⟩
  exact h.2.2 (List.mem_map_of_mem _ hx) (hxy ▸ List.mem_map_of_mem _ hy)

theorem nodup_fst_cons {x : Nat × Event} {B : List (Nat × Event)}
    (h : ((x :: B).map Prod.fst).Nodup) :
    (B.map Prod.fst).Nodup ∧ ∀ y ∈ B, y.1 ≠ x.1 := by
  rw [List.map_cons, List.nodup_cons] at h
  exact ⟨h.2, fun y hy hyx => h.1 (hyx ▸ List.mem_map_of_mem _ hy)⟩

theorem Seg_insert_before {heap : List EventLogEntry} {pre rest : List (Nat × Event)}
    {c : Nat × Event} {n : Nat} {e : Event}
    (hseg : Seg heap none (pre ++ c :: rest) none)
    (hnd : ((pre ++ c :: rest).map Prod.fst).Nodup)
    (hn : heap[n]? = some { Event := some e, Next := none, Prev := none })
    (hfresh : ∀ x ∈ pre ++ c :: rest, x.1 ≠ n) :
    Seg (match lastPtr pre none with
          | none => setPrev (setPrev (setNext heap n (some c.1)) n (lastPtr pre none)) c.1 (some n)
          | some pa => setNext (setPrev (setPrev (setNext heap n (some c.1)) n
              (lastPtr pre none)) c.1 (some n)) pa (some n))
      none (pre ++ (n, e) :: c :: rest) none := by
  have hcn : c.1 ≠ n := hfresh c (by simp)
  rcases List.eq_nil_or_concat pre with rfl | ⟨pre2, pa, rfl⟩
  · simp only [List.nil_append, lastPtr_nil, Seg_cons, headPtr_cons] at hseg ⊢
    obtain ⟨hc, hrest⟩ := hseg
    obtain ⟨-, hcr⟩ := nodup_fst_cons hnd
    refine ⟨?_, ?_, ?_⟩
    · simp [getElem?_setNext, getElem?_setPrev, hn, Ne.symm hcn]
    · simp [getElem?_setNext, getElem?_setPrev, hc, hcn]
    · refine Seg_congr (fun x hx => ?_) hrest
      have h1 : x.1 ≠ n := hfresh x (by simp [hx])
      have h2 : x.1 ≠ c.1 := hcr x hx
      simp [getElem?_setNext, getElem?_setPrev, h1, h2]
  · rw [List.concat_eq_append] at hseg hnd hfresh ⊢
    have hpn : pa.1 ≠ n := hfresh pa (by simp)
    rw [lastPtr_concat]
    simp only [List.append_assoc, List.singleton_append] at hseg hnd hfresh ⊢
    rw [Seg_append] at hseg ⊢
    simp only [Seg_cons, headPtr_cons, lastPtr_nil] at hseg ⊢
    obtain ⟨hpre, hpa, hc, hrest⟩ := hseg
    obtain ⟨-, hnd2, hdis⟩ := nodup_fst_append hnd
    obtain ⟨hnd3, hpa2⟩ := nodup_fst_cons hnd2
    obtain ⟨-, hcr⟩ := nodup_fst_cons hnd3
    have hpc : c.1 ≠ pa.1 := hpa2 c (by simp)
    refine ⟨?_, ?_, ?_, ?_, ?_⟩
    · refine Seg_congr (fun x hx => ?_) hpre
      have h1 : x.1 ≠ n := hfresh x (by simp [hx])
      have h2 : x.1 ≠ c.1 := hdis x hx c (by simp)
      have h3 : x.1 ≠ pa.1 := hdis x hx pa (by simp)
      simp [getElem?_setNext, getElem?_setPrev, h1, h2, h3]
    · simp [getElem?_setNext, getElem?_setPrev, hpa, hpn, Ne.symm hpc]
    · simp [getElem?_setNext, getElem?_setPrev, hn, Ne.symm hcn, Ne.symm hpn]
    · simp [getElem?_setNext, getElem?_setPrev, hc, hcn, hpc]
    · refine Seg_congr (fun x hx => ?_) hrest
      have h1 : x.1 ≠ n := hfresh x (by simp [hx])
      have h2 : x.1 ≠ c.1 := hcr x hx
      have h3 : x.1 ≠ pa.1 := hpa2 x (by simp [hx])
      simp [getElem?_setNext, getElem?_setPrev, h1, h2, h3]

theorem Seg_insert_after_last {heap : List EventLogEntry} {pre : List (Nat × Event)}
    {c : Nat × Event} {n : Nat} {e : Event}
    (hseg : Seg heap none (pre ++ [c]) none)
    (hnd : ((pre ++ [c]).map Prod.fst).Nodup)
    (hn : heap[n]? = some { Event := some e, Next := none, Prev := none })
    (hfresh : ∀ x ∈ pre ++ [c], x.1 ≠ n) :
    Seg (setPrev (setNext heap c.1 (some n)) n (some c.1)) none (pre ++ [c, (n, e)]) none := by
  have hcn : c.1 ≠ n := hfresh c (by simp)
  rw [Seg_append] at hseg ⊢
  simp only [Seg_cons, headPtr_cons, headPtr_nil, Seg, and_true] at hseg ⊢
  obtain ⟨hpre, hc⟩ := hseg
  obtain ⟨-, -, hdis⟩ := nodup_fst_append hnd
  refine ⟨?_, ?_, ?_⟩
  · refine Seg_congr (fun x hx => ?_) hpre
    have h1 : x.1 ≠ n := hfresh x (by simp [hx])
    have h2 : x.1 ≠ c.1 := hdis x hx c (by simp)
    simp [getElem?_setNext, getElem?_setPrev, h1, h2]
  · simp [getElem?_setNext, getElem?_setPrev, hc, hcn]
  · simp [getElem?_setNext, getElem?_setPrev, hn, Ne.symm hcn]

theorem length_setNext (heap : List EventLogEntry) (a : Nat) (v : Ptr) :
    (setNext heap a v).length = heap.length := length_modifyAt heap a _

theorem length_setPrev (heap : List EventLogEntry) (a : Nat) (v : Ptr) :
    (setPrev heap a v).length = heap.length := length_modifyAt heap a _

theorem headPtr_ne_of_nodup {A B : List (Nat × Event)} {c : Nat × Event}
    (hnd : ((A ++ c :: B).map Prod.fst).Nodup) :
    (some c.1 = headPtr (A ++ c :: B) none) ↔ A = [] := by
  cases A with
  | nil => simp
  | cons a A =>
    simp only [List.cons_append, headPtr_cons, Option.some.injEq, reduceCtorEq, iff_false]
    intro h
    obtain ⟨-, hne⟩ := nodup_fst_cons hnd
    exact hne c (by simp) h

theorem insTime_perm (n : Nat × Event) (xs : List (Nat × Event)) :
    (insTime n xs).Perm (n :: xs) := by
  induction xs with
  | nil => simp [insTime]
  | cons y ys ih =>
    unfold insTime
    split_ifs with h
    · exact List.Perm.refl _
    · exact (List.Perm.cons y ih).trans (List.Perm.swap n y ys)

theorem insTime_perm_ctx (n : Nat × Event) (cs ps1 xs : List (Nat × Event)) :
    (cs ++ (ps1 ++ insTime n xs)).Perm (n :: (cs ++ (ps1 ++ xs))) := by
  have h1 : (ps1 ++ insTime n xs).Perm (n :: (ps1 ++ xs)) :=
    ((insTime_perm n xs).append_left ps1).trans List.perm_middle
  exact (h1.append_left cs).trans List.perm_middle

theorem nodup_insTime {n : Nat × Event} {cs ps1 xs : List (Nat × Event)}
    (hnd : ((cs ++ (ps1 ++ xs)).map Prod.fst).Nodup)
    (hfresh : ∀ x ∈ cs ++ (ps1 ++ xs), x.1 ≠ n.1) :
    ((cs ++ (ps1 ++ insTime n xs)).map Prod.fst).Nodup := by
  rw [((insTime_perm_ctx n cs ps1 xs).map Prod.fst).nodup_iff, List.map_cons, List.nodup_cons]
  refine ⟨?_, hnd⟩
  intro hmem
  obtain ⟨x, hx, hxn⟩ := List.mem_map.1 hmem
  exact hfresh x hx hxn

theorem insertLoop_before (e : Event) (n : Nat) (cs rest ps1 : List (Nat × Event))
    (c : Nat × Event) (heap : List EventLogEntry) (l : EventLog) (fuel : Nat)
    (hrep : Rep { heap := heap, l := l } cs (ps1 ++ c :: rest))
    (hn : heap[n]? = some { Event := some e, Next := none, Prev := none })
    (hfresh : ∀ x ∈ cs ++ (ps1 ++ c :: rest), x.1 ≠ n)
    (hgt : c.2.Time > e.Time) :
    ∃ s2, insertLoop (fuel + 1) { heap := heap, l := l } n e c.1 = .ok s2 ∧
      Rep s2 cs (ps1 ++ (n, e) :: c :: rest) ∧
      s2.heap.length = heap.length ∧
      s2.l = { l with
        FirstEventLogEntry := headPtr (cs ++ (ps1 ++ (n, e) :: c :: rest)) none
        NextEventLogEntry := headPtr (ps1 ++ (n, e) :: c :: rest) none } := by
  have hseg := hrep.seg
  have hnd := hrep.nodup
  have hfirst := hrep.first
  have hcursor := hrep.cursor
  have hlast := hrep.last
  simp only at hseg hnd hfirst hcursor hlast
  have hndp := (nodup_fst_append hnd).2.1
  have hl2 : (if some c.1 = l.FirstEventLogEntry then
        { (if some c.1 = l.NextEventLogEntry then
            { l with NextEventLogEntry := some n } else l) with
          FirstEventLogEntry := some n }
      else (if some c.1 = l.NextEventLogEntry then
            { l with NextEventLogEntry := some n } else l)) =
      { l with
        FirstEventLogEntry := headPtr (cs ++ (ps1 ++ (n, e) :: c :: rest)) none
        NextEventLogEntry := headPtr (ps1 ++ (n, e) :: c :: rest) none } := by
    obtain ⟨nm, ds, f, nx, lc, ft⟩ := l
    simp only at hfirst hcursor ⊢
    subst hfirst hcursor
    have h1 := headPtr_ne_of_nodup hndp
    have h2 : (some c.1 = headPtr (cs ++ (ps1 ++ c :: rest)) none) ↔ cs ++ ps1 = [] := by
      rw [← List.append_assoc] at hnd ⊢
      exact headPtr_ne_of_nodup hnd
    simp only [h1, h2]
    cases ps1 with
    | nil =>
      cases cs with
      | nil => simp
      | cons a cs => simp
    | cons b ps1 =>
      cases cs with
      | nil => simp
      | cons a cs => simp
  rw [← List.append_assoc] at hseg hnd hfresh
  have hc := ((Seg_append _ _ _ _ _).1 hseg).2.1
  have hsegn := Seg_insert_before hseg hnd hn hfresh
  rw [List.append_assoc] at hnd hfresh hsegn
  unfold insertLoop
  simp only [hc, hgt, if_true]
  refine ⟨_, rfl, ⟨hsegn, ?_, ?_, ?_, ?_⟩, ?_, hl2⟩
  · have := @nodup_insTime (n, e) cs ps1 (c :: rest) hnd hfresh
    simpa [insTime, hgt] using this
  · rw [hl2]
  · rw [hl2]
  · rw [hl2]; exact hlast
  · cases lastPtr (cs ++ ps1) none <;>
      simp [length_setNext, length_setPrev]

theorem insertLoop_last (e : Event) (n : Nat) (cs ps1 : List (Nat × Event))
    (c : Nat × Event) (heap : List EventLogEntry) (l : EventLog) (fuel : Nat)
    (hrep : Rep { heap := heap, l := l } cs (ps1 ++ [c]))
    (hn : heap[n]? = some { Event := some e, Next := none, Prev := none })
    (hfresh : ∀ x ∈ cs ++ (ps1 ++ [c]), x.1 ≠ n)
    (hgt : ¬ c.2.Time > e.Time) :
    ∃ s2, insertLoop (fuel + 1) { heap := heap, l := l } n e c.1 = .ok s2 ∧
      Rep s2 cs (ps1 ++ [c, (n, e)]) ∧
      s2.heap.length = heap.length ∧
      s2.l = l := by
  have hseg := hrep.seg
  have hnd := hrep.nodup
  have hfirst := hrep.first
  have hcursor := hrep.cursor
  have hlast := hrep.last
  simp only at hseg hnd hfirst hcursor hlast
  rw [← List.append_assoc] at hseg hnd hfresh
  have hc := ((Seg_append _ _ _ _ _).1 hseg).2.1
  have hsegn := Seg_insert_after_last hseg hnd hn hfresh
  rw [List.append_assoc] at hnd hfresh hsegn
  simp only [headPtr_nil] at hc
  unfold insertLoop
  simp only [hc, hgt, if_false]
  refine ⟨_, rfl, ⟨hsegn, ?_, ?_, ?_, hlast⟩, ?_, rfl⟩
  · have := @nodup_insTime (n, e) cs ps1 [c] hnd hfresh
    simpa [insTime, hgt] using this
  · simp only [hfirst]
    cases cs <;> cases ps1 <;> simp
  · simp only [hcursor]
    cases ps1 <;> simp
  · simp [length_setNext, length_setPrev]

theorem insertLoop_rep (e : Event) (n : Nat) (cs : List (Nat × Event)) :
    ∀ (rest ps1 : List (Nat × Event)) (c : Nat × Event) (heap : List EventLogEntry)
      (l : EventLog) (fuel : Nat),
      Rep { heap := heap, l := l } cs (ps1 ++ c :: rest) →
      heap[n]? = some { Event := some e, Next := none, Prev := none } →
      (∀ x ∈ cs ++ (ps1 ++ c :: rest), x.1 ≠ n) →
      rest.length < fuel →
      ∃ s2, insertLoop fuel { heap := heap, l := l } n e c.1 = .ok s2 ∧
        Rep s2 cs (ps1 ++ insTime (n, e) (c :: rest)) ∧
        s2.heap.length = heap.length ∧
        s2.l = { l with
          FirstEventLogEntry := headPtr (cs ++ (ps1 ++ insTime (n, e) (c :: rest))) none
          NextEventLogEntry := headPtr (ps1 ++ insTime (n, e) (c :: rest)) none } := by
  intro rest
  induction rest with
  | nil =>
    intro ps1 c heap l fuel hrep hn hfresh hfuel
    obtain ⟨fuel, rfl⟩ : ∃ k, fuel = k + 1 := ⟨fuel - 1, by omega⟩
    by_cases hgt : c.2.Time > e.Time
    · have := insertLoop_before e n cs [] ps1 c heap l fuel hrep hn hfresh hgt
      simpa [insTime, hgt] using this
    · obtain ⟨s2, h1, h2, h3, h4⟩ := insertLoop_last e n cs ps1 c heap l fuel hrep hn hfresh hgt
      refine ⟨s2, h1, ?_, h3, ?_⟩
      · simpa [insTime, hgt] using h2
      · rw [h4]
        have hfirst := hrep.first
        have hcursor := hrep.cursor
        simp only at hfirst hcursor
        obtain ⟨nm, ds, f, nx, lc, ft⟩ := l
        simp only at hfirst hcursor ⊢
        subst hfirst hcursor
        cases cs <;> cases ps1 <;> simp [insTime, hgt]
  | cons r rest ih =>
    intro ps1 c heap l fuel hrep hn hfresh hfuel
    obtain ⟨fuel, rfl⟩ : ∃ k, fuel = k + 1 := ⟨fuel - 1, by simp at hfuel; omega⟩
    by_cases hgt : c.2.Time > e.Time
    · have := insertLoop_before e n cs (r :: rest) ps1 c heap l fuel hrep hn hfresh hgt
      simpa [insTime, hgt] using this
    · have hseg := hrep.seg
      simp only at hseg
      rw [← List.append_assoc] at hseg
      have hc := ((Seg_append _ _ _ _ _).1 hseg).2.1
      simp only [headPtr_cons] at hc
      have hrep2 : Rep { heap := heap, l := l } cs ((ps1 ++ [c]) ++ r :: rest) := by
        simpa using hrep
      have hfresh2 : ∀ x ∈ cs ++ ((ps1 ++ [c]) ++ r :: rest), x.1 ≠ n := by
        simpa using hfresh
      obtain ⟨s2, h1, h2, h3, h4⟩ :=
        ih (ps1 ++ [c]) r heap l fuel hrep2 hn hfresh2 (by simp at hfuel; omega)
      refine ⟨s2, ?_, ?_, h3, ?_⟩
      · rw [← h1]
        conv_lhs => unfold insertLoop
        simp only [hc, hgt, if_false]
      · have : insTime (n, e) (c :: r :: rest) = c :: insTime (n, e) (r :: rest) := by
          conv_lhs => unfold insTime
          simp only [hgt, if_false]
        rw [this]
        simpa using h2
      · have : insTime (n, e) (c :: r :: rest) = c :: insTime (n, e) (r :: rest) := by
          conv_lhs => unfold insTime
          simp only [hgt, if_false]
        rw [this, h4]
        simp

theorem length_le_of_nodup_lt {xs : List Nat} {n : Nat} (hnd : xs.Nodup)
    (h : ∀ x ∈ xs, x < n) : xs.length ≤ n := by
  have hsub : xs ⊆ List.range n := fun x hx => List.mem_range.2 (h x hx)
  have := (List.subperm_of_subset hnd hsub).length_le
  simpa using this

theorem Rep.length_le {s : Store} {cs ps : List (Nat × Event)} (h : Rep s cs ps) :
    (cs ++ ps).length ≤ s.heap.length := by
  have h1 := length_le_of_nodup_lt h.nodup (n := s.heap.length) (by
    intro a ha
    obtain ⟨x, hx, rfl⟩ := List.mem_map.1 ha
    exact Seg_lt h.seg x hx)
  simpa using h1

theorem Rep.alloc {s : Store} {cs ps : List (Nat × Event)} (h : Rep s cs ps)
    (x : EventLogEntry) : Rep { heap := s.heap ++ [x], l := s.l } cs ps := by
  refine ⟨?_, h.nodup, h.first, h.cursor, h.last⟩
  refine Seg_congr (fun y hy => ?_) h.seg
  have := Seg_lt h.seg y hy
  simp [List.getElem?_append_left this]

theorem Insert_rep {s : Store} {cs ps : List (Nat × Event)} (e : Event)
    (hrep : Rep s cs ps) (ht : ¬ e.Time < s.l.FakeTime) :
    ∃ s2, Insert s e = .ok s2 ∧
      Rep s2 cs (insTime (s.heap.length, e) ps) ∧
      s2.heap.length = s.heap.length + 1 ∧
      s2.l = { s.l with
        FirstEventLogEntry := headPtr (cs ++ insTime (s.heap.length, e) ps) none
        NextEventLogEntry := headPtr (insTime (s.heap.length, e) ps) none } := by
  have hfresh : ∀ x ∈ cs ++ ps, x.1 ≠ s.heap.length := fun x hx =>
    Nat.ne_of_lt (Seg_lt hrep.seg x hx)
  have hn : (s.heap ++ [({ Event := some e, Next := none, Prev := none } : EventLogEntry)])[
      s.heap.length]? = some { Event := some e, Next := none, Prev := none } := by
    simp
  have hrepa := hrep.alloc { Event := some e, Next := none, Prev := none }
  unfold Insert
  simp only [ht, if_false]
  cases hF : s.l.FirstEventLogEntry with
  | none =>
    have hnil := headPtr_eq_none (hrep.first.symm.trans hF)
    obtain ⟨rfl, rfl⟩ := List.append_eq_nil.1 hnil
    refine ⟨_, rfl, ⟨?_, ?_, ?_, ?_, ?_⟩, ?_, ?_⟩
    · simp [insTime, Seg_cons, Seg]
    · simp [insTime]
    · simp [insTime]
    · simp [insTime]
    · exact hrep.last
    · simp
    · simp [insTime]
  | some f =>
    cases hN : s.l.NextEventLogEntry with
    | none =>
      have hps := headPtr_eq_none (hrep.cursor.symm.trans hN)
      subst hps
      rcases List.eq_nil_or_concat cs with rfl | ⟨cs2, c, rfl⟩
      · have := hrep.first
        simp [hF] at this
      · rw [List.concat_eq_append] at hrep hfresh hrepa ⊢
        have hlast : s.l.LastConsumed = some c.1 := by
          rw [hrep.last, lastPtr_concat]
        have hseg := hrepa.seg
        have hnd := hrepa.nodup
        simp only [List.append_nil] at hseg hnd hfresh
        have hc := ((Seg_append _ _ _ _ _).1 hseg).2.1
        have hsegn := Seg_insert_after_last hseg hnd hn hfresh
        simp only [hlast, hc]
        refine ⟨_, rfl, ⟨?_, ?_, ?_, ?_, ?_⟩, ?_, ?_⟩
        · simpa [insTime] using hsegn
        · have := @nodup_insTime (s.heap.length, e) (cs2 ++ [c]) [] [] (by simpa using hnd)
            (by simpa using hfresh)
          simpa using this
        · show some f = _
          rw [← hF, hrep.first]
          cases cs2 <;> simp [insTime]
        · simp [insTime]
        · show some c.1 = _
          exact (lastPtr_concat _ _ _).symm
        · simp [length_setNext, length_setPrev]
        · have hf : headPtr (cs2 ++ [c] ++ insTime (s.heap.length, e) []) none = some f := by
            rw [← hF, hrep.first]
            cases cs2 <;> simp [insTime]
          rw [hf]
          obtain ⟨heap, l⟩ := s
          obtain ⟨nm, ds, f1, nx, lc, ft⟩ := l
          simp only at hF
          subst hF
          simp [insTime]
    | some cur =>
      cases ps with
      | nil =>
        have := hrep.cursor
        simp [hN] at this
      | cons c rest =>
        have hcur : cur = c.1 := by
          have := hrep.cursor
          simpa [hN] using this
        subst hcur
        have hlen := hrep.length_le
        obtain ⟨s2, h1, h2, h3, h4⟩ := insertLoop_rep e s.heap.length cs rest [] c _ s.l
          (s.heap ++ [({ Event := some e, Next := none, Prev := none } : EventLogEntry)]).length
          (by simpa using hrepa) hn (by simpa using hfresh)
          (by simp at hlen ⊢; omega)
        refine ⟨s2, ?_, ?_, ?_, ?_⟩
        · simpa using h1
        · simpa using h2
        · simpa using h3
        · simpa using h4

theorem Consume_rep_cons {s : Store} {cs ps : List (Nat × Event)} {x : Nat × Event}
    (hrep : Rep s cs (x :: ps)) :
    ConsumeAndAdvance s = .ok (some x.2,
      { s with l := { s.l with FakeTime := x.2.Time
                               NextEventLogEntry := headPtr ps none
                               LastConsumed := some x.1 } }) ∧
    Rep { s with l := { s.l with FakeTime := x.2.Time
                                 NextEventLogEntry := headPtr ps none
                                 LastConsumed := some x.1 } } (cs ++ [x]) ps := by
  have hx := ((Seg_append _ _ _ _ _).1 hrep.seg).2.1
  constructor
  · unfold ConsumeAndAdvance
    simp only [hrep.cursor, headPtr_cons, hx]
  · refine ⟨?_, ?_, ?_, ?_, ?_⟩
    · simpa using hrep.seg
    · simpa using hrep.nodup
    · simpa using hrep.first
    · rfl
    · simp [lastPtr_concat]

theorem Consume_rep_nil {s : Store} {cs : List (Nat × Event)} (hrep : Rep s cs []) :
    ConsumeAndAdvance s = .ok (none, s) := by
  unfold ConsumeAndAdvance
  simp only [hrep.cursor, headPtr_nil]

theorem walk_of_Seg {heap : List EventLogEntry} :
    ∀ (xs : List (Nat × Event)) (p : Ptr) (fuel : Nat), Seg heap p xs none →
      xs.length ≤ fuel → walk heap fuel (headPtr xs none) = .ok (xs.map Prod.fst) := by
  intro xs
  induction xs with
  | nil => intro p fuel _ _; cases fuel <;> rfl
  | cons x xs ih =>
    intro p fuel hseg hfuel
    obtain ⟨fuel, rfl⟩ : ∃ k, fuel = k + 1 := ⟨fuel - 1, by simp at hfuel; omega⟩
    obtain ⟨hx, hrest⟩ := hseg
    simp only [headPtr_cons, walk, hx, List.map_cons]
    rw [ih (some x.1) fuel hrest (by simp at hfuel; omega)]
    rfl

theorem traverse_of_Rep {s : Store} {cs ps : List (Nat × Event)} (hrep : Rep s cs ps) :
    traverse s = .ok ((cs ++ ps).map Prod.fst) := by
  unfold traverse
  rw [hrep.first]
  exact walk_of_Seg _ none _ hrep.seg hrep.length_le

theorem lastTime_concat (xs : List (Nat × Event)) (x : Nat × Event) (t : Nat) :
    lastTime (xs ++ [x]) t = x.2.Time := by
  induction xs generalizing t with
  | nil => rfl
  | cons y ys ih => exact ih _

theorem lexLT.le {x y : Nat × Event} (h : lexLT x y) : x.2.Time ≤ y.2.Time := by
  rcases h with h | ⟨h, -⟩
  · exact Nat.le_of_lt h
  · exact Nat.le_of_eq h

theorem insTime_length (n : Nat × Event) (xs : List (Nat × Event)) :
    (insTime n xs).length = xs.length + 1 := by
  simpa using (insTime_perm n xs).length_eq

theorem mem_insTime {n : Nat × Event} {xs : List (Nat × Event)} {x : Nat × Event} :
    x ∈ insTime n xs ↔ x = n ∨ x ∈ xs := by
  rw [(insTime_perm n xs).mem_iff, List.mem_cons]

theorem pairwise_insTime {n : Nat × Event} {xs : List (Nat × Event)}
    (hp : xs.Pairwise lexLT) (hlt : ∀ x ∈ xs, x.1 < n.1) :
    (insTime n xs).Pairwise lexLT := by
  induction xs with
  | nil => simp [insTime]
  | cons y ys ih =>
    rw [List.pairwise_cons] at hp
    unfold insTime
    split_ifs with hgt
    · refine List.Pairwise.cons ?_ (List.Pairwise.cons hp.1 hp.2)
      intro z hz
      rcases List.mem_cons.1 hz with rfl | hz
      · exact Or.inl hgt
      · exact Or.inl (lt_of_lt_of_le hgt (hp.1 z hz).le)
    · refine List.Pairwise.cons ?_ (ih hp.2 (fun x hx => hlt x (List.mem_cons_of_mem _ hx)))
      intro z hz
      rcases mem_insTime.1 hz with rfl | hz
      · have h1 : y.2.Time ≤ z.2.Time := Nat.le_of_not_lt hgt
        have h2 : y.1 < z.1 := hlt y (List.mem_cons_self _ _)
        rcases Nat.lt_or_eq_of_le h1 with h | h
        · exact Or.inl h
        · exact Or.inr ⟨h, h2⟩
      · exact hp.1 z hz

theorem Inv.addr_lt {hist ret : List Event} {s : Store} {cs ps : List (Nat × Event)}
    (h : Inv hist ret s cs ps) : ∀ x ∈ cs ++ ps, x.1 < hist.length := by
  intro x hx
  have := h.hist x hx
  by_contra hge
  rw [List.getElem?_eq_none (by omega)] at this
  cases this

theorem Inv.insert {hist ret : List Event} {s s2 : Store} {cs ps : List (Nat × Event)}
    (h : Inv hist ret s cs ps) (e : Event) (ht : s.l.FakeTime ≤ e.Time)
    (hins : Insert s e = .ok s2) :
    Inv (hist ++ [e]) ret s2 cs (insTime (s.heap.length, e) ps) ∧
      s2.l = { s.l with
        FirstEventLogEntry := headPtr (cs ++ insTime (s.heap.length, e) ps) none
        NextEventLogEntry := headPtr (insTime (s.heap.length, e) ps) none } := by
  obtain ⟨s3, h1, hrep, hlen, hl⟩ := Insert_rep e h.rep (Nat.not_lt.2 ht)
  rw [hins] at h1
  cases h1
  have hfake : s2.l.FakeTime = s.l.FakeTime := by rw [hl]
  refine ⟨⟨hrep, ?_, ?_, ?_, ?_, h.ret, ?_, ?_, ?_⟩, hl⟩
  · simp [hlen, h.heapLen]
  · have := h.len
    simp only [List.length_append, insTime_length] at this ⊢
    simp; omega
  · intro x hx
    rcases List.mem_append.1 hx with hx | hx
    · have h1 := h.hist x (List.mem_append_left _ hx)
      have h2 := h.addr_lt x (List.mem_append_left _ hx)
      rw [List.getElem?_append_left h2]; exact h1
    · rcases mem_insTime.1 hx with rfl | hx
      · simp [h.heapLen]
      · have h1 := h.hist x (List.mem_append_right _ hx)
        have h2 := h.addr_lt x (List.mem_append_right _ hx)
        rw [List.getElem?_append_left h2]; exact h1
  · have hord := h.ordered
    rw [List.pairwise_append] at hord ⊢
    refine ⟨hord.1, pairwise_insTime hord.2.1 ?_, ?_⟩
    · intro x hx
      rw [h.heapLen]
      exact h.addr_lt x (List.mem_append_right _ hx)
    · intro x hx y hy
      rcases mem_insTime.1 hy with rfl | hy
      · have h1 : x.2.Time ≤ e.Time := le_trans (h.consumedLE x hx) ht
        have h2 : x.1 < s.heap.length := by
          rw [h.heapLen]; exact h.addr_lt x (List.mem_append_left _ hx)
        rcases Nat.lt_or_eq_of_le h1 with h3 | h3
        · exact Or.inl h3
        · exact Or.inr ⟨h3, h2⟩
      · exact hord.2.2 x hx y hy
  · rw [hfake]; exact h.fake
  · intro x hx; rw [hfake]; exact h.consumedLE x hx
  · intro x hx
    rw [hfake]
    rcases mem_insTime.1 hx with rfl | hx
    · exact ht
    · exact h.pendingGE x hx

theorem Inv.consume {hist ret : List Event} {s s2 : Store} {cs ps : List (Nat × Event)}
    {r : Option Event} (h : Inv hist ret s cs ps)
    (hcon : ConsumeAndAdvance s = .ok (r, s2)) :
    (ps = [] ∧ r = none ∧ s2 = s) ∨
    (∃ x ps2, ps = x :: ps2 ∧ r = some x.2 ∧
      s2 = { s with l := { s.l with FakeTime := x.2.Time
                                    NextEventLogEntry := headPtr ps2 none
                                    LastConsumed := some x.1 } } ∧
      Inv hist (ret ++ [x.2]) s2 (cs ++ [x]) ps2) := by
  cases ps with
  | nil =>
    left
    rw [Consume_rep_nil h.rep] at hcon
    cases hcon
    exact ⟨rfl, rfl, rfl⟩
  | cons x ps2 =>
    right
    obtain ⟨h1, hrep⟩ := Consume_rep_cons h.rep
    rw [h1] at hcon
    cases hcon
    refine ⟨x, ps2, rfl, rfl, rfl, ⟨hrep, h.heapLen, ?_, ?_, ?_, ?_, ?_, ?_, ?_⟩⟩
    · simpa using h.len
    · simpa using h.hist
    · simpa using h.ordered
    · simp [h.ret]
    · simp [lastTime_concat]
    · intro y hy
      rcases List.mem_append.1 hy with hy | hy
      · exact le_trans (h.consumedLE y hy) (h.pendingGE x (List.mem_cons_self _ _))
      · simp at hy; subst hy; exact le_refl _
    · intro y hy
      have hord := h.ordered
      rw [List.pairwise_append, List.pairwise_cons] at hord
      exact (hord.2.1.1 y hy).le

theorem Inv.empty (name description : String) :
    Inv [] [] (emptyLog name description) [] [] := by
  refine ⟨⟨?_, ?_, ?_, ?_, ?_⟩, ?_, ?_, ?_, ?_, ?_, ?_, ?_, ?_⟩ <;>
    simp [emptyLog, Seg, lastTime]

theorem Reach.inv {hist ret : List Event} {s : Store} (h : Reach hist ret s) :
    ∃ cs ps, Inv hist ret s cs ps := by
  induction h with
  | empty name description => exact ⟨[], [], Inv.empty name description⟩
  | insert e _ ht hins ih =>
    obtain ⟨cs, ps, hinv⟩ := ih
    exact ⟨cs, _, (hinv.insert e ht hins).1⟩
  | consume r _ hcon ih =>
    obtain ⟨cs, ps, hinv⟩ := ih
    rcases hinv.consume hcon with ⟨rfl, rfl, rfl⟩ | ⟨x, ps2, rfl, rfl, rfl, hinv2⟩
    · exact ⟨cs, [], by simpa using hinv⟩
    · exact ⟨_, _, by simpa using hinv2⟩

/-! ## Observations of a represented store -/

theorem Seg_eventAt {heap : List EventLogEntry} {xs : List (Nat × Event)} {p q : Ptr}
    (h : Seg heap p xs q) : ∀ x ∈ xs, eventAt heap x.1 = some x.2 := by
  induction xs generalizing p with
  | nil => simp
  | cons y ys ih =>
    obtain ⟨h1, h2⟩ := h
    intro x hx
    rcases List.mem_cons.1 hx with rfl | hx
    · simp [eventAt, h1]
    · exact ih h2 x hx

theorem entriesOf_map_fst {heap : List EventLogEntry} {xs : List (Nat × Event)}
    (h : ∀ x ∈ xs, eventAt heap x.1 = some x.2) :
    entriesOf heap (xs.map Prod.fst) = .ok xs := by
  induction xs with
  | nil => rfl
  | cons y ys ih =>
    simp only [List.map_cons, entriesOf, h y (List.mem_cons_self _ _)]
    rw [ih (fun x hx => h x (List.mem_cons_of_mem _ hx))]
    rfl

theorem Rep.eventAt {s : Store} {cs ps : List (Nat × Event)} (h : Rep s cs ps) :
    ∀ x ∈ cs ++ ps, eventAt s.heap x.1 = some x.2 :=
  Seg_eventAt h.seg

theorem Rep.entries {s : Store} {cs ps : List (Nat × Event)} (h : Rep s cs ps) :
    entries s = .ok (cs ++ ps) := by
  unfold Testengine.entries
  rw [traverse_of_Rep h]
  exact entriesOf_map_fst h.eventAt

theorem Rep.cursor_split {s : Store} {cs ps : List (Nat × Event)} (h : Rep s cs ps) :
    ((cs ++ ps).map Prod.fst).takeWhile (fun a => decide (some a ≠ s.l.NextEventLogEntry))
        = cs.map Prod.fst ∧
    ((cs ++ ps).map Prod.fst).dropWhile (fun a => decide (some a ≠ s.l.NextEventLogEntry))
        = ps.map Prod.fst := by
  have hcs : ∀ a ∈ cs.map Prod.fst,
      (fun a => decide (some a ≠ s.l.NextEventLogEntry)) a = true := by
    intro a ha
    obtain ⟨x, hx, rfl⟩ := List.mem_map.1 ha
    rw [h.cursor]
    cases ps with
    | nil => simp
    | cons y ps =>
      have := (nodup_fst_append h.nodup).2.2 x hx y (List.mem_cons_self _ _)
      simpa using this
  rw [List.map_append, List.takeWhile_append_of_pos hcs, List.dropWhile_append_of_pos hcs]
  cases ps with
  | nil => simp
  | cons y ps =>
    have hy : some y.1 = s.l.NextEventLogEntry := by
      rw [h.cursor]; rfl
    simp [List.takeWhile_cons, List.dropWhile_cons, hy]

theorem Rep.consumedEntries {s : Store} {cs ps : List (Nat × Event)} (h : Rep s cs ps) :
    consumedEntries s = .ok cs := by
  unfold Testengine.consumedEntries consumedPart
  rw [traverse_of_Rep h]
  simp only [Except.map, h.cursor_split.1]
  exact entriesOf_map_fst (fun x hx => h.eventAt x (List.mem_append_left _ hx))

theorem Rep.pendingEntries {s : Store} {cs ps : List (Nat × Event)} (h : Rep s cs ps) :
    pendingEntries s = .ok ps := by
  unfold Testengine.pendingEntries pendingPart
  rw [traverse_of_Rep h]
  simp only [Except.map, h.cursor_split.2]
  exact entriesOf_map_fst (fun x hx => h.eventAt x (List.mem_append_right _ hx))

theorem pairwise_lexLT_sorted {xs : List (Nat × Event)} (h : xs.Pairwise lexLT) :
    List.Sorted (· ≤ ·) (xs.map (fun x => x.2.Time)) := by
  unfold List.Sorted
  rw [List.pairwise_map]
  exact h.imp (fun hxy => hxy.le)

theorem pairwise_lexLT_stable {xs : List (Nat × Event)} (h : xs.Pairwise lexLT) :
    xs.Pairwise (fun x y => x.2.Time = y.2.Time → x.1 < y.1) := by
  refine h.imp (fun {x y} hxy heq => ?_)
  rcases hxy with h1 | ⟨-, h2⟩
  · omega
  · exact h2

theorem insTime_split {n : Nat × Event} {xs : List (Nat × Event)} (h : xs.Pairwise lexLT) :
    ∃ A B, xs = A ++ B ∧ insTime n xs = A ++ n :: B ∧
      (∀ x ∈ A, x.2.Time ≤ n.2.Time) ∧ (∀ x ∈ B, n.2.Time < x.2.Time) := by
  induction xs with
  | nil => exact ⟨[], [], rfl, rfl, by simp, by simp⟩
  | cons y ys ih =>
    rw [List.pairwise_cons] at h
    by_cases hgt : y.2.Time > n.2.Time
    · refine ⟨[], y :: ys, rfl, by simp [insTime, hgt], by simp, ?_⟩
      intro x hx
      rcases List.mem_cons.1 hx with rfl | hx
      · exact hgt
      · exact lt_of_lt_of_le hgt (h.1 x hx).le
    · obtain ⟨A, B, h1, h2, h3, h4⟩ := ih h.2
      refine ⟨y :: A, B, by simp [h1], by simp [insTime, hgt, h2], ?_, h4⟩
      intro x hx
      rcases List.mem_cons.1 hx with rfl | hx
      · exact Nat.le_of_not_lt hgt
      · exact h3 x hx

theorem sublist_insTime (n : Nat × Event) (xs : List (Nat × Event)) :
    List.Sublist xs (insTime n xs) := by
  induction xs with
  | nil => simp
  | cons y ys ih =>
    unfold insTime
    split_ifs
    · exact List.sublist_cons_self _ _
    · exact ih.cons₂ _

/-! ## Reachable stores -/

theorem Inv.perm_enum {hist ret : List Event} {s : Store} {cs ps : List (Nat × Event)}
    (h : Inv hist ret s cs ps) : (cs ++ ps).Perm hist.enum := by
  have hnd : (cs ++ ps).Nodup := List.Nodup.of_map _ h.rep.nodup
  have hsub : cs ++ ps ⊆ hist.enum := fun x hx =>
    List.mem_enum_iff_getElem?.2 (h.hist x hx)
  exact (List.subperm_of_subset hnd hsub).perm_of_length_le (by simp [h.len])

theorem sublist_pair_of_pairwise {R : Nat × Event → Nat × Event → Prop}
    {xs : List (Nat × Event)} {x y : Nat × Event} (hp : xs.Pairwise R)
    (hx : x ∈ xs) (hy : y ∈ xs) (hne : x ≠ y) (hR : ¬ R y x) : List.Sublist [x, y] xs := by
  induction xs with
  | nil => cases hx
  | cons z zs ih =>
    rw [List.pairwise_cons] at hp
    rcases List.mem_cons.1 hx with hxz | hxs
    · rcases List.mem_cons.1 hy with hyz | hys
      · exact absurd (hxz.trans hyz.symm) hne
      · rw [hxz]
        exact (List.singleton_sublist.2 hys).cons₂ _
    · rcases List.mem_cons.1 hy with hyz | hys
      · rw [hyz] at hR
        exact absurd (hp.1 x hxs) hR
      · exact (ih hp.2 hxs hys).cons _

theorem Insert_ok_time {s s2 : Store} {e : Event} (h : Insert s e = .ok s2) :
    s.l.FakeTime ≤ e.Time := by
  by_contra hlt
  unfold Insert at h
  rw [if_pos (Nat.lt_of_not_le hlt)] at h
  cases h

theorem sampleStore_reach :
    Reach [processEvent 1 10, processEvent 1 5, processEvent 1 20] [] sampleStore :=
  Reach.insert (processEvent 1 20)
    (Reach.insert (processEvent 1 5)
      (Reach.insert (processEvent 1 10) (Reach.empty "" "") (by decide) rfl)
      (by decide) rfl)
    (by decide) rfl

theorem sampleStoreConsumed_reach :
    Reach [processEvent 1 10, processEvent 1 5, processEvent 1 20] [processEvent 1 5]
      sampleStoreConsumed :=
  Reach.consume (some (processEvent 1 5)) sampleStore_reach rfl

/-! ## The claims -/

/-- C1 (ordering invariant): in every log reached from the empty log by `Insert`
calls (each with `Time ≥ FakeTime` at the call) and `ConsumeAndAdvance` calls, the
traversal from `FirstEventLogEntry` along `Next` ends and the times of the visited
entries are non-decreasing. -/
theorem ordering_invariant (s : Store) (h : Reachable s) :
    ∃ xs, entries s = .ok xs ∧ List.Sorted (· ≤ ·) (xs.map (fun x => x.2.Time)) := by
  obtain ⟨hist, ret, hr⟩ := h
  obtain ⟨cs, ps, hinv⟩ := hr.inv
  exact ⟨cs ++ ps, hinv.rep.entries, pairwise_lexLT_sorted hinv.ordered⟩

/-- Witness of C1: the sample log after one consumption. -/
theorem ordering_invariant_witness :
    Reachable sampleStoreConsumed ∧
      ∃ xs, entries sampleStoreConsumed = .ok xs ∧
        List.Sorted (· ≤ ·) (xs.map (fun x => x.2.Time)) :=
  ⟨⟨_, _, sampleStoreConsumed_reach⟩,
    ordering_invariant sampleStoreConsumed ⟨_, _, sampleStoreConsumed_reach⟩⟩

/-- C2 (stable ties): in a log reached with insertion history `hist`, the entry at
address `i` holds the `i`-th inserted event (`Insert` allocates the entries one
after the other); if event `a` was inserted before event
`b` (positions `i < j` of `hist`) and they have equal times, the entry of `a` comes
before the entry of `b` in the traversal. Equivalently: `Insert` puts the new entry
after every linked entry whose time is not greater than the new time, so after all
entries of equal time. -/
theorem stable_ties (hist ret : List Event) (s : Store) (h : Reach hist ret s) :
    (∀ i a, hist[i]? = some a → eventAt s.heap i = some a) ∧
    (∃ xs, entries s = .ok xs ∧
      ∀ i j a b, i < j → hist[i]? = some a → hist[j]? = some b → a.Time = b.Time →
        List.Sublist [(i, a), (j, b)] xs) ∧
    (∀ e s2, Insert s e = .ok s2 → ∃ A B, entries s = .ok (A ++ B) ∧
        entries s2 = .ok (A ++ (s.heap.length, e) :: B) ∧
        (∀ x ∈ A, x.2.Time ≤ e.Time) ∧ ∀ x ∈ B, e.Time < x.2.Time) := by
  obtain ⟨cs, ps, hinv⟩ := h.inv
  refine ⟨?_, ⟨cs ++ ps, hinv.rep.entries, ?_⟩, ?_⟩
  · intro i a ha
    exact hinv.rep.eventAt (i, a)
      (hinv.perm_enum.mem_iff.2 (List.mk_mem_enum_iff_getElem?.2 ha))
  · intro i j a b hij ha hb hab
    have hperm := hinv.perm_enum
    have hia : (i, a) ∈ cs ++ ps := hperm.mem_iff.2 (List.mk_mem_enum_iff_getElem?.2 ha)
    have hjb : (j, b) ∈ cs ++ ps := hperm.mem_iff.2 (List.mk_mem_enum_iff_getElem?.2 hb)
    refine sublist_pair_of_pairwise hinv.ordered hia hjb ?_ ?_
    · intro heq
      have : i = j := congrArg Prod.fst heq
      omega
    · intro hlt
      rcases hlt with h1 | ⟨-, h2⟩
      · simp only at h1; omega
      · simp only at h2; omega
  · intro e s2 hins
    have ht := Insert_ok_time hins
    obtain ⟨hinv2, -⟩ := hinv.insert e ht hins
    have hord := hinv.ordered
    rw [List.pairwise_append] at hord
    obtain ⟨A, B, h1, h2, h3, h4⟩ := insTime_split (n := (s.heap.length, e)) hord.2.1
    refine ⟨cs ++ A, B, ?_, ?_, ?_, h4⟩
    · rw [hinv.rep.entries, h1, List.append_assoc]
    · rw [hinv2.rep.entries, h2, List.append_assoc]
    · intro x hx
      rcases List.mem_append.1 hx with hx | hx
      · exact le_trans (hinv.consumedLE x hx) ht
      · exact h3 x hx

/-- Witness of C2: the sample log after one consumption. -/
theorem stable_ties_witness :
    Reach [processEvent 1 10, processEvent 1 5, processEvent 1 20] [processEvent 1 5]
      sampleStoreConsumed ∧
    ((∀ i a, [processEvent 1 10, processEvent 1 5, processEvent 1 20][i]? = some a →
      eventAt sampleStoreConsumed.heap i = some a) ∧
    (∃ xs, entries sampleStoreConsumed = .ok xs ∧
      ∀ i j a b, i < j →
        [processEvent 1 10, processEvent 1 5, processEvent 1 20][i]? = some a →
        [processEvent 1 10, processEvent 1 5, processEvent 1 20][j]? = some b →
        a.Time = b.Time → List.Sublist [(i, a), (j, b)] xs) ∧
    (∀ e s2, Insert sampleStoreConsumed e = .ok s2 → ∃ A B,
        entries sampleStoreConsumed = .ok (A ++ B) ∧
        entries s2 = .ok (A ++ (sampleStoreConsumed.heap.length, e) :: B) ∧
        (∀ x ∈ A, x.2.Time ≤ e.Time) ∧ ∀ x ∈ B, e.Time < x.2.Time)) :=
  ⟨sampleStoreConsumed_reach, stable_ties _ _ _ sampleStoreConsumed_reach⟩

/-- C3 (past rejection): for every log and every event with `Time < FakeTime`,
`Insert` panics with "attempted to modify the past" and the store at the panic is
the store before the call; for every reachable log and every event with
`Time ≥ FakeTime`, `Insert` returns normally. -/
theorem past_rejection (s : Store) (e : Event) :
    (e.Time < s.l.FakeTime →
      Insert s e = .error (Failure.panic "attempted to modify the past", s)) ∧
    (Reachable s → s.l.FakeTime ≤ e.Time → ∃ s2, Insert s e = .ok s2) := by
  constructor
  · intro hlt
    unfold Insert
    rw [if_pos hlt]
  · rintro ⟨hist, ret, hr⟩ ht
    obtain ⟨cs, ps, hinv⟩ := hr.inv
    obtain ⟨s2, h1, -⟩ := Insert_rep e hinv.rep (Nat.not_lt.2 ht)
    exact ⟨s2, h1⟩

/-- Witness of C3: times 4 and 5 on the sample log whose `FakeTime` is 5. -/
theorem past_rejection_witness :
    Insert sampleStoreConsumed (processEvent 1 4) =
      .error (Failure.panic "attempted to modify the past", sampleStoreConsumed) ∧
    ∃ s2, Insert sampleStoreConsumed (processEvent 1 5) = .ok s2 :=
  ⟨(past_rejection sampleStoreConsumed (processEvent 1 4)).1 (by decide),
    (past_rejection sampleStoreConsumed (processEvent 1 5)).2
      ⟨_, _, sampleStoreConsumed_reach⟩ (by decide)⟩

theorem insTime_ne_nil (n : Nat × Event) (xs : List (Nat × Event)) : insTime n xs ≠ [] := by
  intro h
  have := insTime_length n xs
  rw [h] at this
  simp at this

theorem headPtr_eq_head? (xs : List (Nat × Event)) :
    headPtr xs none = xs.head?.map Prod.fst := by
  cases xs <;> rfl

theorem ConsumeAndAdvance_spec (s : Store) :
    (s.l.NextEventLogEntry = none → ConsumeAndAdvance s = .ok (none, s)) ∧
    (∀ a entry ev, s.l.NextEventLogEntry = some a → s.heap[a]? = some entry →
      entry.Event = some ev →
      ∃ s2, ConsumeAndAdvance s = .ok (some ev, s2) ∧
        s2.l.FakeTime = ev.Time ∧ s2.l.LastConsumed = some a ∧
        s2.l.NextEventLogEntry = entry.Next ∧
        s2.l.FirstEventLogEntry = s.l.FirstEventLogEntry ∧
        s2.l.Name = s.l.Name ∧ s2.l.Description = s.l.Description ∧
        s2.heap = s.heap ∧ traverse s2 = traverse s) := by
  constructor
  · intro h
    unfold ConsumeAndAdvance
    rw [h]
  · intro a entry ev h1 h2 h3
    refine ⟨{ s with l := { s.l with FakeTime := ev.Time, NextEventLogEntry := entry.Next,
                                      LastConsumed := some a } },
      ?_, rfl, rfl, rfl, rfl, rfl, rfl, rfl, rfl⟩
    unfold ConsumeAndAdvance
    simp only [h1, h2, h3]

/-- C5 (consume monotonicity): in a log reached with returned events `ret` (the
non-nil results of the `ConsumeAndAdvance` calls so far, in order), the times of
`ret` are non-decreasing; neither `Insert` nor `ConsumeAndAdvance` decreases
`FakeTime`; a `ConsumeAndAdvance` that returns nil leaves the store as it is, so every
further call returns nil as well; and after an `Insert` the next `ConsumeAndAdvance`
returns a non-nil event. -/
theorem consume_monotonicity (hist ret : List Event) (s : Store) (h : Reach hist ret s) :
    List.Sorted (· ≤ ·) (ret.map (fun ev => ev.Time)) ∧
    (∀ e s2, Insert s e = .ok s2 → s.l.FakeTime ≤ s2.l.FakeTime) ∧
    (∀ r s2, ConsumeAndAdvance s = .ok (r, s2) → s.l.FakeTime ≤ s2.l.FakeTime) ∧
    (∀ s2, ConsumeAndAdvance s = .ok (none, s2) →
      s2 = s ∧ ConsumeAndAdvance s2 = .ok (none, s2)) ∧
    (∀ e s1, Insert s e = .ok s1 → ∃ ev s2, ConsumeAndAdvance s1 = .ok (some ev, s2)) := by
  obtain ⟨cs, ps, hinv⟩ := h.inv
  refine ⟨?_, ?_, ?_, ?_, ?_⟩
  · rw [hinv.ret, List.map_map]
    exact pairwise_lexLT_sorted (List.pairwise_append.1 hinv.ordered).1
  · intro e s2 hins
    obtain ⟨-, hl⟩ := hinv.insert e (Insert_ok_time hins) hins
    rw [hl]
  · intro r s2 hcon
    rcases hinv.consume hcon with ⟨-, -, rfl⟩ | ⟨x, ps2, rfl, -, rfl, -⟩
    · exact le_refl _
    · exact hinv.pendingGE x (List.mem_cons_self _ _)
  · intro s2 hcon
    rcases hinv.consume hcon with ⟨-, -, rfl⟩ | ⟨x, ps2, -, hr, -, -⟩
    · exact ⟨rfl, hcon⟩
    · cases hr
  · intro e s1 hins
    obtain ⟨hinv1, -⟩ := hinv.insert e (Insert_ok_time hins) hins
    cases hps : insTime (s.heap.length, e) ps with
    | nil => exact absurd hps (insTime_ne_nil _ _)
    | cons x rest =>
      rw [hps] at hinv1
      exact ⟨x.2, _, (Consume_rep_cons hinv1.rep).1⟩

/-- Witness of C5: the sample log after one consumption. -/
theorem consume_monotonicity_witness :
    Reach [processEvent 1 10, processEvent 1 5, processEvent 1 20] [processEvent 1 5]
      sampleStoreConsumed ∧
    (List.Sorted (· ≤ ·) ([processEvent 1 5].map (fun ev => ev.Time)) ∧
    (∀ e s2, Insert sampleStoreConsumed e = .ok s2 →
      sampleStoreConsumed.l.FakeTime ≤ s2.l.FakeTime) ∧
    (∀ r s2, ConsumeAndAdvance sampleStoreConsumed = .ok (r, s2) →
      sampleStoreConsumed.l.FakeTime ≤ s2.l.FakeTime) ∧
    (∀ s2, ConsumeAndAdvance sampleStoreConsumed = .ok (none, s2) →
      s2 = sampleStoreConsumed ∧ ConsumeAndAdvance s2 = .ok (none, s2)) ∧
    (∀ e s1, Insert sampleStoreConsumed e = .ok s1 →
      ∃ ev s2, ConsumeAndAdvance s1 = .ok (some ev, s2))) :=
  ⟨sampleStoreConsumed_reach, consume_monotonicity _ _ _ sampleStoreConsumed_reach⟩

/-- C7 (Insert frame condition): on a reachable log, `Insert` of an event with
`Time ≥ FakeTime` returns normally, leaves `FakeTime` and `LastConsumed` unchanged,
leaves the consumed part (the entries strictly before the cursor) identical in
content and order, keeps the pending entries in their relative order (the new
pending part is the old one plus the new entry), and afterwards the cursor is the
first entry after the consumed part; the new entry is the cursor exactly when the
cursor was empty or the new time is strictly less than the time of the old cursor
entry. -/
theorem insert_frame (s : Store) (e : Event) (h : Reachable s)
    (ht : s.l.FakeTime ≤ e.Time) :
    ∃ s2 cs ps ps2, Insert s e = .ok s2 ∧
      s2.l.FakeTime = s.l.FakeTime ∧ s2.l.LastConsumed = s.l.LastConsumed ∧
      consumedEntries s = .ok cs ∧ pendingEntries s = .ok ps ∧
      consumedEntries s2 = .ok cs ∧ pendingEntries s2 = .ok ps2 ∧
      entries s2 = .ok (cs ++ ps2) ∧
      List.Sublist ps ps2 ∧ ps2.Perm ((s.heap.length, e) :: ps) ∧
      s2.l.NextEventLogEntry = ps2.head?.map Prod.fst ∧
      (s2.l.NextEventLogEntry = some s.heap.length ↔
        (s.l.NextEventLogEntry = none ∨
          ∃ a ev, s.l.NextEventLogEntry = some a ∧ eventAt s.heap a = some ev ∧
            e.Time < ev.Time)) := by
  obtain ⟨hist, ret, hr⟩ := h
  obtain ⟨cs, ps, hinv⟩ := hr.inv
  obtain ⟨s2, hins, -⟩ := Insert_rep e hinv.rep (Nat.not_lt.2 ht)
  obtain ⟨hinv2, hl⟩ := hinv.insert e ht hins
  refine ⟨s2, cs, ps, insTime (s.heap.length, e) ps, hins, by rw [hl], by rw [hl],
    hinv.rep.consumedEntries, hinv.rep.pendingEntries, hinv2.rep.consumedEntries,
    hinv2.rep.pendingEntries, hinv2.rep.entries, sublist_insTime _ _, insTime_perm _ _,
    ?_, ?_⟩
  · rw [hinv2.rep.cursor, headPtr_eq_head?]
  · rw [hinv2.rep.cursor, hinv.rep.cursor]
    cases ps with
    | nil => simp [insTime]
    | cons c rest =>
      have hc : eventAt s.heap c.1 = some c.2 :=
        hinv.rep.eventAt c (List.mem_append_right _ (List.mem_cons_self _ _))
      have hlt : c.1 < s.heap.length := by
        rw [hinv.heapLen]
        exact hinv.addr_lt c (List.mem_append_right _ (List.mem_cons_self _ _))
      by_cases hgt : c.2.Time > e.Time
      · simp only [insTime, hgt, if_true, headPtr_cons, true_iff]
        exact Or.inr ⟨c.1, c.2, rfl, hc, hgt⟩
      · simp only [insTime, hgt, if_false, headPtr_cons, Option.some.injEq]
        constructor
        · intro h1; omega
        · rintro (h1 | ⟨a, ev, h1, h2, h3⟩)
          · cases h1
          · cases h1
            rw [hc] at h2
            cases h2
            exact absurd h3 hgt

/-- Witness of C7: inserting time 7 into the sample log after one consumption. -/
theorem insert_frame_witness :
    Reachable sampleStoreConsumed ∧
      sampleStoreConsumed.l.FakeTime ≤ (processEvent 2 7).Time ∧
    ∃ s2 cs ps ps2, Insert sampleStoreConsumed (processEvent 2 7) = .ok s2 ∧
      s2.l.FakeTime = sampleStoreConsumed.l.FakeTime ∧
      s2.l.LastConsumed = sampleStoreConsumed.l.LastConsumed ∧
      consumedEntries sampleStoreConsumed = .ok cs ∧
      pendingEntries sampleStoreConsumed = .ok ps ∧
      consumedEntries s2 = .ok cs ∧ pendingEntries s2 = .ok ps2 ∧
      entries s2 = .ok (cs ++ ps2) ∧
      List.Sublist ps ps2 ∧
      ps2.Perm ((sampleStoreConsumed.heap.length, processEvent 2 7) :: ps) ∧
      s2.l.NextEventLogEntry = ps2.head?.map Prod.fst ∧
      (s2.l.NextEventLogEntry = some sampleStoreConsumed.heap.length ↔
        (sampleStoreConsumed.l.NextEventLogEntry = none ∨
          ∃ a ev, sampleStoreConsumed.l.NextEventLogEntry = some a ∧
            eventAt sampleStoreConsumed.heap a = some ev ∧
            (processEvent 2 7).Time < ev.Time)) :=
  ⟨⟨_, _, sampleStoreConsumed_reach⟩, by decide,
    insert_frame sampleStoreConsumed (processEvent 2 7) ⟨_, _, sampleStoreConsumed_reach⟩
      (by decide)⟩

/-- C8 (FakeTime invariant): in a log reached with returned events `ret`, if nothing
has been consumed `FakeTime` is 0 (and `LastConsumed` is nil), otherwise `FakeTime` is
the time of the last returned event, which is the event of the `LastConsumed` entry;
every entry before the cursor has `Time ≤ FakeTime` and every entry at or after the
cursor has `Time ≥ FakeTime`. -/
theorem fakeTime_invariant (hist ret : List Event) (s : Store) (h : Reach hist ret s) :
    (ret = [] → s.l.FakeTime = 0 ∧ s.l.LastConsumed = none) ∧
    (∀ ev, ret.getLast? = some ev →
      s.l.FakeTime = ev.Time ∧
        ∃ a, s.l.LastConsumed = some a ∧ eventAt s.heap a = some ev) ∧
    ∃ cs ps, consumedEntries s = .ok cs ∧ pendingEntries s = .ok ps ∧
      (∀ x ∈ cs, x.2.Time ≤ s.l.FakeTime) ∧ (∀ x ∈ ps, s.l.FakeTime ≤ x.2.Time) := by
  obtain ⟨cs, ps, hinv⟩ := h.inv
  refine ⟨?_, ?_, cs, ps, hinv.rep.consumedEntries, hinv.rep.pendingEntries,
    hinv.consumedLE, hinv.pendingGE⟩
  · intro hret
    have hcs : cs = [] := by
      have := hinv.ret
      rw [hret] at this
      exact List.map_eq_nil_iff.1 this.symm
    subst hcs
    exact ⟨hinv.fake, hinv.rep.last⟩
  · intro ev hev
    rcases List.eq_nil_or_concat cs with hcs | ⟨cs2, x, hcs⟩
    · subst hcs
      have := hinv.ret
      simp only [List.map_nil] at this
      rw [this] at hev
      cases hev
    · rw [List.concat_eq_append] at hcs
      subst hcs
      have hx : x.2 = ev := by
        have := hinv.ret
        rw [this] at hev
        simpa using hev
      subst hx
      refine ⟨?_, x.1, ?_, ?_⟩
      · rw [hinv.fake, lastTime_concat]
      · rw [hinv.rep.last, lastPtr_concat]
      · exact hinv.rep.eventAt x (by simp)

/-- Witness of C8: the sample log after one consumption. -/
theorem fakeTime_invariant_witness :
    Reach [processEvent 1 10, processEvent 1 5, processEvent 1 20] [processEvent 1 5]
      sampleStoreConsumed ∧
    (([processEvent 1 5] = [] →
      sampleStoreConsumed.l.FakeTime = 0 ∧ sampleStoreConsumed.l.LastConsumed = none) ∧
    (∀ ev, [processEvent 1 5].getLast? = some ev →
      sampleStoreConsumed.l.FakeTime = ev.Time ∧
        ∃ a, sampleStoreConsumed.l.LastConsumed = some a ∧
          eventAt sampleStoreConsumed.heap a = some ev) ∧
    ∃ cs ps, consumedEntries sampleStoreConsumed = .ok cs ∧
      pendingEntries sampleStoreConsumed = .ok ps ∧
      (∀ x ∈ cs, x.2.Time ≤ sampleStoreConsumed.l.FakeTime) ∧
      (∀ x ∈ ps, sampleStoreConsumed.l.FakeTime ≤ x.2.Time)) :=
  ⟨sampleStoreConsumed_reach, fakeTime_invariant _ _ _ sampleStoreConsumed_reach⟩

/-! ## Batch insertion -/

theorem eq_of_perm_of_timeIndexLE {l1 l2 : List (Nat × Event)} (hp : l1.Perm l2)
    (h1 : l1.Pairwise timeIndexLE) (h2 : l2.Pairwise timeIndexLE)
    (hnd : (l1.map Prod.fst).Nodup) : l1 = l2 := by
  induction l1 generalizing l2 with
  | nil => exact (List.Perm.nil_eq hp)
  | cons a t ih =>
    cases l2 with
    | nil => exact absurd hp.symm (List.Perm.nil_eq · |> fun h => by cases h)
    | cons b u =>
      rw [List.pairwise_cons] at h1 h2
      obtain ⟨hndt, hat⟩ := nodup_fst_cons hnd
      have hab : a = b := by
        have ha : a ∈ b :: u := hp.mem_iff.1 (List.mem_cons_self _ _)
        have hb : b ∈ a :: t := hp.mem_iff.2 (List.mem_cons_self _ _)
        rcases List.mem_cons.1 ha with ha | ha
        · exact ha
        · rcases List.mem_cons.1 hb with hb | hb
          · exact hb.symm
          · exfalso
            have r1 := h1.1 b hb
            have r2 := h2.1 a ha
            have hne := hat b hb
            unfold timeIndexLE at r1 r2
            omega
      subst hab
      rw [ih (List.Perm.cons_inv hp) h1.2 h2.2 hndt]

theorem lexLT.timeIndexLE {x y : Nat × Event} (h : lexLT x y) : timeIndexLE x y := by
  unfold lexLT at h
  unfold Testengine.timeIndexLE
  omega

theorem Inv.stableSort {hist : List Event} {s : Store} {cs ps : List (Nat × Event)}
    (h : Inv hist [] s cs ps) :
    cs = [] ∧ ps.map Prod.snd = stableSortByTime hist ∧ ps.length = hist.length ∧
      s.l.FakeTime = 0 := by
  have hcs : cs = [] := List.map_eq_nil_iff.1 h.ret.symm
  subst hcs
  refine ⟨rfl, ?_, by simpa using h.len, h.fake⟩
  have hperm : ps.Perm (hist.enum.insertionSort timeIndexLE) := by
    have := h.perm_enum
    simp only [List.nil_append] at this
    exact this.trans (List.perm_insertionSort _ _).symm
  have hs1 : ps.Pairwise timeIndexLE := by
    have := h.ordered
    simp only [List.nil_append] at this
    exact this.imp (fun hxy => hxy.timeIndexLE)
  have hnd : (ps.map Prod.fst).Nodup := by simpa using h.rep.nodup
  unfold stableSortByTime
  rw [← eq_of_perm_of_timeIndexLE hperm hs1 (List.sorted_insertionSort _ _) hnd]

theorem insertAll_reach {hist : List Event} {s : Store} (h : Reach hist [] s) :
    ∀ events : List Event, ∃ s2, insertAll s events = .ok s2 ∧
      Reach (hist ++ events) [] s2 := by
  intro events
  induction events generalizing hist s with
  | nil => exact ⟨s, rfl, by simpa using h⟩
  | cons e es ih =>
    obtain ⟨cs, ps, hinv⟩ := h.inv
    have hft : s.l.FakeTime ≤ e.Time := by
      rw [hinv.stableSort.2.2.2]; exact Nat.zero_le _
    obtain ⟨s1, hins, -⟩ := Insert_rep e hinv.rep (Nat.not_lt.2 hft)
    obtain ⟨s2, h2, hr2⟩ := ih (Reach.insert e h hft hins)
    refine ⟨s2, ?_, by simpa using hr2⟩
    simp only [insertAll, hins, h2]

theorem lastTime_eq_getLast? (ps : List (Nat × Event)) (t : Nat) :
    lastTime ps t = (((ps.map Prod.snd).getLast?).map (fun e => e.Time)).getD t := by
  induction ps generalizing t with
  | nil => rfl
  | cons x xs ih =>
    rw [lastTime, ih]
    cases xs with
    | nil => rfl
    | cons y ys =>
      simp only [List.map_cons, List.getLast?_cons_cons]
      cases hz : (y.2 :: List.map Prod.snd ys).getLast? with
      | none => simp at hz
      | some z => rfl

theorem consumeTrace_rep : ∀ (ps cs : List (Nat × Event)) (s : Store), Rep s cs ps →
    consumeTrace (ps.length + 1) s =
      .ok (ps.map (fun x => (some x.2, x.2.Time)) ++ [(none, lastTime ps s.l.FakeTime)]) := by
  intro ps
  induction ps with
  | nil =>
    intro cs s hrep
    simp only [List.length_nil, consumeTrace, Consume_rep_nil hrep]
    rfl
  | cons x ps ih =>
    intro cs s hrep
    obtain ⟨h1, h2⟩ := Consume_rep_cons hrep
    have := ih _ _ h2
    simp only [List.length_cons]
    rw [consumeTrace, h1]
    simp only [this]
    rfl

/-- C6 (batch insert equals stable sort): inserting any finite list of events one by
one into an empty log succeeds, and then the traversal from the head carries exactly
the stable sort by time of the insertion sequence; one `ConsumeAndAdvance` call per
event returns the events in that order, `FakeTime` after each call being the time of
the event it returned, and one more call returns nil. Instance: times 10, 5, 20 for
target 1 give the traversal 5, 10, 20 and `FakeTime` 5, 10, 20. -/
theorem batch_insert_stable_sort (name description : String) (events : List Event) :
    (∃ s, insertAll (emptyLog name description) events = .ok s ∧
      (∃ xs, entries s = .ok xs ∧ xs.map Prod.snd = stableSortByTime events) ∧
      consumeTrace (events.length + 1) s =
        .ok ((stableSortByTime events).map (fun e => (some e, e.Time)) ++
          [(none, (((stableSortByTime events).getLast?).map (fun e => e.Time)).getD 0)])) ∧
    (insertAll (emptyLog "" "") [processEvent 1 10, processEvent 1 5, processEvent 1 20]
        = .ok sampleStore ∧
      entries sampleStore =
        .ok [(1, processEvent 1 5), (0, processEvent 1 10), (2, processEvent 1 20)] ∧
      consumeTrace 4 sampleStore =
        .ok [(some (processEvent 1 5), 5), (some (processEvent 1 10), 10),
             (some (processEvent 1 20), 20), (none, 20)]) := by
  refine ⟨?_, rfl, rfl, rfl⟩
  obtain ⟨s, hins, hr⟩ := insertAll_reach (Reach.empty name description) events
  simp only [List.nil_append] at hr
  obtain ⟨cs, ps, hinv⟩ := hr.inv
  obtain ⟨hcs, hsort, hlen, hft⟩ := hinv.stableSort
  subst hcs
  refine ⟨s, hins, ⟨ps, by simpa using hinv.rep.entries, hsort⟩, ?_⟩
  rw [← hlen, consumeTrace_rep ps [] s hinv.rep, hft, lastTime_eq_getLast?, ← hsort]
  simp [List.map_map, Function.comp_def]

/-! ## Forward chains -/

theorem Fwd_functional {heap : List EventLogEntry} :
    ∀ (l1 l2 : List (Nat × Event)) (p : Ptr), Fwd heap p l1 → Fwd heap p l2 → l1 = l2 := by
  intro l1
  induction l1 with
  | nil =>
    intro l2 p h1 h2
    cases l2 with
    | nil => rfl
    | cons b u =>
      simp only [Fwd] at h1 h2
      rw [h1] at h2
      cases h2.1
  | cons a t ih =>
    intro l2 p h1 h2
    cases l2 with
    | nil =>
      simp only [Fwd] at h1 h2
      rw [h2] at h1
      cases h1.1
    | cons b u =>
      obtain ⟨hp1, e1, he1, hev1, hn1⟩ := h1
      obtain ⟨hp2, e2, he2, hev2, hn2⟩ := h2
      have hab : a.1 = b.1 := by
        rw [hp1] at hp2
        exact Option.some.inj hp2
      rw [hab, he2] at he1
      cases he1
      have hab2 : a.2 = b.2 := by
        rw [hev1] at hev2
        exact Option.some.inj hev2
      have : a = b := Prod.ext hab hab2
      subst this
      rw [ih u _ hn1 hn2]

theorem Fwd_suffix {heap : List EventLogEntry} :
    ∀ (A C : List (Nat × Event)) (p : Ptr), Fwd heap p (A ++ C) → ∃ q, Fwd heap q C := by
  intro A
  induction A with
  | nil => intro C p h; exact ⟨p, h⟩
  | cons a A ih =>
    intro C p h
    obtain ⟨-, e, -, -, hn⟩ := h
    exact ih C _ hn

theorem Fwd_nodup {heap : List EventLogEntry} :
    ∀ (xs : List (Nat × Event)) (p : Ptr), Fwd heap p xs → (xs.map Prod.fst).Nodup := by
  intro xs
  induction xs with
  | nil => intro p _; simp
  | cons x xs ih =>
    intro p h
    have h0 := h
    obtain ⟨hp, e, he, hev, hn⟩ := h
    rw [List.map_cons, List.nodup_cons]
    refine ⟨?_, ih _ hn⟩
    intro hmem
    obtain ⟨y, hy, hyx⟩ := List.mem_map.1 hmem
    obtain ⟨A, B, hAB⟩ := List.append_of_mem hy
    rw [hAB] at hn
    obtain ⟨q, hq⟩ := Fwd_suffix A (y :: B) _ hn
    have hq2 : q = p := by
      rw [hq.1, hp, hyx]
    rw [hq2] at hq
    have := Fwd_functional _ _ _ hq h0
    have hlen := congrArg List.length this
    rw [hAB] at hlen
    simp at hlen
    omega

theorem Fwd_lt {heap : List EventLogEntry} :
    ∀ (xs : List (Nat × Event)) (p : Ptr), Fwd heap p xs → ∀ x ∈ xs, x.1 < heap.length := by
  intro xs
  induction xs with
  | nil => intro p _ x hx; cases hx
  | cons y ys ih =>
    intro p h x hx
    obtain ⟨-, e, he, -, hn⟩ := h
    rcases List.mem_cons.1 hx with rfl | hx
    · by_contra hge
      rw [List.getElem?_eq_none (by omega)] at he
      cases he
    · exact ih _ hn x hx

theorem Fwd_length_le {heap : List EventLogEntry} {xs : List (Nat × Event)} {p : Ptr}
    (h : Fwd heap p xs) : xs.length ≤ heap.length := by
  have := length_le_of_nodup_lt (Fwd_nodup xs p h) (n := heap.length) (by
    intro a ha
    obtain ⟨x, hx, rfl⟩ := List.mem_map.1 ha
    exact Fwd_lt xs p h x hx)
  simpa using this

theorem Seg_Fwd {heap : List EventLogEntry} :
    ∀ (xs : List (Nat × Event)) (p : Ptr), Seg heap p xs none → Fwd heap (headPtr xs none) xs := by
  intro xs
  induction xs with
  | nil => intro p _; rfl
  | cons x xs ih =>
    intro p h
    obtain ⟨h1, h2⟩ := h
    exact ⟨rfl, _, h1, rfl, ih _ h2⟩

/-! ## NodeConfigs -/

theorem nodeConfigsLoop_spec {heap : List EventLogEntry} :
    ∀ (xs : List (Nat × Event)) (p : Ptr) (fuel : Nat) (idMap : List Nat)
      (acc : List NodeConfig),
      Fwd heap p xs → xs.length ≤ fuel →
      (∀ t, t ∈ idMap ↔ t ∈ acc.map (fun c => c.Id)) →
      (acc.map (fun c => c.Id)).Nodup →
      ∃ res, nodeConfigsLoop heap fuel p idMap acc = .ok res ∧
        (res.map (fun c => c.Id)).Nodup ∧
        ∀ t, t ∈ res.map (fun c => c.Id) ↔
          (t ∈ acc.map (fun c => c.Id) ∨ ∃ x ∈ xs, x.2.Target = t) := by
  intro xs
  induction xs with
  | nil =>
    intro p fuel idMap acc h _ _ hnd
    simp only [Fwd] at h
    subst h
    refine ⟨acc, ?_, hnd, by simp⟩
    cases fuel <;> rfl
  | cons x xs ih =>
    intro p fuel idMap acc h hfuel hmap hnd
    obtain ⟨hp, e, he, hev, hn⟩ := h
    subst hp
    obtain ⟨fuel, rfl⟩ : ∃ k, fuel = k + 1 := ⟨fuel - 1, by simp at hfuel; omega⟩
    simp only [nodeConfigsLoop, he, hev]
    by_cases hin : x.2.Target ∈ idMap
    · simp only [hin, if_true]
      obtain ⟨res, h1, h2, h3⟩ := ih e.Next fuel idMap acc hn (by simp at hfuel; omega) hmap hnd
      refine ⟨res, h1, h2, fun t => ?_⟩
      rw [h3 t]
      constructor
      · rintro (h | ⟨y, hy, hyt⟩)
        · exact Or.inl h
        · exact Or.inr ⟨y, List.mem_cons_of_mem _ hy, hyt⟩
      · rintro (h | ⟨y, hy, hyt⟩)
        · exact Or.inl h
        · rcases List.mem_cons.1 hy with rfl | hy
          · left
            rw [← hyt]
            exact (hmap _).1 hin
          · exact Or.inr ⟨y, hy, hyt⟩
    · simp only [hin, if_false]
      obtain ⟨res, h1, h2, h3⟩ := ih e.Next fuel (x.2.Target :: idMap)
        (acc ++ [{ Id := x.2.Target }]) hn (by simp at hfuel; omega)
        (by
          intro t
          simp only [List.mem_cons, List.map_append, List.map_cons, List.map_nil,
            List.mem_append, List.mem_singleton, hmap t]
          tauto)
        (by
          rw [List.map_append, List.nodup_append]
          refine ⟨hnd, by simp, ?_⟩
          intro a ha hb
          simp only [List.map_cons, List.map_nil, List.mem_singleton] at hb
          subst hb
          exact hin ((hmap _).2 ha))
      refine ⟨res, h1, h2, fun t => ?_⟩
      rw [h3 t]
      simp only [List.map_append, List.map_cons, List.map_nil, List.mem_append,
        List.mem_singleton, List.mem_cons, exists_eq_or_imp, List.not_mem_nil, or_false]
      constructor
      · rintro ((h | h) | h)
        · exact Or.inl h
        · exact Or.inr (Or.inl h.symm)
        · exact Or.inr (Or.inr h)
      · rintro (h | h | h)
        · exact Or.inl (Or.inl h)
        · exact Or.inl (Or.inr h.symm)
        · exact Or.inr h

theorem sortSlice_spec (xs : List NodeConfig) (hnd : (xs.map (fun c => c.Id)).Nodup) :
    List.Sorted (· < ·) ((sortSlice xs (fun a b => a.Id < b.Id)).map (fun c => c.Id)) ∧
      (sortSlice xs (fun a b => a.Id < b.Id)).Perm xs := by
  haveI : IsTotal NodeConfig (fun a b => ¬ b.Id < a.Id) :=
    ⟨fun a b => by simp only [not_lt]; exact le_total _ _⟩
  haveI : IsTrans NodeConfig (fun a b => ¬ b.Id < a.Id) :=
    ⟨fun a b c h1 h2 => by simp only [not_lt] at *; exact le_trans h1 h2⟩
  have hperm : (sortSlice xs (fun a b => a.Id < b.Id)).Perm xs :=
    List.perm_insertionSort _ _
  refine ⟨?_, hperm⟩
  have hs : List.Sorted (fun a b => ¬ b.Id < a.Id)
      (sortSlice xs (fun a b => a.Id < b.Id)) := List.sorted_insertionSort _ _
  have hle : List.Sorted (· ≤ ·) ((sortSlice xs (fun a b => a.Id < b.Id)).map
      (fun c => c.Id)) := by
    unfold List.Sorted
    rw [List.pairwise_map]
    exact hs.imp (fun h => Nat.le_of_not_lt h)
  exact hle.lt_of_le ((hperm.map _).nodup_iff.2 hnd)

theorem NodeConfigs_of_Fwd (s : Store) (xs : List (Nat × Event))
    (h : Fwd s.heap s.l.FirstEventLogEntry xs) :
    ∃ ncs, NodeConfigs s = .ok ncs ∧
      List.Sorted (· < ·) (ncs.map (fun c => c.Id)) ∧
      (∀ t, t ∈ ncs.map (fun c => c.Id) ↔ ∃ x ∈ xs, x.2.Target = t) ∧
      (xs = [] → ncs = []) := by
  obtain ⟨res, h1, h2, h3⟩ := nodeConfigsLoop_spec xs _ s.heap.length [] [] h
    (Fwd_length_le h) (by simp) (by simp)
  obtain ⟨hs, hperm⟩ := sortSlice_spec res h2
  refine ⟨sortSlice res (fun a b => a.Id < b.Id), ?_, hs, ?_, ?_⟩
  · unfold NodeConfigs
    rw [h1]
    rfl
  · intro t
    rw [(hperm.map _).mem_iff, h3 t]
    simp
  · intro hxs
    subst hxs
    have : res = [] := by
      cases res with
      | nil => rfl
      | cons c cs =>
        have := (h3 c.Id).1 (by simp)
        simp at this
    subst this
    rfl

/-! ## Varints -/

theorem or_shiftLeft_eq_add {x sh : Nat} (b : Nat) (hx : x < 2 ^ sh) :
    x ||| (b <<< sh) = x + b * 2 ^ sh := by
  rw [Nat.or_comm, Nat.shiftLeft_eq, Nat.mul_comm b, ← Nat.mul_add_lt_is_or hx, Nat.add_comm]

set_option maxRecDepth 100000 in
theorem byte_or_0x80 : ∀ y : Fin 256,
    ¬ ((y.val ||| 0x80) < 0x80) ∧ (y.val ||| 0x80) &&& 0x7f = y.val % 128 := by
  decide

theorem readUvarintLoop_put (rest : List Nat) :
    ∀ (f i x sh u : Nat), i + f = 9 → sh = 7 * i → x < 2 ^ sh →
      x + u * 2 ^ sh < 2 ^ 64 →
      readUvarintLoop (f + 1) i x sh (putUvarintLoop f u ++ rest) =
        .ok (x + u * 2 ^ sh, rest) := by
  intro f
  induction f with
  | zero =>
    intro i x sh u hi hsh hx hu
    have hi9 : i = 9 := by omega
    subst hi9
    subst hsh
    have hu1 : u ≤ 1 := by
      by_contra hgt
      have : 2 * 2 ^ (7 * 9) ≤ u * 2 ^ (7 * 9) := Nat.mul_le_mul_right _ (by omega)
      norm_num at this hu
      omega
    have hub : u % 256 = u := Nat.mod_eq_of_lt (by omega)
    simp only [putUvarintLoop, List.singleton_append, readUvarintLoop, hub]
    rw [if_pos (by omega), if_neg (by omega), or_shiftLeft_eq_add u hx, Nat.mod_eq_of_lt hu]
    rfl
  | succ f ih =>
    intro i x sh u hi hsh hx hu
    by_cases hge : u ≥ 0x80
    · have hb := byte_or_0x80 ⟨u % 256, Nat.mod_lt _ (by norm_num)⟩
      simp only at hb
      simp only [putUvarintLoop, hge, if_true, List.cons_append, readUvarintLoop]
      rw [if_neg hb.1, hb.2]
      have h128 : u % 256 % 128 = u % 128 := by omega
      rw [h128, or_shiftLeft_eq_add (u % 128) hx]
      have hsplit : u = u % 128 + 128 * (u / 128) := by omega
      have hpow : 2 ^ (sh + 7) = 2 ^ sh * 128 := by rw [Nat.pow_add]
      have hlt : x + u % 128 * 2 ^ sh < 2 ^ (sh + 7) := by
        rw [hpow]
        have : u % 128 < 128 := Nat.mod_lt _ (by norm_num)
        nlinarith
      have htot : x + u % 128 * 2 ^ sh + (u >>> 7) * 2 ^ (sh + 7) = x + u * 2 ^ sh := by
        rw [Nat.shiftRight_eq_div_pow, hpow]
        norm_num
        nlinarith
      have hle : x + u % 128 * 2 ^ sh ≤ x + u * 2 ^ sh := by omega
      rw [Nat.mod_eq_of_lt (lt_of_le_of_lt hle hu)]
      rw [ih (i + 1) _ (sh + 7) (u >>> 7) (by omega) (by omega) hlt (by rw [htot]; exact hu)]
      rw [htot]
    · have hub : u % 256 = u := Nat.mod_eq_of_lt (by omega)
      simp only [putUvarintLoop, hge, if_false, List.singleton_append, readUvarintLoop, hub]
      rw [if_pos (by omega), if_neg (by omega), or_shiftLeft_eq_add u hx, Nat.mod_eq_of_lt hu]

theorem ReadUvarint_PutUvarint (u : Nat) (hu : u < 2 ^ 64) (rest : List Nat) :
    ReadUvarint (PutUvarint u ++ rest) = .ok (u, rest) := by
  unfold ReadUvarint PutUvarint
  rw [Nat.mod_eq_of_lt hu]
  have := readUvarintLoop_put rest 9 0 0 0 u (by norm_num) (by norm_num) (by norm_num)
    (by simpa using hu)
  simpa using this

theorem ReadVarint_PutVarint (n : Nat) (hn : n < 2 ^ 63) (rest : List Nat) :
    ReadVarint (PutVarint (n : Int) ++ rest) = .ok ((n : Int), rest) := by
  have h1 : ((n : Int) % 2 ^ 64).toNat = n := by
    have : ((n : Int) % 2 ^ 64) = ((n % 2 ^ 64 : Nat) : Int) := by norm_cast
    rw [this, Int.toNat_ofNat, Nat.mod_eq_of_lt (by omega)]
  have h2 : (n * 2) % 2 ^ 64 = n * 2 := Nat.mod_eq_of_lt (by omega)
  unfold ReadVarint PutVarint
  simp only [h1, h2]
  rw [if_neg (by omega), ReadUvarint_PutUvarint (n * 2) (by omega)]
  simp only [Nat.and_one_is_mod, Nat.shiftRight_eq_div_pow]
  rw [if_neg (by omega)]
  congr 2
  norm_num

theorem PutVarint_ne_nil (x : Int) : PutVarint x ≠ [] := by
  unfold PutVarint PutUvarint
  simp only
  generalize (if x < 0 then _ else _) % 2 ^ 64 = u
  unfold putUvarintLoop
  split_ifs <;> simp

theorem CopyN_append (bs rest : List Nat) :
    CopyN (bs ++ rest) (bs.length : Int) = .ok (bs, rest) := by
  unfold CopyN
  cases bs with
  | nil => simp
  | cons b bs =>
    have hlen : (((b :: bs).length : Nat) : Int).toNat = (b :: bs).length := Int.toNat_ofNat _
    rw [if_neg (by simp), if_neg (by simp), hlen]
    simp [List.take_left', List.drop_left']

/-! ## Reading frames -/

theorem Seg_append_last {heap : List EventLogEntry} {pre : List (Nat × Event)}
    {c : Nat × Event} {n : Nat} {e : Event}
    (hseg : Seg heap none (pre ++ [c]) none)
    (hnd : ((pre ++ [c]).map Prod.fst).Nodup)
    (hn : heap[n]? = some { Event := some e, Next := none, Prev := none })
    (hfresh : ∀ x ∈ pre ++ [c], x.1 ≠ n) :
    Seg (setNext (setPrev heap n (some c.1)) c.1 (some n)) none (pre ++ [c, (n, e)]) none := by
  have hcn : c.1 ≠ n := hfresh c (by simp)
  rw [Seg_append] at hseg ⊢
  simp only [Seg_cons, headPtr_cons, headPtr_nil, Seg, and_true] at hseg ⊢
  obtain ⟨hpre, hc⟩ := hseg
  obtain ⟨-, -, hdis⟩ := nodup_fst_append hnd
  refine ⟨?_, ?_, ?_⟩
  · refine Seg_congr (fun x hx => ?_) hpre
    have h1 : x.1 ≠ n := hfresh x (by simp [hx])
    have h2 : x.1 ≠ c.1 := hdis x hx c (by simp)
    simp [getElem?_setNext, getElem?_setPrev, h1, h2]
  · simp [getElem?_setNext, getElem?_setPrev, hc, hcn]
  · simp [getElem?_setNext, getElem?_setPrev, hn, Ne.symm hcn]

theorem readLoop_eof (pc : Codec) (fuel : Nat) (st : Option Store) :
    readLoop pc (fuel + 1) [] st = .ok st := by
  rfl

theorem readLoop_header (pc : Codec) (fuel : Nat) (bs rest : List Nat) (sc : ScenarioConfig)
    (hu : pc.Unmarshal bs = .ok { Type_ := some (LogEntryType.Scenario (some sc)) })
    (hlen : bs.length < 2 ^ 63) :
    readLoop pc (fuel + 1) (frameOf bs ++ rest) none =
      readLoop pc fuel rest (some
        { heap := []
          l := { Name := sc.Name, Description := sc.Description,
                 FirstEventLogEntry := none, NextEventLogEntry := none,
                 LastConsumed := none, FakeTime := 0 } }) := by
  unfold frameOf
  rw [List.append_assoc]
  conv_lhs => unfold readLoop
  simp only [ReadVarint_PutVarint bs.length hlen, CopyN_append, hu]

theorem Built.step {el : Store} {ys : List (Nat × Event)} (h : Built el ys) (e : Event) :
    ∃ el2,
      (match el.l.FirstEventLogEntry with
        | none => some
            ({ heap := el.heap ++ [{ Event := some e, Next := none, Prev := none }]
               l := { el.l with FirstEventLogEntry := some el.heap.length
                                NextEventLogEntry := some el.heap.length } } : Store)
        | some _ =>
          match el.l.NextEventLogEntry with
          | none => none
          | some tail =>
            match (setPrev (el.heap ++ [{ Event := some e, Next := none, Prev := none }])
                el.heap.length el.l.NextEventLogEntry)[tail]? with
            | none => none
            | some _ => some
              { heap := setNext (setPrev
                    (el.heap ++ [{ Event := some e, Next := none, Prev := none }])
                    el.heap.length el.l.NextEventLogEntry) tail (some el.heap.length)
                l := { el.l with NextEventLogEntry := some el.heap.length } }) = some el2 ∧
      Built el2 (ys ++ [(el.heap.length, e)]) ∧
      el2.l.Name = el.l.Name ∧ el2.l.Description = el.l.Description := by
  have hfresh : ∀ x ∈ ys, x.1 ≠ el.heap.length := fun x hx =>
    Nat.ne_of_lt (Seg_lt h.seg x hx)
  have hn : (el.heap ++ [({ Event := some e, Next := none, Prev := none } : EventLogEntry)])[
      el.heap.length]? = some { Event := some e, Next := none, Prev := none } := by
    simp
  have hsega : Seg (el.heap ++ [({ Event := some e, Next := none, Prev := none } :
      EventLogEntry)]) none ys none := by
    refine Seg_congr (fun y hy => ?_) h.seg
    have := Seg_lt h.seg y hy
    simp [List.getElem?_append_left this]
  have hnd2 : ((ys ++ [(el.heap.length, e)]).map Prod.fst).Nodup := by
    rw [List.map_append, List.nodup_append]
    refine ⟨h.nodup, by simp, ?_⟩
    intro a ha hb
    obtain ⟨x, hx, rfl⟩ := List.mem_map.1 ha
    simp only [List.map_cons, List.map_nil, List.mem_singleton] at hb
    exact hfresh x hx hb
  rcases List.eq_nil_or_concat ys with rfl | ⟨ys2, c, rfl⟩
  · have hF : el.l.FirstEventLogEntry = none := h.first
    rw [hF]
    refine ⟨_, rfl, ⟨?_, by simp, rfl, rfl, h.last, h.fake⟩, rfl, rfl⟩
    simp [Seg_cons, Seg]
  · rw [List.concat_eq_append] at h hfresh hsega hnd2 ⊢
    have hF : el.l.FirstEventLogEntry = headPtr (ys2 ++ [c]) none := h.first
    have hT : el.l.NextEventLogEntry = some c.1 := by rw [h.tail, lastPtr_concat]
    obtain ⟨f, hf⟩ : ∃ f, headPtr (ys2 ++ [c]) none = some f := by
      cases ys2 <;> exact ⟨_, rfl⟩
    have hc := ((Seg_append _ _ _ _ _).1 hsega).2.1
    have hcn : c.1 ≠ el.heap.length := hfresh c (by simp)
    have hlook : (setPrev (el.heap ++ [({ Event := some e, Next := none, Prev := none } :
        EventLogEntry)]) el.heap.length (some c.1))[c.1]? =
        some { Event := some c.2, Next := headPtr [] none, Prev := lastPtr ys2 none } := by
      rw [getElem?_setPrev, if_neg hcn]; exact hc
    rw [hF, hf]
    simp only [hT, hlook]
    refine ⟨_, rfl, ⟨?_, hnd2, ?_, ?_, h.last, h.fake⟩, rfl, rfl⟩
    · have := Seg_append_last hsega h.nodup hn hfresh
      simpa using this
    · show el.l.FirstEventLogEntry = _
      rw [hF]
      cases ys2 <;> rfl
    · show some el.heap.length = _
      rw [lastPtr_concat]

theorem readLoop_event (pc : Codec) (fuel : Nat) (bs rest : List Nat) (e : Event)
    (hu : pc.Unmarshal bs = .ok { Type_ := some (LogEntryType.Event (some e)) })
    (hlen : bs.length < 2 ^ 63) {el : Store} {ys : List (Nat × Event)} (h : Built el ys) :
    ∃ el2, readLoop pc (fuel + 1) (frameOf bs ++ rest) (some el) =
        readLoop pc fuel rest (some el2) ∧
      Built el2 (ys ++ [(el.heap.length, e)]) ∧
      el2.l.Name = el.l.Name ∧ el2.l.Description = el.l.Description := by
  obtain ⟨el2, h1, h2, h3, h4⟩ := h.step e
  refine ⟨el2, ?_, h2, h3, h4⟩
  unfold frameOf
  rw [List.append_assoc]
  conv_lhs => unfold readLoop
  simp only [ReadVarint_PutVarint bs.length hlen, CopyN_append, hu]
  cases hF : el.l.FirstEventLogEntry with
  | none =>
    rw [hF] at h1
    simp only [Option.some.injEq] at h1
    rw [h1]
  | some f =>
    rw [hF] at h1
    simp only at h1 ⊢
    cases hT : el.l.NextEventLogEntry with
    | none => rw [hT] at h1; simp at h1
    | some t =>
      rw [hT] at h1
      simp only at h1 ⊢
      cases hL : (setPrev (el.heap ++ [({ Event := some e, Next := none, Prev := none } :
          EventLogEntry)]) el.heap.length (some t))[t]? with
      | none => rw [hL] at h1; simp at h1
      | some x =>
        rw [hL] at h1
        simp only [Option.some.injEq] at h1
        rw [← h1, hF]

theorem readLoop_events (pc : Codec)
    (hcodec : ∀ m bs, pc.Marshal m = .ok bs → pc.Unmarshal bs = .ok m ∧ bs.length < 2 ^ 63) :
    ∀ (evs : List Event) (bss : List (List Nat)) (el : Store) (ys : List (Nat × Event))
      (fuel : Nat),
      List.Forall₂ (fun ev bs =>
        pc.Marshal { Type_ := some (LogEntryType.Event (some ev)) } = .ok bs) evs bss →
      Built el ys → bss.length < fuel →
      ∃ el2 ys2, readLoop pc fuel (bss.map frameOf).flatten (some el) = .ok (some el2) ∧
        Built el2 ys2 ∧ ys2.map Prod.snd = ys.map Prod.snd ++ evs ∧
        el2.l.Name = el.l.Name ∧ el2.l.Description = el.l.Description := by
  intro evs
  induction evs with
  | nil =>
    intro bss el ys fuel hf hb hfuel
    cases hf
    obtain ⟨fuel, rfl⟩ : ∃ k, fuel = k + 1 := ⟨fuel - 1, by omega⟩
    exact ⟨el, ys, readLoop_eof pc fuel _, hb, by simp, rfl, rfl⟩
  | cons ev evs ih =>
    intro bss el ys fuel hf hb hfuel
    cases hf with
    | cons hm hrest =>
      rename_i bs bss
      obtain ⟨fuel, rfl⟩ : ∃ k, fuel = k + 1 := ⟨fuel - 1, by simp at hfuel; omega⟩
      obtain ⟨hu, hlen⟩ := hcodec _ _ hm
      obtain ⟨el1, h1, h2, h3, h4⟩ :=
        readLoop_event pc fuel bs (bss.map frameOf).flatten ev hu hlen hb
      obtain ⟨el2, ys2, g1, g2, g3, g4, g5⟩ := ih bss el1 _ fuel hrest h2
        (by simp at hfuel; omega)
      refine ⟨el2, ys2, ?_, g2, ?_, g4.trans h3, g5.trans h4⟩
      · simp only [List.map_cons, List.flatten_cons]
        rw [h1, g1]
      · rw [g3]; simp

theorem frameOf_ne_nil (bs : List Nat) : frameOf bs ≠ [] := by
  unfold frameOf
  intro h
  exact PutVarint_ne_nil _ (List.append_eq_nil.1 h).1

theorem length_flatten_frames (bss : List (List Nat)) :
    bss.length ≤ (bss.map frameOf).flatten.length := by
  induction bss with
  | nil => simp
  | cons bs bss ih =>
    have : 0 < (frameOf bs).length := List.length_pos.2 (frameOf_ne_nil bs)
    simp only [List.map_cons, List.flatten_cons, List.length_append, List.length_cons]
    omega

/-! ## Writing frames -/

theorem Fwd_eventAt {heap : List EventLogEntry} :
    ∀ (xs : List (Nat × Event)) (p : Ptr), Fwd heap p xs →
      ∀ x ∈ xs, eventAt heap x.1 = some x.2 := by
  intro xs
  induction xs with
  | nil => intro p _ x hx; cases hx
  | cons y ys ih =>
    intro p h x hx
    obtain ⟨-, e, he, hev, hn⟩ := h
    rcases List.mem_cons.1 hx with rfl | hx
    · simp [eventAt, he, hev]
    · exact ih _ hn x hx

theorem walk_of_Fwd {heap : List EventLogEntry} :
    ∀ (xs : List (Nat × Event)) (p : Ptr) (fuel : Nat), Fwd heap p xs →
      xs.length ≤ fuel → walk heap fuel p = .ok (xs.map Prod.fst) := by
  intro xs
  induction xs with
  | nil =>
    intro p fuel h _
    simp only [Fwd] at h
    subst h
    cases fuel <;> rfl
  | cons x xs ih =>
    intro p fuel h hfuel
    obtain ⟨hp, e, he, -, hn⟩ := h
    subst hp
    obtain ⟨fuel, rfl⟩ : ∃ k, fuel = k + 1 := ⟨fuel - 1, by simp at hfuel; omega⟩
    simp only [walk, he, List.map_cons]
    rw [ih _ fuel hn (by simp at hfuel; omega)]
    rfl

theorem consumedEntries_of_Fwd {s : Store} {xs : List (Nat × Event)}
    (h : Fwd s.heap s.l.FirstEventLogEntry xs) :
    consumedEntries s =
      .ok (xs.takeWhile (fun x => decide (some x.1 ≠ s.l.NextEventLogEntry))) := by
  unfold consumedEntries consumedPart traverse
  rw [walk_of_Fwd xs _ _ h (Fwd_length_le h)]
  simp only [Except.map]
  have hmap : (xs.map Prod.fst).takeWhile (fun a => decide (some a ≠ s.l.NextEventLogEntry)) =
      (xs.takeWhile (fun x => decide (some x.1 ≠ s.l.NextEventLogEntry))).map Prod.fst := by
    rw [List.takeWhile_map]
    rfl
  rw [hmap]
  exact entriesOf_map_fst (fun x hx =>
    Fwd_eventAt xs _ h x ((List.takeWhile_sublist _).subset hx))

theorem writeLoop_spec (pc : Codec) (s : Store) :
    ∀ (xs : List (Nat × Event)) (p : Ptr) (fuel : Nat) (dest out : List Nat),
      Fwd s.heap p xs → xs.length ≤ fuel →
      writeLoop pc s fuel p dest = .ok out →
      ∃ bss, List.Forall₂ (fun ev bs =>
          pc.Marshal { Type_ := some (LogEntryType.Event (some ev)) } = .ok bs)
          ((xs.takeWhile (fun x => decide (some x.1 ≠ s.l.NextEventLogEntry))).map Prod.snd)
          bss ∧
        out = dest ++ (bss.map frameOf).flatten := by
  intro xs
  induction xs with
  | nil =>
    intro p fuel dest out h _ hw
    simp only [Fwd] at h
    subst h
    have : writeLoop pc s fuel none dest = .ok dest := by cases fuel <;> rfl
    rw [this] at hw
    cases hw
    exact ⟨[], by simp, by simp⟩
  | cons x xs ih =>
    intro p fuel dest out h hfuel hw
    obtain ⟨hp, e, he, hev, hn⟩ := h
    subst hp
    by_cases hcur : some x.1 = s.l.NextEventLogEntry
    · have : writeLoop pc s fuel (some x.1) dest = .ok dest := by
        cases fuel <;> simp [writeLoop, hcur]
      rw [this] at hw
      cases hw
      refine ⟨[], ?_, by simp⟩
      simp [List.takeWhile_cons, hcur]
    · obtain ⟨fuel, rfl⟩ : ∃ k, fuel = k + 1 := ⟨fuel - 1, by simp at hfuel; omega⟩
      simp only [writeLoop, hcur, if_false, he, hev, writePrefixedProto] at hw
      cases hm : pc.Marshal { Type_ := some (LogEntryType.Event (some x.2)) } with
      | error err => rw [hm] at hw; simp at hw
      | ok bs =>
        rw [hm] at hw
        simp only at hw
        obtain ⟨bss, h1, h2⟩ := ih _ fuel _ out hn (by simp at hfuel; omega) hw
        refine ⟨bs :: bss, ?_, ?_⟩
        · simp only [List.takeWhile_cons, hcur, ne_eq, not_false_eq_true, decide_True,
            if_true, List.map_cons]
          exact List.Forall₂.cons hm h1
        · rw [h2]
          simp [frameOf, List.append_assoc]

theorem writeLoop_ok (pc : Codec) (s : Store) :
    ∀ (xs : List (Nat × Event)) (p : Ptr) (fuel : Nat) (dest : List Nat),
      Fwd s.heap p xs → xs.length ≤ fuel →
      (∀ x ∈ xs, ∃ bs, pc.Marshal { Type_ := some (LogEntryType.Event (some x.2)) } = .ok bs) →
      ∃ out, writeLoop pc s fuel p dest = .ok out := by
  intro xs
  induction xs with
  | nil =>
    intro p fuel dest h _ _
    simp only [Fwd] at h
    subst h
    exact ⟨dest, by cases fuel <;> rfl⟩
  | cons x xs ih =>
    intro p fuel dest h hfuel hmar
    obtain ⟨hp, e, he, hev, hn⟩ := h
    subst hp
    by_cases hcur : some x.1 = s.l.NextEventLogEntry
    · exact ⟨dest, by cases fuel <;> simp [writeLoop, hcur]⟩
    · obtain ⟨fuel, rfl⟩ : ∃ k, fuel = k + 1 := ⟨fuel - 1, by simp at hfuel; omega⟩
      obtain ⟨bs, hbs⟩ := hmar x (List.mem_cons_self _ _)
      obtain ⟨out, hout⟩ := ih e.Next fuel (dest ++ PutVarint (bs.length : Int) ++ bs) hn
        (by simp at hfuel; omega) (fun y hy => hmar y (List.mem_cons_of_mem _ hy))
      refine ⟨out, ?_⟩
      simp only [writeLoop, hcur, if_false, he, hev, writePrefixedProto, hbs]
      exact hout

theorem NodeConfigs_ok {s : Store} {xs : List (Nat × Event)}
    (h : Fwd s.heap s.l.FirstEventLogEntry xs) : ∃ ncs, NodeConfigs s = .ok ncs := by
  obtain ⟨res, h1, -⟩ := nodeConfigsLoop_spec xs _ s.heap.length [] [] h
    (Fwd_length_le h) (by simp) (by simp)
  exact ⟨_, by unfold NodeConfigs; rw [h1]; rfl⟩

/-- C10 (round trip): let the codec be such that unmarshalling what `Marshal`
produced gives the message back (and `Marshal` produces Go slices, shorter than
`2 ^ 63`), and let it marshal the header and the events of the log. For every log
whose entries linked from the head (a chain `xs` ending in nil) all carry an event,
`Write` produces bytes, and `ReadEventLog` applied to these bytes succeeds and
returns a log with the same name and description whose entries from the head carry,
in order, exactly the events of the entries strictly before the cursor of the
original at write time. -/
theorem round_trip (pc : Codec)
    (hcodec : ∀ m bs, pc.Marshal m = .ok bs → pc.Unmarshal bs = .ok m ∧ bs.length < 2 ^ 63)
    (s : Store) (xs : List (Nat × Event)) (hxs : Fwd s.heap s.l.FirstEventLogEntry xs)
    (hheader : ∀ ncs, NodeConfigs s = .ok ncs → ∃ bs, pc.Marshal
      { Type_ := some (LogEntryType.Scenario (some
          { Name := s.l.Name, Description := s.l.Description, NodeConfigs := ncs })) } = .ok bs)
    (hevents : ∀ x ∈ xs, ∃ bs,
      pc.Marshal { Type_ := some (LogEntryType.Event (some x.2)) } = .ok bs) :
    ∃ bytes s2 ys cs, Write pc s [] = .ok bytes ∧ ReadEventLog pc bytes = .ok s2 ∧
      s2.l.Name = s.l.Name ∧ s2.l.Description = s.l.Description ∧
      entries s2 = .ok ys ∧ consumedEntries s = .ok cs ∧
      ys.map Prod.snd = cs.map Prod.snd := by
  obtain ⟨ncs0, hnc0⟩ := NodeConfigs_ok hxs
  obtain ⟨hb0, hm0⟩ := hheader ncs0 hnc0
  obtain ⟨bytes, hW0⟩ := writeLoop_ok pc s xs _ s.heap.length
    ([] ++ PutVarint (hb0.length : Int) ++ hb0) hxs (Fwd_length_le hxs) hevents
  have hW : Write pc s [] = .ok bytes := by
    unfold Write
    simp only [hnc0, writePrefixedProto, hm0]
    exact hW0
  refine ⟨bytes, ?_⟩
  suffices hs : ∃ s2 ys cs, ReadEventLog pc bytes = .ok s2 ∧
      s2.l.Name = s.l.Name ∧ s2.l.Description = s.l.Description ∧
      entries s2 = .ok ys ∧ consumedEntries s = .ok cs ∧
      ys.map Prod.snd = cs.map Prod.snd by
    obtain ⟨s2, ys, cs, h⟩ := hs
    exact ⟨s2, ys, cs, hW, h⟩
  clear hW0 hm0 hnc0
  unfold Write at hW
  cases hnc : NodeConfigs s with
  | error err => rw [hnc] at hW; cases hW
  | ok ncs =>
    rw [hnc] at hW
    simp only [writePrefixedProto] at hW
    cases hm : pc.Marshal { Type_ := some (LogEntryType.Scenario (some
        { Name := s.l.Name, Description := s.l.Description, NodeConfigs := ncs })) } with
    | error err => rw [hm] at hW; simp at hW
    | ok hb =>
      rw [hm] at hW
      simp only [List.nil_append] at hW
      obtain ⟨bss, hf, hout⟩ := writeLoop_spec pc s xs _ _ _ _ hxs (Fwd_length_le hxs) hW
      obtain ⟨hu, hlen⟩ := hcodec _ _ hm
      have hbytes : bytes = frameOf hb ++ (bss.map frameOf).flatten := by
        rw [hout]; rfl
      have hfl := length_flatten_frames bss
      have hfr : 0 < (frameOf hb).length := List.length_pos.2 (frameOf_ne_nil hb)
      obtain ⟨fuel, hfuel⟩ : ∃ k, bytes.length + 1 = k + 1 := ⟨bytes.length, rfl⟩
      have hb0 : Built
          ({ heap := [],
             l := { Name := s.l.Name, Description := s.l.Description,
                    FirstEventLogEntry := none, NextEventLogEntry := none,
                    LastConsumed := none, FakeTime := 0 } } : Store) [] :=
        ⟨trivial, by simp, rfl, rfl, rfl, rfl⟩
      obtain ⟨el2, ys2, g1, g2, g3, g4, g5⟩ := readLoop_events pc hcodec _ bss _ _
        bytes.length hf hb0 (by
          rw [hbytes, List.length_append]; omega)
      have hread : readLoop pc (bytes.length + 1) bytes none = .ok (some el2) := by
        rw [hbytes] at g1 ⊢
        rw [readLoop_header pc _ hb _ _ hu hlen]
        exact g1
      have hrep : Rep
          { el2 with l := { el2.l with NextEventLogEntry := el2.l.FirstEventLogEntry } }
          [] ys2 :=
        ⟨by simpa using g2.seg, by simpa using g2.nodup, by simpa using g2.first,
          by simpa using g2.first, g2.last⟩
      refine ⟨{ el2 with l := { el2.l with NextEventLogEntry := el2.l.FirstEventLogEntry } },
        ys2, _, ?_, g4, g5, ?_, consumedEntries_of_Fwd hxs, ?_⟩
      · unfold ReadEventLog
        rw [hread]
      · simpa using hrep.entries
      · simpa using g3

theorem sampleCodec_inverse : ∀ m bs, sampleCodec.Marshal m = .ok bs →
    sampleCodec.Unmarshal bs = .ok m ∧ bs.length < 2 ^ 63 := by
  intro m bs h
  obtain ⟨ty⟩ := m
  cases ty with
  | none => cases h
  | some ty =>
    cases ty with
    | Scenario sc =>
      cases sc with
      | none => cases h
      | some sc =>
        obtain ⟨nm, ds, ncs⟩ := sc
        simp only [sampleCodec] at h
        split_ifs at h with hc
        · cases h
          obtain ⟨h1, h2, h3⟩ := hc
          subst h1 h2
          refine ⟨?_, ?_⟩
          · simp [sampleCodec, List.map_map, Function.comp_def]
          · simp only [List.length_cons, List.length_map]
            omega
    | Event ev =>
      cases ev with
      | none => cases h
      | some e =>
        obtain ⟨tg, t, ty⟩ := e
        simp only [sampleCodec] at h
        split_ifs at h with hc
        · cases h
          subst hc
          exact ⟨rfl, by norm_num⟩

/-- Witness of C10: the sample log after one consumption, with the sample codec. -/
theorem round_trip_witness :
    Fwd sampleStoreConsumed.heap sampleStoreConsumed.l.FirstEventLogEntry
      [(1, processEvent 1 5), (0, processEvent 1 10), (2, processEvent 1 20)] ∧
    Write sampleCodec sampleStoreConsumed [] = .ok [4, 0, 1, 6, 1, 1, 5] ∧
    ∃ bytes s2 ys cs, Write sampleCodec sampleStoreConsumed [] = .ok bytes ∧
      ReadEventLog sampleCodec bytes = .ok s2 ∧
      s2.l.Name = sampleStoreConsumed.l.Name ∧
      s2.l.Description = sampleStoreConsumed.l.Description ∧
      entries s2 = .ok ys ∧ consumedEntries sampleStoreConsumed = .ok cs ∧
      ys.map Prod.snd = cs.map Prod.snd :=
  have hf : Fwd sampleStoreConsumed.heap sampleStoreConsumed.l.FirstEventLogEntry
      [(1, processEvent 1 5), (0, processEvent 1 10), (2, processEvent 1 20)] :=
    ⟨rfl, _, rfl, rfl, rfl, _, rfl, rfl, rfl, _, rfl, rfl, rfl⟩
  ⟨hf, rfl, round_trip sampleCodec sampleCodec_inverse sampleStoreConsumed _ hf
    (fun ncs h => by
      have h1 : NodeConfigs sampleStoreConsumed = .ok [{ Id := 1 }] := rfl
      rw [h1] at h
      cases h
      exact ⟨_, rfl⟩)
    (fun x hx => by
      simp only [List.mem_cons, List.mem_singleton, List.not_mem_nil, or_false] at hx
      rcases hx with rfl | rfl | rfl <;> exact ⟨_, rfl⟩)⟩

/-! ## The loop of ReadEventLog on decoded records -/

theorem readLoop_unfold (pc : Codec) (fuel : Nat) (reader : List Nat) (st : Option Store) :
    readLoop pc (fuel + 1) reader st =
      match ReadVarint reader with
      | .error err => if err = ioEOF then .ok st else .error err
      | .ok (l, reader1) =>
        match CopyN reader1 l with
        | .error err => .error err
        | .ok (buffer, reader2) =>
          match pc.Unmarshal buffer with
          | .error err => .error (withMessage err "could not decode log entry")
          | .ok m =>
            match applyRecord st m with
            | .error err => .error err
            | .ok el => readLoop pc fuel reader2 (some el) := by
  conv_lhs => unfold readLoop
  cases hv : ReadVarint reader with
  | error err => rfl
  | ok v =>
    obtain ⟨l, reader1⟩ := v
    simp only
    cases hc : CopyN reader1 l with
    | error err => rfl
    | ok c =>
      obtain ⟨buffer, reader2⟩ := c
      simp only
      cases hu : pc.Unmarshal buffer with
      | error err => rfl
      | ok m =>
        simp only [applyRecord]
        cases hty : m.Type_ with
        | none => rfl
        | some ty =>
          cases st with
          | none =>
            cases ty with
            | Scenario sc => cases sc <;> rfl
            | Event ev => rfl
          | some el =>
            cases ty with
            | Scenario sc => rfl
            | Event ev =>
              cases ev with
              | none => rfl
              | some e =>
                simp only
                cases hF : el.l.FirstEventLogEntry with
                | none => rfl
                | some f =>
                  simp only
                  cases hT : el.l.NextEventLogEntry with
                  | none => rfl
                  | some t =>
                    simp only
                    cases hL : (setPrev (el.heap ++
                        [({ Event := some e, Next := none, Prev := none } : EventLogEntry)])
                        el.heap.length (some t))[t]? with
                    | none => rfl
                    | some x => rfl

theorem readUvarintLoop_append (b : List Nat) :
    ∀ (k i x sh : Nat) (a r : List Nat) (v : Nat),
      readUvarintLoop k i x sh a = .ok (v, r) →
      readUvarintLoop k i x sh (a ++ b) = .ok (v, r ++ b) := by
  intro k
  induction k with
  | zero => intro i x sh a r v h; simp [readUvarintLoop] at h
  | succ k ih =>
    intro i x sh a r v h
    cases a with
    | nil => simp [readUvarintLoop] at h
    | cons c a =>
      simp only [readUvarintLoop, List.cons_append] at h ⊢
      by_cases hc : c < 0x80
      · simp only [hc, if_true] at h ⊢
        by_cases h9 : i = 9 ∧ c > 1
        · simp [h9] at h
        · simp only [h9, if_false] at h ⊢
          cases h
          rfl
      · simp only [hc, if_false] at h ⊢
        exact ih _ _ _ _ _ _ h

theorem ReadVarint_append {a r : List Nat} {l : Int} (b : List Nat)
    (h : ReadVarint a = .ok (l, r)) : ReadVarint (a ++ b) = .ok (l, r ++ b) := by
  unfold ReadVarint at h ⊢
  cases hu : ReadUvarint a with
  | error err => rw [hu] at h; cases h
  | ok v =>
    obtain ⟨ux, rest⟩ := v
    rw [hu] at h
    simp only at h
    have := readUvarintLoop_append b 10 0 0 0 a rest ux hu
    unfold ReadUvarint
    rw [this]
    simp only
    cases h
    rfl

theorem readUvarintLoop_ne_eof :
    ∀ (k i x sh : Nat) (a : List Nat), 0 < i → readUvarintLoop k i x sh a ≠ .error ioEOF := by
  intro k
  induction k with
  | zero => intro i x sh a _; simp [readUvarintLoop, varintOverflow, ioEOF]
  | succ k ih =>
    intro i x sh a hi
    cases a with
    | nil => simp [readUvarintLoop, hi, ioErrUnexpectedEOF, ioEOF]
    | cons c a =>
      simp only [readUvarintLoop]
      split_ifs
      · simp [varintOverflow, ioEOF]
      · simp
      · exact ih _ _ _ _ (Nat.succ_pos _)

theorem ReadVarint_eof {a : List Nat} (h : ReadVarint a = .error ioEOF) : a = [] := by
  cases a with
  | nil => rfl
  | cons c a =>
    exfalso
    unfold ReadVarint ReadUvarint at h
    cases hu : readUvarintLoop 10 0 0 0 (c :: a) with
    | ok v => rw [hu] at h; cases h
    | error err =>
      rw [hu] at h
      simp only at h
      have herr : err = ioEOF := by injection h
      subst herr
      simp only [readUvarintLoop] at hu
      split_ifs at hu
      · simp [varintOverflow, ioEOF] at hu
      · exact readUvarintLoop_ne_eof _ _ _ _ _ (Nat.succ_pos _) hu

theorem CopyN_extend {r buf r2 : List Nat} {n : Int} (b : List Nat)
    (h : CopyN r n = .ok (buf, r2)) : CopyN (r ++ b) n = .ok (buf, r2 ++ b) := by
  unfold CopyN at h ⊢
  by_cases hn : n ≤ 0
  · simp only [hn, if_true] at h ⊢
    cases h
    rfl
  · simp only [hn, if_false] at h ⊢
    by_cases hl : r.length < n.toNat
    · simp [hl] at h
    · simp only [hl, if_false] at h
      have hl2 : ¬ (r ++ b).length < n.toNat := by
        rw [List.length_append]; omega
      simp only [hl2, if_false]
      cases h
      have hle : n.toNat ≤ r.length := Nat.le_of_not_lt hl
      rw [List.take_append_of_le_length hle, List.drop_append_of_le_length hle]

theorem readLoop_of_decode (pc : Codec) (tail : List Nat) :
    ∀ (f : Nat) (good : List Nat) (records : List LogEntry),
      decodeRecords pc (f + 1) good = .ok records →
      ∀ (k : Nat) (st : Option Store),
        records.length ≤ f ∧
        readLoop pc (f + 1 + k) (good ++ tail) st =
          match foldRecords st records with
          | .error err => .error err
          | .ok st2 => readLoop pc (f + 1 + k - records.length) tail st2 := by
  intro f
  induction f with
  | zero =>
    intro good records h k st
    simp only [decodeRecords] at h
    cases hv : ReadVarint good with
    | error err =>
      rw [hv] at h
      simp only at h
      split_ifs at h with he
      cases h
      subst he
      have := ReadVarint_eof hv
      subst this
      exact ⟨le_refl _, rfl⟩
    | ok v =>
      obtain ⟨l, r1⟩ := v
      rw [hv] at h
      simp only at h
      cases hc : CopyN r1 l with
      | error err => rw [hc] at h; cases h
      | ok c =>
        obtain ⟨buf, r2⟩ := c
        rw [hc] at h
        simp only at h
        cases hu : pc.Unmarshal buf with
        | error err => rw [hu] at h; cases h
        | ok m => rw [hu] at h; cases h
  | succ f ih =>
    intro good records h k st
    rw [decodeRecords] at h
    cases hv : ReadVarint good with
    | error err =>
      rw [hv] at h
      simp only at h
      split_ifs at h with he
      cases h
      subst he
      have := ReadVarint_eof hv
      subst this
      exact ⟨Nat.zero_le _, rfl⟩
    | ok v =>
      obtain ⟨l, r1⟩ := v
      rw [hv] at h
      simp only at h
      cases hc : CopyN r1 l with
      | error err => rw [hc] at h; cases h
      | ok c =>
        obtain ⟨buf, r2⟩ := c
        rw [hc] at h
        simp only at h
        cases hu : pc.Unmarshal buf with
        | error err => rw [hu] at h; cases h
        | ok m =>
          rw [hu] at h
          simp only at h
          cases hd : decodeRecords pc (f + 1) r2 with
          | error err => rw [hd] at h; cases h
          | ok ms =>
            rw [hd] at h
            cases h
            have hfuel : f + 1 + 1 + k = (f + 1 + k) + 1 := by omega
            rw [hfuel, readLoop_unfold, ReadVarint_append tail hv]
            simp only [CopyN_extend tail hc, hu, foldRecords, List.length_cons]
            cases ha : applyRecord st m with
            | error err => exact ⟨by have := (ih r2 ms hd k st).1; omega, rfl⟩
            | ok el =>
              obtain ⟨hlen, hrun⟩ := ih r2 ms hd k (some el)
              refine ⟨by omega, ?_⟩
              simp only
              rw [hrun]
              have : f + 1 + k - ms.length = f + 1 + k + 1 - (ms.length + 1) := by omega
              rw [this]

theorem decode_of_readLoop (pc : Codec) :
    ∀ (fuel : Nat) (reader : List Nat) (st r : Option Store),
      readLoop pc fuel reader st = .ok r →
      ∃ records, decodeRecords pc fuel reader = .ok records := by
  intro fuel
  induction fuel with
  | zero => intro reader st r h; simp [readLoop] at h
  | succ f ih =>
    intro reader st r h
    rw [readLoop_unfold] at h
    rw [decodeRecords]
    cases hv : ReadVarint reader with
    | error err =>
      rw [hv] at h
      simp only at h ⊢
      split_ifs at h ⊢ with he
      exact ⟨[], rfl⟩
    | ok v =>
      obtain ⟨l, r1⟩ := v
      rw [hv] at h
      simp only at h ⊢
      cases hc : CopyN r1 l with
      | error err => rw [hc] at h; cases h
      | ok c =>
        obtain ⟨buf, r2⟩ := c
        rw [hc] at h
        simp only at h ⊢
        cases hu : pc.Unmarshal buf with
        | error err => rw [hu] at h; cases h
        | ok m =>
          rw [hu] at h
          simp only at h ⊢
          cases ha : applyRecord st m with
          | error err => rw [ha] at h; cases h
          | ok el =>
            rw [ha] at h
            simp only at h
            obtain ⟨ms, hms⟩ := ih r2 (some el) r h
            exact ⟨m :: ms, by rw [hms]⟩

theorem readLoop_eq_fold (pc : Codec) (source : List Nat) (records : List LogEntry)
    (h : decodeStream pc source = .ok records) (st : Option Store) :
    readLoop pc (source.length + 1) source st = foldRecords st records := by
  obtain ⟨hlen, hrun⟩ := readLoop_of_decode pc [] source.length source records h 0 st
  simp only [List.append_nil, Nat.add_zero] at hrun
  rw [hrun]
  cases hf : foldRecords st records with
  | error err => rfl
  | ok st2 =>
    simp only
    obtain ⟨j, hj⟩ : ∃ j, source.length + 1 - records.length = j + 1 :=
      ⟨source.length - records.length, by omega⟩
    rw [hj]
    rfl

theorem ReadEventLog_eq_load (pc : Codec) (source : List Nat) (records : List LogEntry)
    (h : decodeStream pc source = .ok records) :
    ReadEventLog pc source = loadRecords records := by
  unfold ReadEventLog loadRecords
  rw [readLoop_eq_fold pc source records h none]

theorem decode_of_ReadEventLog (pc : Codec) (source : List Nat) (s : Store)
    (h : ReadEventLog pc source = .ok s) :
    ∃ records, decodeStream pc source = .ok records ∧ loadRecords records = .ok s := by
  have h0 := h
  unfold ReadEventLog at h
  cases hr : readLoop pc (source.length + 1) source none with
  | error err => rw [hr] at h; cases h
  | ok r =>
    obtain ⟨records, hd⟩ := decode_of_readLoop pc _ _ _ _ hr
    refine ⟨records, hd, ?_⟩
    rw [← ReadEventLog_eq_load pc source records hd]
    exact h0

/-! ## The log built from records -/

theorem applyRecord_event {el : Store} {ys : List (Nat × Event)} (h : Built el ys)
    (e : Event) :
    ∃ el2, applyRecord (some el) (eventRecord e) = .ok el2 ∧
      Built el2 (ys ++ [(el.heap.length, e)]) ∧
      el2.l.Name = el.l.Name ∧ el2.l.Description = el.l.Description := by
  obtain ⟨el2, h1, h2, h3, h4⟩ := h.step e
  refine ⟨el2, ?_, h2, h3, h4⟩
  simp only [applyRecord, eventRecord]
  cases hF : el.l.FirstEventLogEntry with
  | none =>
    rw [hF] at h1
    simp only [Option.some.injEq] at h1
    rw [← h1]
  | some f =>
    rw [hF] at h1
    simp only at h1 ⊢
    cases hT : el.l.NextEventLogEntry with
    | none => rw [hT] at h1; simp at h1
    | some t =>
      rw [hT] at h1
      simp only at h1 ⊢
      cases hL : (setPrev (el.heap ++ [({ Event := some e, Next := none, Prev := none } :
          EventLogEntry)]) el.heap.length (some t))[t]? with
      | none => rw [hL] at h1; simp at h1
      | some x =>
        rw [hL] at h1
        simp only [Option.some.injEq] at h1
        rw [← h1, hF]

theorem applyRecord_some_ok {el el2 : Store} {m : LogEntry}
    (h : applyRecord (some el) m = .ok el2) : ∃ e, m = eventRecord e := by
  obtain ⟨ty⟩ := m
  cases ty with
  | none => simp [applyRecord] at h
  | some ty =>
    cases ty with
    | Scenario sc => simp [applyRecord] at h
    | Event ev =>
      cases ev with
      | none => simp [applyRecord] at h
      | some e => exact ⟨e, rfl⟩

theorem applyRecord_none_ok {el2 : Store} {m : LogEntry}
    (h : applyRecord none m = .ok el2) :
    ∃ sc, m = headerRecord sc ∧
      el2 = { heap := []
              l := { Name := sc.Name, Description := sc.Description,
                     FirstEventLogEntry := none, NextEventLogEntry := none,
                     LastConsumed := none, FakeTime := 0 } } := by
  obtain ⟨ty⟩ := m
  cases ty with
  | none => simp [applyRecord] at h
  | some ty =>
    cases ty with
    | Event ev => simp [applyRecord] at h
    | Scenario sc =>
      cases sc with
      | none => simp [applyRecord] at h
      | some sc =>
        simp only [applyRecord, Except.ok.injEq] at h
        exact ⟨sc, rfl, h.symm⟩

theorem foldRecords_events :
    ∀ (evs : List Event) (el : Store) (ys : List (Nat × Event)), Built el ys →
      ∃ el2 ys2, foldRecords (some el) (evs.map eventRecord) = .ok (some el2) ∧
        Built el2 ys2 ∧ ys2.map Prod.snd = ys.map Prod.snd ++ evs ∧
        el2.l.Name = el.l.Name ∧ el2.l.Description = el.l.Description := by
  intro evs
  induction evs with
  | nil => intro el ys h; exact ⟨el, ys, rfl, h, by simp, rfl, rfl⟩
  | cons e evs ih =>
    intro el ys h
    obtain ⟨el1, h1, h2, h3, h4⟩ := applyRecord_event h e
    obtain ⟨el2, ys2, g1, g2, g3, g4, g5⟩ := ih el1 _ h2
    refine ⟨el2, ys2, ?_, g2, ?_, g4.trans h3, g5.trans h4⟩
    · simp only [List.map_cons, foldRecords, h1]
      exact g1
    · rw [g3]; simp

theorem foldRecords_some_ok :
    ∀ (ms : List LogEntry) (el : Store) (r : Option Store),
      foldRecords (some el) ms = .ok r → ∃ evs : List Event, ms = evs.map eventRecord := by
  intro ms
  induction ms with
  | nil => intro el r _; exact ⟨[], rfl⟩
  | cons m ms ih =>
    intro el r h
    simp only [foldRecords] at h
    cases ha : applyRecord (some el) m with
    | error err => rw [ha] at h; cases h
    | ok el1 =>
      rw [ha] at h
      simp only at h
      obtain ⟨e, he⟩ := applyRecord_some_ok ha
      obtain ⟨evs, hevs⟩ := ih el1 r h
      exact ⟨e :: evs, by rw [he, hevs]; rfl⟩

/-- The shape of the store `loadRecords` returns, and when it returns one. -/
theorem loadRecords_ok_iff (records : List LogEntry) (s : Store) :
    loadRecords records = .ok s ↔
      ∃ (sc : ScenarioConfig) (evs : List Event),
        records = headerRecord sc :: evs.map eventRecord ∧
        loadRecords (headerRecord sc :: evs.map eventRecord) = .ok s := by
  constructor
  · intro h
    have h0 := h
    unfold loadRecords at h
    cases records with
    | nil => simp [foldRecords] at h
    | cons m ms =>
      simp only [foldRecords] at h
      cases ha : applyRecord none m with
      | error err => rw [ha] at h; cases h
      | ok el =>
        rw [ha] at h
        simp only at h
        obtain ⟨sc, hsc, -⟩ := applyRecord_none_ok ha
        cases hf : foldRecords (some el) ms with
        | error err => rw [hf] at h; cases h
        | ok r =>
          obtain ⟨evs, hevs⟩ := foldRecords_some_ok ms el r hf
          subst hsc hevs
          exact ⟨sc, evs, rfl, h0⟩
  · rintro ⟨sc, evs, rfl, h⟩
    exact h

theorem loadRecords_header (sc : ScenarioConfig) (evs : List Event) :
    ∃ s ys, loadRecords (headerRecord sc :: evs.map eventRecord) = .ok s ∧
      Rep s [] ys ∧ ys.map Prod.snd = evs ∧
      s.l.Name = sc.Name ∧ s.l.Description = sc.Description ∧
      s.l.NextEventLogEntry = s.l.FirstEventLogEntry ∧
      s.l.FakeTime = 0 ∧ s.l.LastConsumed = none := by
  have hb0 : Built
      ({ heap := [],
         l := { Name := sc.Name, Description := sc.Description,
                FirstEventLogEntry := none, NextEventLogEntry := none,
                LastConsumed := none, FakeTime := 0 } } : Store) [] :=
    ⟨trivial, by simp, rfl, rfl, rfl, rfl⟩
  obtain ⟨el2, ys2, g1, g2, g3, g4, g5⟩ := foldRecords_events evs _ _ hb0
  refine ⟨{ el2 with l := { el2.l with NextEventLogEntry := el2.l.FirstEventLogEntry } },
    ys2, ?_, ?_, by simpa using g3, g4, g5, rfl, g2.fake, g2.last⟩
  · simp only [loadRecords, foldRecords, applyRecord, headerRecord]
    rw [g1]
  · exact ⟨by simpa using g2.seg, by simpa using g2.nodup, by simpa using g2.first,
      by simpa using g2.first, g2.last⟩

/-! ## Claims on ReadEventLog -/

theorem Count_of_Rep {s : Store} {cs ps : List (Nat × Event)} (h : Rep s cs ps) :
    Count s = .ok (cs ++ ps).length := by
  unfold Count
  rw [traverse_of_Rep h]
  simp [Except.map]

theorem ReadEventLog_ok_iff (pc : Codec) (source : List Nat) (records : List LogEntry)
    (hwf : decodeStream pc source = .ok records) :
    (∃ s, ReadEventLog pc source = .ok s) ↔
      ∃ (sc : ScenarioConfig) (evs : List Event),
        records = headerRecord sc :: evs.map eventRecord := by
  rw [ReadEventLog_eq_load pc source records hwf]
  constructor
  · rintro ⟨s, hs⟩
    obtain ⟨sc, evs, h1, -⟩ := (loadRecords_ok_iff records s).1 hs
    exact ⟨sc, evs, h1⟩
  · rintro ⟨sc, evs, rfl⟩
    obtain ⟨s, ys, h1, -⟩ := loadRecords_header sc evs
    exact ⟨s, h1⟩

/-- C12 (ReadEventLog acceptance): for every well-framed input (every frame is
complete and decodes, so that the stream has a sequence of decoded records),
`ReadEventLog` succeeds if and only if the records are a scenario header (a scenario
record with its scenario message) followed only by event records with a non-nil
event. In particular it fails on zero bytes, when the first record is an event
record, when a later record is a scenario record, and when a record has no type. -/
theorem read_acceptance (pc : Codec) (source : List Nat) (records : List LogEntry)
    (hwf : decodeStream pc source = .ok records) :
    ((∃ s, ReadEventLog pc source = .ok s) ↔
      ∃ (sc : ScenarioConfig) (evs : List Event),
        records = headerRecord sc :: evs.map eventRecord) ∧
    ReadEventLog pc [] = .error (Failure.error "file ended before initial scenario") ∧
    (records = [] → ¬ ∃ s, ReadEventLog pc source = .ok s) ∧
    (∀ e rest, records = { Type_ := some (LogEntryType.Event e) } :: rest →
      ¬ ∃ s, ReadEventLog pc source = .ok s) ∧
    (∀ first rest sc, records = first :: rest →
      { Type_ := some (LogEntryType.Scenario sc) } ∈ rest →
      ¬ ∃ s, ReadEventLog pc source = .ok s) ∧
    ({ Type_ := none } ∈ records → ¬ ∃ s, ReadEventLog pc source = .ok s) := by
  have hiff := ReadEventLog_ok_iff pc source records hwf
  refine ⟨hiff, rfl, ?_, ?_, ?_, ?_⟩
  · intro hnil hs
    obtain ⟨sc, evs, h⟩ := hiff.1 hs
    rw [hnil] at h
    cases h
  · intro e rest hrec hs
    obtain ⟨sc, evs, h⟩ := hiff.1 hs
    rw [hrec] at h
    simp [headerRecord] at h
  · intro first rest sc hrec hmem hs
    obtain ⟨sc2, evs, h⟩ := hiff.1 hs
    rw [hrec] at h
    obtain ⟨-, hrest⟩ := List.cons.inj h
    rw [hrest] at hmem
    obtain ⟨e, -, he⟩ := List.mem_map.1 hmem
    simp [eventRecord] at he
  · intro hmem hs
    obtain ⟨sc, evs, h⟩ := hiff.1 hs
    rw [h] at hmem
    rcases List.mem_cons.1 hmem with h1 | h1
    · simp [headerRecord] at h1
    · obtain ⟨e, -, he⟩ := List.mem_map.1 h1
      simp [eventRecord] at he

/-- Witness of C12: the sample stream of a header and two events. -/
theorem read_acceptance_witness :
    decodeStream sampleCodec unsortedStream =
      .ok [headerRecord { Name := "", Description := "", NodeConfigs := [{ Id := 1 }] },
           eventRecord (processEvent 1 10), eventRecord (processEvent 1 5)] ∧
    ∃ s, ReadEventLog sampleCodec unsortedStream = .ok s :=
  have hd : decodeStream sampleCodec unsortedStream =
      .ok [headerRecord { Name := "", Description := "", NodeConfigs := [{ Id := 1 }] },
           eventRecord (processEvent 1 10), eventRecord (processEvent 1 5)] := rfl
  ⟨hd, (read_acceptance sampleCodec unsortedStream _ hd).1.2
    ⟨_, [processEvent 1 10, processEvent 1 5], rfl⟩⟩

/-- C13 (ReadEventLog result state): when `ReadEventLog` succeeds, the stream
decodes to a header and event records; the returned log has the name and the
description of the header, its entries from the head carry the events in stream
order, `Count` is the number of event frames, the cursor equals the head, `FakeTime`
is 0 and `LastConsumed` is nil, whatever the times of the events; and the node-config
list of the header is stored nowhere: a stream that differs only in that list gives
the same log. -/
theorem read_result_state (pc : Codec) (source : List Nat) (s : Store)
    (h : ReadEventLog pc source = .ok s) :
    ∃ (sc : ScenarioConfig) (evs : List Event) (ys : List (Nat × Event)),
      decodeStream pc source = .ok (headerRecord sc :: evs.map eventRecord) ∧
      s.l.Name = sc.Name ∧ s.l.Description = sc.Description ∧
      entries s = .ok ys ∧ ys.map Prod.snd = evs ∧
      Count s = .ok evs.length ∧
      s.l.NextEventLogEntry = s.l.FirstEventLogEntry ∧
      s.l.FakeTime = 0 ∧ s.l.LastConsumed = none ∧
      (∀ source2 ncs2,
        decodeStream pc source2 =
          .ok (headerRecord { sc with NodeConfigs := ncs2 } :: evs.map eventRecord) →
        ReadEventLog pc source2 = .ok s) := by
  obtain ⟨records, hd, hl⟩ := decode_of_ReadEventLog pc source s h
  obtain ⟨sc, evs, hrec, hl2⟩ := (loadRecords_ok_iff records s).1 hl
  subst hrec
  obtain ⟨s2, ys, g1, g2, g3, g4, g5, g6, g7, g8⟩ := loadRecords_header sc evs
  rw [g1] at hl2
  cases hl2
  refine ⟨sc, evs, ys, hd, g4, g5, g2.entries, g3, ?_, g6, g7, g8, ?_⟩
  · rw [Count_of_Rep g2, ← g3]
    simp
  · intro source2 ncs2 hd2
    rw [ReadEventLog_eq_load pc source2 _ hd2, ← g1]
    rfl

/-- Witness of C13: the sample stream. -/
theorem read_result_state_witness :
    ReadEventLog sampleCodec unsortedStream = .ok unsortedStore ∧
    ∃ (sc : ScenarioConfig) (evs : List Event) (ys : List (Nat × Event)),
      decodeStream sampleCodec unsortedStream =
        .ok (headerRecord sc :: evs.map eventRecord) ∧
      unsortedStore.l.Name = sc.Name ∧ unsortedStore.l.Description = sc.Description ∧
      entries unsortedStore = .ok ys ∧ ys.map Prod.snd = evs ∧
      Count unsortedStore = .ok evs.length ∧
      unsortedStore.l.NextEventLogEntry = unsortedStore.l.FirstEventLogEntry ∧
      unsortedStore.l.FakeTime = 0 ∧ unsortedStore.l.LastConsumed = none ∧
      (∀ source2 ncs2,
        decodeStream sampleCodec source2 =
          .ok (headerRecord { sc with NodeConfigs := ncs2 } :: evs.map eventRecord) →
        ReadEventLog sampleCodec source2 = .ok unsortedStore) :=
  have hr : ReadEventLog sampleCodec unsortedStream = .ok unsortedStore := rfl
  ⟨hr, read_result_state sampleCodec unsortedStream unsortedStore hr⟩

/-- C15 (counterexample): `ReadEventLog` succeeds on a stream whose two events have
the times 10 and then 5; the traversal of the returned log has the times 10, 5, which
are not non-decreasing, and consuming it sets `FakeTime` to 10 and then to 5. -/
theorem read_unsorted_stream :
    ReadEventLog sampleCodec unsortedStream = .ok unsortedStore ∧
    entries unsortedStore = .ok [(0, processEvent 1 10), (1, processEvent 1 5)] ∧
    ¬ List.Sorted (· ≤ ·)
      ([(0, processEvent 1 10), (1, processEvent 1 5)].map (fun x => x.2.Time)) ∧
    consumeTrace 2 unsortedStore =
      .ok [(some (processEvent 1 10), 10), (some (processEvent 1 5), 5)] := by
  refine ⟨rfl, rfl, by decide, rfl⟩

/-- C15 (amended): when `ReadEventLog` succeeds, the traversal from the head of the
returned log carries the decoded events in stream order; so its times are
non-decreasing exactly when the event records of the stream are in non-decreasing
time order, and consuming the log sets `FakeTime` to the times of the stream one
after the other. -/
theorem read_order (pc : Codec) (source : List Nat) (s : Store)
    (h : ReadEventLog pc source = .ok s) :
    ∃ (sc : ScenarioConfig) (evs : List Event) (ys : List (Nat × Event)),
      decodeStream pc source = .ok (headerRecord sc :: evs.map eventRecord) ∧
      entries s = .ok ys ∧ ys.map Prod.snd = evs ∧
      (List.Sorted (· ≤ ·) (ys.map (fun x => x.2.Time)) ↔
        List.Sorted (· ≤ ·) (evs.map (fun e => e.Time))) ∧
      consumeTrace (evs.length + 1) s =
        .ok (evs.map (fun e => (some e, e.Time)) ++
          [(none, ((evs.getLast?).map (fun e => e.Time)).getD 0)]) := by
  obtain ⟨records, hd, hl⟩ := decode_of_ReadEventLog pc source s h
  obtain ⟨sc, evs, hrec, hl2⟩ := (loadRecords_ok_iff records s).1 hl
  subst hrec
  obtain ⟨s2, ys, g1, g2, g3, g4, g5, g6, g7, g8⟩ := loadRecords_header sc evs
  rw [g1] at hl2
  cases hl2
  refine ⟨sc, evs, ys, hd, g2.entries, g3, ?_, ?_⟩
  · rw [← g3, List.map_map]
    rfl
  · have hlen : evs.length = ys.length := by rw [← g3]; simp
    rw [hlen, consumeTrace_rep ys [] s g2, g7, lastTime_eq_getLast?, ← g3]
    simp [List.map_map, Function.comp_def]

/-- Witness of C15 (amended): the sample stream. -/
theorem read_order_witness :
    ReadEventLog sampleCodec unsortedStream = .ok unsortedStore ∧
    ∃ (sc : ScenarioConfig) (evs : List Event) (ys : List (Nat × Event)),
      decodeStream sampleCodec unsortedStream =
        .ok (headerRecord sc :: evs.map eventRecord) ∧
      entries unsortedStore = .ok ys ∧ ys.map Prod.snd = evs ∧
      (List.Sorted (· ≤ ·) (ys.map (fun x => x.2.Time)) ↔
        List.Sorted (· ≤ ·) (evs.map (fun e => e.Time))) ∧
      consumeTrace (evs.length + 1) unsortedStore =
        .ok (evs.map (fun e => (some e, e.Time)) ++
          [(none, ((evs.getLast?).map (fun e => e.Time)).getD 0)]) :=
  have hr : ReadEventLog sampleCodec unsortedStream = .ok unsortedStore := rfl
  ⟨hr, read_order sampleCodec unsortedStream unsortedStore hr⟩

/-! ## End of the stream -/

theorem readUvarintLoop_truncated :
    ∀ (tail : List Nat) (k i x sh : Nat), tail.length < k → (∀ b ∈ tail, 0x80 ≤ b) →
      (0 < i ∨ tail ≠ []) →
      readUvarintLoop k i x sh tail = .error ioErrUnexpectedEOF := by
  intro tail
  induction tail with
  | nil =>
    intro k i x sh hk _ hi
    obtain ⟨k, rfl⟩ : ∃ j, k = j + 1 := ⟨k - 1, by simp at hk; omega⟩
    have h0 : 0 < i := by
      rcases hi with h | h
      · exact h
      · exact absurd rfl h
    simp [readUvarintLoop, h0]
  | cons b t ih =>
    intro k i x sh hk hb _
    obtain ⟨k, rfl⟩ : ∃ j, k = j + 1 := ⟨k - 1, by simp at hk; omega⟩
    have hb0 : ¬ b < 0x80 := by
      have := hb b (List.mem_cons_self _ _)
      omega
    simp only [readUvarintLoop, hb0, if_false]
    exact ih k (i + 1) _ _ (by simp at hk; omega)
      (fun c hc => hb c (List.mem_cons_of_mem _ hc)) (Or.inl (Nat.succ_pos _))

theorem ReadVarint_truncated (tail : List Nat) (hne : tail ≠ [])
    (hb : ∀ b ∈ tail, 0x80 ≤ b) (hlen : tail.length < 10) :
    ReadVarint tail = .error ioErrUnexpectedEOF := by
  unfold ReadVarint ReadUvarint
  rw [readUvarintLoop_truncated tail 10 0 0 0 hlen hb (Or.inr hne)]

theorem readLoop_after_frames (pc : Codec) (good tail : List Nat) (records : List LogEntry)
    (hgood : decodeStream pc good = .ok records) :
    ∃ j, readLoop pc ((good ++ tail).length + 1) (good ++ tail) none =
      match foldRecords none records with
      | .error err => .error err
      | .ok st2 => readLoop pc (j + 1) tail st2 := by
  obtain ⟨hlen, hrun⟩ :=
    readLoop_of_decode pc tail good.length good records hgood tail.length none
  refine ⟨good.length + tail.length - records.length, ?_⟩
  have h1 : (good ++ tail).length + 1 = good.length + 1 + tail.length := by
    rw [List.length_append]; omega
  have h2 : good.length + 1 + tail.length - records.length =
      good.length + tail.length - records.length + 1 := by omega
  rw [h1, hrun]
  cases foldRecords none records with
  | error err => rfl
  | ok st2 => exact congrArg (fun k => readLoop pc k tail st2) h2

theorem ReadEventLog_tail_error (pc : Codec) (good tail : List Nat)
    (records : List LogEntry) (hgood : decodeStream pc good = .ok records) (err : Failure)
    (htail : ∀ j st, readLoop pc (j + 1) tail st = .error err) :
    (∀ s, ReadEventLog pc (good ++ tail) ≠ .ok s) ∧
    (∀ st, foldRecords none records = .ok st →
      ReadEventLog pc (good ++ tail) = .error err) := by
  obtain ⟨j, hj⟩ := readLoop_after_frames pc good tail records hgood
  unfold ReadEventLog
  rw [hj]
  cases hf : foldRecords none records with
  | error e =>
    exact ⟨fun s h => (by cases h), fun st h => (by cases h)⟩
  | ok st2 =>
    simp only
    rw [htail j st2]
    exact ⟨fun s h => (by cases h), fun st _ => rfl⟩

/-- C14 (end-of-stream handling): let the input be complete frames `good`, which
decode to `records`, followed by `tail`. If `tail` is empty, the end of the input is
at a frame boundary and `ReadEventLog` ends its loop normally: it returns what the
records give, a log whenever they are a header followed by events. If `tail` is a
length prefix cut short (up to nine bytes, all with the continuation bit), or a
length prefix followed by fewer payload bytes than it declares, `ReadEventLog`
returns no log: it returns the error of the reader (unexpected EOF, resp. EOF)
whenever the records before are accepted. -/
theorem end_of_stream (pc : Codec) (good tail : List Nat) (records : List LogEntry)
    (hgood : decodeStream pc good = .ok records) :
    (ReadEventLog pc good = loadRecords records ∧
      ((∃ (sc : ScenarioConfig) (evs : List Event),
          records = headerRecord sc :: evs.map eventRecord) →
        ∃ s, ReadEventLog pc good = .ok s)) ∧
    (tail ≠ [] → (∀ b ∈ tail, 0x80 ≤ b) → tail.length < 10 →
      (∀ s, ReadEventLog pc (good ++ tail) ≠ .ok s) ∧
      (∀ st, foldRecords none records = .ok st →
        ReadEventLog pc (good ++ tail) = .error ioErrUnexpectedEOF)) ∧
    (∀ n part, ReadVarint tail = .ok (n, part) → (part.length : Int) < n →
      (∀ s, ReadEventLog pc (good ++ tail) ≠ .ok s) ∧
      (∀ st, foldRecords none records = .ok st →
        ReadEventLog pc (good ++ tail) = .error ioEOF)) := by
  refine ⟨⟨ReadEventLog_eq_load pc good records hgood,
    (ReadEventLog_ok_iff pc good records hgood).2⟩, ?_, ?_⟩
  · intro hne hb hlen
    refine ReadEventLog_tail_error pc good tail records hgood _ ?_
    intro j st
    rw [readLoop_unfold, ReadVarint_truncated tail hne hb hlen]
    simp [ioErrUnexpectedEOF, ioEOF]
  · intro n part hv hshort
    refine ReadEventLog_tail_error pc good tail records hgood _ ?_
    intro j st
    rw [readLoop_unfold, hv]
    have hn : ¬ n ≤ 0 := by omega
    have hl : part.length < n.toNat := by omega
    simp [CopyN, hn, hl]

/-- Witness of C14: the sample stream, then one continuation byte, then a length
prefix that declares three bytes of which one is there. -/
theorem end_of_stream_witness :
    decodeStream sampleCodec unsortedStream =
      .ok [headerRecord { Name := "", Description := "", NodeConfigs := [{ Id := 1 }] },
           eventRecord (processEvent 1 10), eventRecord (processEvent 1 5)] ∧
    (∃ s, ReadEventLog sampleCodec unsortedStream = .ok s) ∧
    ReadEventLog sampleCodec (unsortedStream ++ [0x80]) = .error ioErrUnexpectedEOF ∧
    ReadEventLog sampleCodec (unsortedStream ++ [6, 1]) = .error ioEOF :=
  have hd : decodeStream sampleCodec unsortedStream =
      .ok [headerRecord { Name := "", Description := "", NodeConfigs := [{ Id := 1 }] },
           eventRecord (processEvent 1 10), eventRecord (processEvent 1 5)] := rfl
  ⟨hd,
    (end_of_stream sampleCodec unsortedStream [] _ hd).1.2
      ⟨_, [processEvent 1 10, processEvent 1 5], rfl⟩,
    ((end_of_stream sampleCodec unsortedStream [0x80] _ hd).2.1 (by simp) (by simp)
      (by simp)).2 _ rfl,
    ((end_of_stream sampleCodec unsortedStream [6, 1] _ hd).2.2 3 [1] rfl (by decide)).2 _
      rfl⟩

/-! ## Logs reached from an empty or a loaded log -/

theorem Rep_of_ReadEventLog {pc : Codec} {source : List Nat} {s : Store}
    (h : ReadEventLog pc source = .ok s) : ∃ ys, Rep s [] ys := by
  obtain ⟨records, -, hl⟩ := decode_of_ReadEventLog pc source s h
  obtain ⟨sc, evs, hrec, hl2⟩ := (loadRecords_ok_iff records s).1 hl
  obtain ⟨s2, ys, g1, g2, -⟩ := loadRecords_header sc evs
  rw [g1] at hl2
  cases hl2
  exact ⟨ys, g2⟩

theorem Rep.afterConsume {s s2 : Store} {cs ps : List (Nat × Event)} {r : Option Event}
    (h : Rep s cs ps) (hcon : ConsumeAndAdvance s = .ok (r, s2)) :
    ∃ cs2 ps2, Rep s2 cs2 ps2 := by
  cases ps with
  | nil =>
    rw [Consume_rep_nil h] at hcon
    cases hcon
    exact ⟨cs, [], h⟩
  | cons x ps2 =>
    obtain ⟨h1, hrep⟩ := Consume_rep_cons h
    rw [h1] at hcon
    cases hcon
    exact ⟨_, _, hrep⟩

theorem ReachAny.rep {s : Store} (h : ReachAny s) : ∃ cs ps, Rep s cs ps := by
  induction h with
  | empty name description => exact ⟨[], [], (Inv.empty name description).rep⟩
  | loaded pc source hr =>
    obtain ⟨ys, hys⟩ := Rep_of_ReadEventLog hr
    exact ⟨[], ys, hys⟩
  | insert e _ hins ih =>
    obtain ⟨cs, ps, hrep⟩ := ih
    obtain ⟨s3, h1, h2, -⟩ := Insert_rep e hrep (Nat.not_lt.2 (Insert_ok_time hins))
    rw [hins] at h1
    cases h1
    exact ⟨cs, _, h2⟩
  | consume r _ hcon ih =>
    obtain ⟨cs, ps, hrep⟩ := ih
    exact hrep.afterConsume hcon

theorem Seg_getElem {heap : List EventLogEntry} :
    ∀ (xs : List (Nat × Event)) (p q : Ptr), Seg heap p xs q → ∀ x ∈ xs,
      ∃ entry, heap[x.1]? = some entry ∧ entry.Event = some x.2 := by
  intro xs
  induction xs with
  | nil => intro p q _ x hx; cases hx
  | cons y ys ih =>
    intro p q h x hx
    obtain ⟨h1, h2⟩ := h
    rcases List.mem_cons.1 hx with hxy | hxs
    · rw [hxy]; exact ⟨_, h1, rfl⟩
    · exact ih _ _ h2 x hxs

theorem Seg_next_prev {heap : List EventLogEntry} :
    ∀ (xs : List (Nat × Event)) (p : Ptr), Seg heap p xs none → ∀ x ∈ xs,
      ∀ entry nx, heap[x.1]? = some entry → entry.Next = some nx →
        (∃ y ∈ xs, y.1 = nx) ∧ ∃ entry2, heap[nx]? = some entry2 ∧ entry2.Prev = some x.1 := by
  intro xs
  induction xs with
  | nil => intro p _ x hx; cases hx
  | cons x0 rest ih =>
    intro p h x hx entry nx he hn
    obtain ⟨h1, h2⟩ := h
    rcases List.mem_cons.1 hx with hxy | hxs
    · rw [hxy] at he
      rw [h1] at he
      cases he
      simp only at hn
      cases rest with
      | nil => simp at hn
      | cons y B =>
        simp only [headPtr_cons, Option.some.injEq] at hn
        obtain ⟨h3, -⟩ := h2
        rw [hxy, ← hn]
        exact ⟨⟨y, by simp, rfl⟩, _, h3, rfl⟩
    · obtain ⟨⟨y, hy, hy1⟩, g⟩ := ih _ h2 x hxs entry nx he hn
      exact ⟨⟨y, List.mem_cons_of_mem _ hy, hy1⟩, g⟩

theorem Seg_last {heap : List EventLogEntry} (xs : List (Nat × Event)) (x : Nat × Event)
    (p q : Ptr) (h : Seg heap p (xs ++ [x]) q) :
    heap[x.1]? = some { Event := some x.2, Next := q, Prev := lastPtr xs p } := by
  rw [Seg_append] at h
  exact h.2.1

theorem drainedStore_reach : ReachAny drainedStore :=
  ReachAny.consume (some (processEvent 1 5))
    (ReachAny.insert (processEvent 1 5) (ReachAny.empty "" "") rfl) rfl

theorem sampleStoreConsumed_reachAny : ReachAny sampleStoreConsumed :=
  ReachAny.consume (some (processEvent 1 5))
    (ReachAny.insert (processEvent 1 20)
      (ReachAny.insert (processEvent 1 5)
        (ReachAny.insert (processEvent 1 10) (ReachAny.empty "" "") rfl) rfl) rfl) rfl

/-- C18 (the drained-log branch of `Insert` is safe): in every log reached from an
empty log or from a successful `ReadEventLog` by `Insert` and `ConsumeAndAdvance`
calls, if the head is non-nil and the cursor is nil then `LastConsumed` is non-nil
and is the last entry of the list (its `Next` is nil). So `Insert` of an event with
`Time ≥ FakeTime` returns normally there and only appends: the entries afterwards
are the old entries followed by the new one. -/
theorem drained_branch_safe (s : Store) (h : ReachAny s)
    (hhead : s.l.FirstEventLogEntry ≠ none) (hcur : s.l.NextEventLogEntry = none) :
    ∃ lc entry as, s.l.LastConsumed = some lc ∧ s.heap[lc]? = some entry ∧
      entry.Next = none ∧ traverse s = .ok as ∧ as.getLast? = some lc ∧
      ∀ e, s.l.FakeTime ≤ e.Time → ∃ s2 xs, Insert s e = .ok s2 ∧
        entries s = .ok xs ∧ entries s2 = .ok (xs ++ [(s.heap.length, e)]) := by
  obtain ⟨cs, ps, hrep⟩ := h.rep
  have hps : ps = [] := headPtr_eq_none (hrep.cursor.symm.trans hcur)
  subst hps
  rcases List.eq_nil_or_concat cs with hcs | ⟨cs2, x, hcs⟩
  · subst hcs
    exact absurd hrep.first hhead
  · rw [List.concat_eq_append] at hcs
    subst hcs
    have hseg := hrep.seg
    simp only [List.append_nil] at hseg
    refine ⟨x.1, _, _, ?_, Seg_last cs2 x none none hseg, rfl, traverse_of_Rep hrep, ?_, ?_⟩
    · rw [hrep.last, lastPtr_concat]
    · simp
    · intro e ht
      obtain ⟨s2, h1, h2, -⟩ := Insert_rep e hrep (Nat.not_lt.2 ht)
      refine ⟨s2, _, h1, hrep.entries, ?_⟩
      rw [h2.entries]
      simp [insTime]

/-- Witness of C18: the log with one entry, consumed. -/
theorem drained_branch_safe_witness :
    ReachAny drainedStore ∧ drainedStore.l.FirstEventLogEntry ≠ none ∧
    drainedStore.l.NextEventLogEntry = none ∧
    ∃ lc entry as, drainedStore.l.LastConsumed = some lc ∧
      drainedStore.heap[lc]? = some entry ∧
      entry.Next = none ∧ traverse drainedStore = .ok as ∧ as.getLast? = some lc ∧
      ∀ e, drainedStore.l.FakeTime ≤ e.Time → ∃ s2 xs, Insert drainedStore e = .ok s2 ∧
        entries drainedStore = .ok xs ∧
        entries s2 = .ok (xs ++ [(drainedStore.heap.length, e)]) :=
  ⟨drainedStore_reach, by decide, rfl,
    drained_branch_safe drainedStore drainedStore_reach (by decide) rfl⟩

/-- C19 (link consistency): in every log reached from an empty log or from a
successful `ReadEventLog` by `Insert` and `ConsumeAndAdvance` calls, the head has no
`Prev`; every linked entry with a successor is the `Prev` of that successor, which is
linked as well; the cursor, when non-nil, is a linked entry; and when `LastConsumed`
is non-nil its `Next` is the cursor. Consequently `Insert` of an event whose time is
at least `FakeTime` and less than the time of the cursor entry splices the new entry
between `LastConsumed` and the old cursor and makes it the cursor. -/
theorem link_consistency (s : Store) (h : ReachAny s) :
    ∃ as, traverse s = .ok as ∧
      (∀ a entry, s.l.FirstEventLogEntry = some a → s.heap[a]? = some entry →
        entry.Prev = none) ∧
      (∀ a ∈ as, ∀ entry nx, s.heap[a]? = some entry → entry.Next = some nx →
        nx ∈ as ∧ ∃ entry2, s.heap[nx]? = some entry2 ∧ entry2.Prev = some a) ∧
      (∀ c, s.l.NextEventLogEntry = some c → c ∈ as) ∧
      (∀ lc, s.l.LastConsumed = some lc →
        ∃ entry, s.heap[lc]? = some entry ∧ entry.Next = s.l.NextEventLogEntry) ∧
      (∀ e c cev, s.l.NextEventLogEntry = some c → eventAt s.heap c = some cev →
        s.l.FakeTime ≤ e.Time → e.Time < cev.Time →
        ∃ s2 new old, Insert s e = .ok s2 ∧
          s2.l.NextEventLogEntry = some s.heap.length ∧
          s2.heap[s.heap.length]? = some new ∧
          new.Prev = s.l.LastConsumed ∧ new.Next = some c ∧
          s2.heap[c]? = some old ∧ old.Prev = some s.heap.length ∧
          (∀ lc, s.l.LastConsumed = some lc →
            ∃ entry, s2.heap[lc]? = some entry ∧ entry.Next = some s.heap.length)) := by
  obtain ⟨cs, ps, hrep⟩ := h.rep
  refine ⟨_, traverse_of_Rep hrep, ?_, ?_, ?_, ?_, ?_⟩
  · intro a entry ha he
    cases hxs : cs ++ ps with
    | nil =>
      have := hrep.first
      rw [hxs, ha] at this
      cases this
    | cons x rest =>
      have hseg := hrep.seg
      have hf := hrep.first
      rw [hxs] at hseg hf
      rw [ha] at hf
      simp only [headPtr_cons, Option.some.injEq] at hf
      rw [hf, hseg.1] at he
      cases he
      rfl
  · intro a ha entry nx he hn
    obtain ⟨x, hx, rfl⟩ := List.mem_map.1 ha
    obtain ⟨⟨y, hy, hy1⟩, g⟩ := Seg_next_prev _ _ hrep.seg x hx entry nx he hn
    exact ⟨List.mem_map.2 ⟨y, hy, hy1⟩, g⟩
  · intro c hc
    cases ps with
    | nil =>
      have := hrep.cursor
      rw [hc] at this
      cases this
    | cons x rest =>
      have := hrep.cursor
      rw [hc] at this
      simp only [headPtr_cons, Option.some.injEq] at this
      rw [this]
      simp
  · intro lc hlc
    rcases List.eq_nil_or_concat cs with hcs | ⟨cs2, x, hcs⟩
    · subst hcs
      have := hrep.last
      rw [hlc] at this
      cases this
    · rw [List.concat_eq_append] at hcs
      subst hcs
      have hl := hrep.last
      rw [hlc, lastPtr_concat] at hl
      have hseg := ((Seg_append _ _ _ _ _).1 hrep.seg).1
      have := Seg_last cs2 x none _ hseg
      cases hl
      exact ⟨_, this, hrep.cursor.symm⟩
  · intro e c cev hc hcev ht hlt
    cases ps with
    | nil =>
      have := hrep.cursor
      rw [hc] at this
      cases this
    | cons x rest =>
      have hcx : c = x.1 := by
        have := hrep.cursor
        rw [hc] at this
        simpa using this
      subst hcx
      have hx : eventAt s.heap x.1 = some x.2 :=
        hrep.eventAt x (List.mem_append_right _ (List.mem_cons_self _ _))
      rw [hx] at hcev
      cases hcev
      obtain ⟨s2, h1, h2, -, hl⟩ := Insert_rep e hrep (Nat.not_lt.2 ht)
      have hins : insTime (s.heap.length, e) (x :: rest) = (s.heap.length, e) :: x :: rest := by
        simp [insTime, hlt]
      rw [hins] at h2 hl
      have hseg := (Seg_append _ _ _ _ _).1 h2.seg
      obtain ⟨hseg1, hnew, hold, -⟩ := hseg
      refine ⟨s2, _, _, h1, ?_, hnew, ?_, rfl, hold, rfl, ?_⟩
      · rw [hl]; rfl
      · exact hrep.last.symm
      · intro lc hlc
        rcases List.eq_nil_or_concat cs with hcs | ⟨cs2, y, hcs⟩
        · subst hcs
          have := hrep.last
          rw [hlc] at this
          cases this
        · rw [List.concat_eq_append] at hcs
          subst hcs
          have hl2 := hrep.last
          rw [hlc, lastPtr_concat] at hl2
          cases hl2
          exact ⟨_, Seg_last cs2 y none _ hseg1, rfl⟩

/-- Witness of C19: the sample log after one consumption. -/
theorem link_consistency_witness :
    ReachAny sampleStoreConsumed ∧
    ∃ as, traverse sampleStoreConsumed = .ok as ∧
      (∀ a entry, sampleStoreConsumed.l.FirstEventLogEntry = some a →
        sampleStoreConsumed.heap[a]? = some entry → entry.Prev = none) ∧
      (∀ a ∈ as, ∀ entry nx, sampleStoreConsumed.heap[a]? = some entry →
        entry.Next = some nx →
        nx ∈ as ∧ ∃ entry2, sampleStoreConsumed.heap[nx]? = some entry2 ∧
          entry2.Prev = some a) ∧
      (∀ c, sampleStoreConsumed.l.NextEventLogEntry = some c → c ∈ as) ∧
      (∀ lc, sampleStoreConsumed.l.LastConsumed = some lc →
        ∃ entry, sampleStoreConsumed.heap[lc]? = some entry ∧
          entry.Next = sampleStoreConsumed.l.NextEventLogEntry) ∧
      (∀ e c cev, sampleStoreConsumed.l.NextEventLogEntry = some c →
        eventAt sampleStoreConsumed.heap c = some cev →
        sampleStoreConsumed.l.FakeTime ≤ e.Time → e.Time < cev.Time →
        ∃ s2 new old, Insert sampleStoreConsumed e = .ok s2 ∧
          s2.l.NextEventLogEntry = some sampleStoreConsumed.heap.length ∧
          s2.heap[sampleStoreConsumed.heap.length]? = some new ∧
          new.Prev = sampleStoreConsumed.l.LastConsumed ∧ new.Next = some c ∧
          s2.heap[c]? = some old ∧ old.Prev = some sampleStoreConsumed.heap.length ∧
          (∀ lc, sampleStoreConsumed.l.LastConsumed = some lc →
            ∃ entry, s2.heap[lc]? = some entry ∧
              entry.Next = some sampleStoreConsumed.heap.length)) :=
  ⟨sampleStoreConsumed_reachAny, link_consistency sampleStoreConsumed
    sampleStoreConsumed_reachAny⟩

/-! ## Count and the convenience constructors -/

theorem Consume_same_list {s s2 : Store} {r : Option Event}
    (h : ConsumeAndAdvance s = .ok (r, s2)) :
    s2.heap = s.heap ∧ s2.l.FirstEventLogEntry = s.l.FirstEventLogEntry := by
  unfold ConsumeAndAdvance at h
  cases hN : s.l.NextEventLogEntry with
  | none =>
    rw [hN] at h
    cases h
    exact ⟨rfl, rfl⟩
  | some a =>
    rw [hN] at h
    simp only at h
    cases he : s.heap[a]? with
    | none => rw [he] at h; cases h
    | some entry =>
      rw [he] at h
      simp only at h
      cases hev : entry.Event with
      | none => rw [hev] at h; cases h
      | some ev =>
        rw [hev] at h
        cases h
        exact ⟨rfl, rfl⟩

theorem Consume_same_count {s s2 : Store} {r : Option Event}
    (h : ConsumeAndAdvance s = .ok (r, s2)) :
    Count s2 = Count s ∧ entries s2 = entries s := by
  obtain ⟨h1, h2⟩ := Consume_same_list h
  unfold Count entries traverse
  rw [h1, h2]
  exact ⟨rfl, rfl⟩

/-- C16 (no deletion): in a log reached from an empty log or from a successful
`ReadEventLog` by `Insert` and `ConsumeAndAdvance` calls, `Count` is the number of
entries linked from the head, consumed and pending together, and an `Insert` that
returns raises `Count` by exactly 1 and keeps every linked entry, in order; on every
log `ConsumeAndAdvance` changes neither `Count` nor the linked entries; hence in a log
reached from an empty log `Count` is the number of `Insert` calls made, however many
events were consumed. -/
theorem no_deletion :
    (∀ s : Store, ReachAny s →
      (∃ cs ps, consumedEntries s = .ok cs ∧ pendingEntries s = .ok ps ∧
        entries s = .ok (cs ++ ps) ∧ Count s = .ok (cs.length + ps.length)) ∧
      (∀ e s2, Insert s e = .ok s2 → ∃ xs xs2, entries s = .ok xs ∧
        entries s2 = .ok xs2 ∧ List.Sublist xs xs2 ∧ Count s = .ok xs.length ∧
        Count s2 = .ok (xs.length + 1))) ∧
    (∀ (t t2 : Store) (r : Option Event), ConsumeAndAdvance t = .ok (r, t2) →
      Count t2 = Count t ∧ entries t2 = entries t) ∧
    (∀ (hist ret : List Event) (s : Store), Reach hist ret s →
      Count s = .ok hist.length) := by
  refine ⟨fun s h => ?_, fun t t2 r hc => Consume_same_count hc, fun hist ret s h => ?_⟩
  · obtain ⟨cs, ps, hrep⟩ := h.rep
    refine ⟨⟨cs, ps, hrep.consumedEntries, hrep.pendingEntries, hrep.entries, ?_⟩, ?_⟩
    · rw [Count_of_Rep hrep, List.length_append]
    · intro e s2 hins
      obtain ⟨s3, h1, h2, -⟩ := Insert_rep e hrep (Nat.not_lt.2 (Insert_ok_time hins))
      rw [h1] at hins
      cases hins
      refine ⟨_, _, hrep.entries, h2.entries,
        List.Sublist.append_left (sublist_insTime _ _) _, Count_of_Rep hrep, ?_⟩
      rw [Count_of_Rep h2]
      simp only [List.length_append, insTime_length]
      rfl
  · obtain ⟨cs, ps, hinv⟩ := h.inv
    rw [Count_of_Rep hinv.rep, hinv.len]

/-- Witness of C16: the sample log after one consumption, and the log read from a
stream of a header and two events. -/
theorem no_deletion_witness :
    ((∃ cs ps, consumedEntries sampleStoreConsumed = .ok cs ∧
        pendingEntries sampleStoreConsumed = .ok ps ∧
        entries sampleStoreConsumed = .ok (cs ++ ps) ∧
        Count sampleStoreConsumed = .ok (cs.length + ps.length)) ∧
      (∀ e s2, Insert sampleStoreConsumed e = .ok s2 → ∃ xs xs2,
        entries sampleStoreConsumed = .ok xs ∧ entries s2 = .ok xs2 ∧
        List.Sublist xs xs2 ∧ Count sampleStoreConsumed = .ok xs.length ∧
        Count s2 = .ok (xs.length + 1))) ∧
    Count sampleStoreConsumed =
      .ok [processEvent 1 10, processEvent 1 5, processEvent 1 20].length ∧
    ((∃ cs ps, consumedEntries unsortedStore = .ok cs ∧
        pendingEntries unsortedStore = .ok ps ∧
        entries unsortedStore = .ok (cs ++ ps) ∧
        Count unsortedStore = .ok (cs.length + ps.length)) ∧
      (∀ e s2, Insert unsortedStore e = .ok s2 → ∃ xs xs2,
        entries unsortedStore = .ok xs ∧ entries s2 = .ok xs2 ∧
        List.Sublist xs xs2 ∧ Count unsortedStore = .ok xs.length ∧
        Count s2 = .ok (xs.length + 1))) :=
  ⟨no_deletion.1 sampleStoreConsumed sampleStoreConsumed_reachAny,
    no_deletion.2.2 _ _ sampleStoreConsumed sampleStoreConsumed_reach,
    no_deletion.1 unsortedStore (ReachAny.loaded sampleCodec unsortedStream rfl)⟩

theorem insertLoop_error_kind : ∀ (fuel : Nat) (s : Store) (logEntry : Nat) (event : Event)
    (currentEntry : Nat) (f : Failure) (st : Store),
    insertLoop fuel s logEntry event currentEntry = .error (f, st) →
    f = Failure.diverges ∨ f = nilDereference
  | 0, s, _, _, _, f, st, h => by
    simp only [insertLoop] at h
    cases h
    exact Or.inl rfl
  | fuel + 1, s, logEntry, event, currentEntry, f, st, h => by
    simp only [insertLoop] at h
    cases hc : s.heap[currentEntry]? with
    | none =>
      rw [hc] at h
      cases h
      exact Or.inr rfl
    | some ce =>
      rw [hc] at h
      simp only at h
      cases hev : ce.Event with
      | none =>
        rw [hev] at h
        cases h
        exact Or.inr rfl
      | some cev =>
        rw [hev] at h
        simp only at h
        split at h
        · cases h
        · cases hn : ce.Next with
          | none =>
            rw [hn] at h
            cases h
          | some nx =>
            rw [hn] at h
            exact insertLoop_error_kind fuel s logEntry event nx f st h

theorem Insert_error_kind {s : Store} {ev : Event} {f : Failure} {st : Store}
    (hle : s.l.FakeTime ≤ ev.Time) (hEq : Insert s ev = .error (f, st)) :
    f = Failure.diverges ∨ f = nilDereference := by
  unfold Insert at hEq
  rw [if_neg (Nat.not_lt.2 hle)] at hEq
  simp only at hEq
  cases hF : s.l.FirstEventLogEntry with
  | none => rw [hF] at hEq; cases hEq
  | some f0 =>
    rw [hF] at hEq
    simp only at hEq
    cases hN : s.l.NextEventLogEntry with
    | none =>
      rw [hN] at hEq
      simp only at hEq
      cases hL : s.l.LastConsumed with
      | none =>
        rw [hL] at hEq
        cases hEq
        exact Or.inr rfl
      | some lc =>
        rw [hL] at hEq
        simp only at hEq
        split at hEq
        · cases hEq
          exact Or.inr rfl
        · cases hEq
    | some c =>
      rw [hN] at hEq
      exact insertLoop_error_kind _ _ _ _ _ _ _ hEq

theorem Insert_rep_eventAt {s : Store} {cs ps : List (Nat × Event)} (e : Event)
    (hrep : Rep s cs ps) (ht : s.l.FakeTime ≤ e.Time) :
    ∃ s2, Insert s e = .ok s2 ∧ eventAt s2.heap s.heap.length = some e := by
  obtain ⟨s2, h1, h2, -⟩ := Insert_rep e hrep (Nat.not_lt.2 ht)
  exact ⟨s2, h1, h2.eventAt (s.heap.length, e)
    (List.mem_append_right _ (mem_insTime.2 (Or.inl rfl)))⟩

/-- C17 (convenience constructors and 64-bit time): with `FakeTime` and `fromNow`
in the range of `uint64`, `InsertStateEvent` and `InsertProcess` (and the tick, propose
and step wrappers) are `Insert` of the event with the given target and
`Time = (FakeTime + fromNow) mod 2 ^ 64`. If `FakeTime + fromNow < 2 ^ 64`, that time
is `FakeTime + fromNow`, the call never fails with the modifying-the-past panic, and on
a log reached from an empty or a loaded log it returns with the event linked; if the
sum overflows, the wrapped time is below `FakeTime`, and the call panics and leaves
the log unchanged. -/
theorem convenience_constructors (s : Store) (target fromNow : Nat)
    (stateEvent : StateEvent) (req stepEvent : Nat)
    (hft : s.l.FakeTime < 2 ^ 64) (hfn : fromNow < 2 ^ 64) :
    (InsertStateEvent s target stateEvent fromNow =
        Insert s { Target := target, Time := (s.l.FakeTime + fromNow) % 2 ^ 64,
                   Type_ := some (EventType.StateEvent stateEvent) } ∧
      InsertProcess s target fromNow =
        Insert s { Target := target, Time := (s.l.FakeTime + fromNow) % 2 ^ 64,
                   Type_ := some EventType.Process } ∧
      InsertTickEvent s target fromNow =
        Insert s { Target := target, Time := (s.l.FakeTime + fromNow) % 2 ^ 64,
                   Type_ := some (EventType.StateEvent StateEvent.Tick) } ∧
      InsertProposeEvent s target req fromNow =
        Insert s { Target := target, Time := (s.l.FakeTime + fromNow) % 2 ^ 64,
                   Type_ := some (EventType.StateEvent (StateEvent.Propose req)) } ∧
      InsertStepEvent s target stepEvent fromNow =
        Insert s { Target := target, Time := (s.l.FakeTime + fromNow) % 2 ^ 64,
                   Type_ := some (EventType.StateEvent (StateEvent.Step stepEvent)) }) ∧
    (s.l.FakeTime + fromNow < 2 ^ 64 →
      (s.l.FakeTime + fromNow) % 2 ^ 64 = s.l.FakeTime + fromNow ∧
      (∀ st, InsertStateEvent s target stateEvent fromNow ≠
          .error (Failure.panic "attempted to modify the past", st)) ∧
      (∀ st, InsertProcess s target fromNow ≠
          .error (Failure.panic "attempted to modify the past", st)) ∧
      (ReachAny s →
        (∃ s2, InsertStateEvent s target stateEvent fromNow = .ok s2 ∧
          eventAt s2.heap s.heap.length =
            some { Target := target, Time := s.l.FakeTime + fromNow,
                   Type_ := some (EventType.StateEvent stateEvent) }) ∧
        (∃ s2, InsertProcess s target fromNow = .ok s2 ∧
          eventAt s2.heap s.heap.length =
            some { Target := target, Time := s.l.FakeTime + fromNow,
                   Type_ := some EventType.Process }))) ∧
    (2 ^ 64 ≤ s.l.FakeTime + fromNow →
      (s.l.FakeTime + fromNow) % 2 ^ 64 < s.l.FakeTime ∧
      InsertStateEvent s target stateEvent fromNow =
        .error (Failure.panic "attempted to modify the past", s) ∧
      InsertProcess s target fromNow =
        .error (Failure.panic "attempted to modify the past", s)) := by
  refine ⟨⟨rfl, rfl, rfl, rfl, rfl⟩, ?_, ?_⟩
  · intro hsum
    have hmod : (s.l.FakeTime + fromNow) % 2 ^ 64 = s.l.FakeTime + fromNow :=
      Nat.mod_eq_of_lt hsum
    have hle : s.l.FakeTime ≤ (s.l.FakeTime + fromNow) % 2 ^ 64 := by
      rw [hmod]
      exact Nat.le_add_right _ _
    have hnp : ∀ (ev : Event) (st : Store), s.l.FakeTime ≤ ev.Time →
        Insert s ev ≠ .error (Failure.panic "attempted to modify the past", st) := by
      intro ev st hle2 hEq
      rcases Insert_error_kind hle2 hEq with h | h
      · cases h
      · exact absurd h (by simp [nilDereference])
    refine ⟨hmod, fun st => hnp _ st hle, fun st => hnp _ st hle, ?_⟩
    intro hr
    obtain ⟨cs, ps, hrep⟩ := hr.rep
    constructor
    · obtain ⟨s2, h1, h2⟩ := Insert_rep_eventAt
        { Target := target, Time := (s.l.FakeTime + fromNow) % 2 ^ 64,
          Type_ := some (EventType.StateEvent stateEvent) } hrep hle
      rw [hmod] at h2
      exact ⟨s2, h1, h2⟩
    · obtain ⟨s2, h1, h2⟩ := Insert_rep_eventAt
        { Target := target, Time := (s.l.FakeTime + fromNow) % 2 ^ 64,
          Type_ := some EventType.Process } hrep hle
      rw [hmod] at h2
      exact ⟨s2, h1, h2⟩
  · intro hov
    have hlt : (s.l.FakeTime + fromNow) % 2 ^ 64 < s.l.FakeTime := by
      have : (s.l.FakeTime + fromNow) % 2 ^ 64 = s.l.FakeTime + fromNow - 2 ^ 64 := by
        rw [Nat.mod_eq_sub_mod hov, Nat.mod_eq_of_lt (by omega)]
      omega
    refine ⟨hlt, ?_, ?_⟩
    · unfold InsertStateEvent Insert
      rw [if_pos hlt]
    · unfold InsertProcess Insert
      rw [if_pos hlt]

/-- Witness of C17: on the sample log at `FakeTime = 5`, `fromNow = 3` schedules at
time 8, and `fromNow = 2 ^ 64 - 1` wraps to time 4 and panics. -/
theorem convenience_constructors_witness :
    (sampleStoreConsumed.l.FakeTime < 2 ^ 64 ∧ 3 < 2 ^ 64 ∧
      ∃ s2, InsertProcess sampleStoreConsumed 1 3 = .ok s2 ∧
        eventAt s2.heap sampleStoreConsumed.heap.length =
          some { Target := 1, Time := sampleStoreConsumed.l.FakeTime + 3,
                 Type_ := some EventType.Process }) ∧
    (2 ^ 64 - 1 < 2 ^ 64 ∧
      InsertProcess sampleStoreConsumed 1 (2 ^ 64 - 1) =
        .error (Failure.panic "attempted to modify the past", sampleStoreConsumed)) :=
  ⟨⟨by decide, by decide,
    ((convenience_constructors sampleStoreConsumed 1 3 StateEvent.Tick 0 0
      (by decide) (by decide)).2.1 (by decide)).2.2.2
      sampleStoreConsumed_reachAny |>.2⟩,
   ⟨by decide,
    ((convenience_constructors sampleStoreConsumed 1 (2 ^ 64 - 1) StateEvent.Tick 0 0
      (by decide) (by decide)).2.2 (by decide)).2.2⟩⟩

/-! ## What `Write` emits -/

theorem NodeConfigs_ids {s : Store} {xs : List (Nat × Event)}
    (h : Fwd s.heap s.l.FirstEventLogEntry xs) :
    ∃ ncs, NodeConfigs s = .ok ncs ∧
      ∀ t, t ∈ ncs.map (fun c => c.Id) ↔ ∃ x ∈ xs, x.2.Target = t := by
  obtain ⟨res, h1, h2, h3⟩ := nodeConfigsLoop_spec xs _ s.heap.length [] [] h
    (Fwd_length_le h) (by simp) (by simp)
  obtain ⟨-, hperm⟩ := sortSlice_spec res h2
  refine ⟨sortSlice res (fun a b => a.Id < b.Id), ?_, ?_⟩
  · unfold NodeConfigs
    rw [h1]
    rfl
  · intro t
    rw [(hperm.map _).mem_iff, h3 t]
    simp

theorem writeLoop_complete (pc : Codec) (s : Store) :
    ∀ (xs : List (Nat × Event)) (p : Ptr) (fuel : Nat) (dest : List Nat)
      (bss : List (List Nat)),
      Fwd s.heap p xs → xs.length ≤ fuel →
      List.Forall₂ (fun ev bs =>
          pc.Marshal { Type_ := some (LogEntryType.Event (some ev)) } = .ok bs)
          ((xs.takeWhile (fun x => decide (some x.1 ≠ s.l.NextEventLogEntry))).map Prod.snd)
          bss →
      writeLoop pc s fuel p dest = .ok (dest ++ (bss.map frameOf).flatten) := by
  intro xs
  induction xs with
  | nil =>
    intro p fuel dest bss h _ hf
    simp only [Fwd] at h
    subst h
    simp only [List.takeWhile_nil, List.map_nil, List.forall₂_nil_left_iff] at hf
    subst hf
    have : writeLoop pc s fuel none dest = .ok dest := by cases fuel <;> rfl
    rw [this]
    simp
  | cons x xs ih =>
    intro p fuel dest bss h hfuel hf
    obtain ⟨hp, e, he, hev, hn⟩ := h
    subst hp
    by_cases hcur : some x.1 = s.l.NextEventLogEntry
    · have h0 : (x :: xs).takeWhile (fun x => decide (some x.1 ≠ s.l.NextEventLogEntry)) = [] := by
        simp [List.takeWhile_cons, hcur]
      rw [h0] at hf
      simp only [List.map_nil, List.forall₂_nil_left_iff] at hf
      subst hf
      have : writeLoop pc s fuel (some x.1) dest = .ok dest := by
        cases fuel <;> simp [writeLoop, hcur]
      rw [this]
      simp
    · obtain ⟨fuel, rfl⟩ : ∃ k, fuel = k + 1 := ⟨fuel - 1, by simp at hfuel; omega⟩
      have h0 : (x :: xs).takeWhile (fun x => decide (some x.1 ≠ s.l.NextEventLogEntry)) =
          x :: xs.takeWhile (fun x => decide (some x.1 ≠ s.l.NextEventLogEntry)) := by
        simp [List.takeWhile_cons, hcur]
      rw [h0] at hf
      simp only [List.map_cons] at hf
      obtain ⟨b, bss2, hb, hf2, rfl⟩ := List.forall₂_cons_left_iff.1 hf
      simp only [writeLoop, hcur, if_false, he, hev, writePrefixedProto, hb]
      rw [ih e.Next fuel _ bss2 hn (by simp at hfuel; omega) hf2]
      simp [frameOf, List.append_assoc]

theorem Write_of_Fwd (pc : Codec) {s : Store} {xs : List (Nat × Event)}
    {ncs : List NodeConfig} (h : Fwd s.heap s.l.FirstEventLogEntry xs)
    (hn : NodeConfigs s = .ok ncs) (out : List Nat) :
    Write pc s [] = .ok out ↔
      ∃ hb bss, pc.Marshal { Type_ := some (LogEntryType.Scenario (some
          { Name := s.l.Name, Description := s.l.Description, NodeConfigs := ncs })) } =
            .ok hb ∧
        List.Forall₂ (fun ev bs =>
          pc.Marshal { Type_ := some (LogEntryType.Event (some ev)) } = .ok bs)
          ((xs.takeWhile (fun x => decide (some x.1 ≠ s.l.NextEventLogEntry))).map Prod.snd)
          bss ∧
        out = frameOf hb ++ (bss.map frameOf).flatten := by
  constructor
  · intro hW
    unfold Write at hW
    rw [hn] at hW
    simp only [writePrefixedProto] at hW
    cases hm : pc.Marshal { Type_ := some (LogEntryType.Scenario (some
        { Name := s.l.Name, Description := s.l.Description, NodeConfigs := ncs })) } with
    | error err => rw [hm] at hW; simp at hW
    | ok hb =>
      rw [hm] at hW
      simp only [List.nil_append] at hW
      obtain ⟨bss, hf, hout⟩ := writeLoop_spec pc s xs _ _ _ _ h (Fwd_length_le h) hW
      exact ⟨hb, bss, rfl, hf, hout⟩
  · rintro ⟨hb, bss, hm, hf, rfl⟩
    unfold Write
    rw [hn]
    simp only [writePrefixedProto, hm, List.nil_append]
    exact writeLoop_complete pc s xs _ _ _ bss h (Fwd_length_le h) hf

theorem Rep.fwd {s : Store} {cs ps : List (Nat × Event)} (h : Rep s cs ps) :
    Fwd s.heap s.l.FirstEventLogEntry (cs ++ ps) := by
  rw [h.first]
  exact Seg_Fwd _ _ h.seg

theorem Rep.takeWhile_cursor {s : Store} {cs ps : List (Nat × Event)} (h : Rep s cs ps) :
    (cs ++ ps).takeWhile (fun x => decide (some x.1 ≠ s.l.NextEventLogEntry)) = cs := by
  have h1 := consumedEntries_of_Fwd h.fwd
  rw [h.consumedEntries] at h1
  exact (Except.ok.inj h1).symm

theorem Rep.write (pc : Codec) {s : Store} {cs ps : List (Nat × Event)}
    {ncs : List NodeConfig} (h : Rep s cs ps) (hn : NodeConfigs s = .ok ncs)
    (out : List Nat) :
    Write pc s [] = .ok out ↔
      ∃ hb bss, pc.Marshal { Type_ := some (LogEntryType.Scenario (some
          { Name := s.l.Name, Description := s.l.Description, NodeConfigs := ncs })) } =
            .ok hb ∧
        List.Forall₂ (fun ev bs =>
          pc.Marshal { Type_ := some (LogEntryType.Event (some ev)) } = .ok bs)
          (cs.map Prod.snd) bss ∧
        out = frameOf hb ++ (bss.map frameOf).flatten := by
  rw [Write_of_Fwd pc h.fwd hn out, h.takeWhile_cursor]

theorem Inv.mem_hist {hist ret : List Event} {s : Store} {cs ps : List (Nat × Event)}
    (h : Inv hist ret s cs ps) (t : Nat) :
    (∃ x ∈ cs ++ ps, x.2.Target = t) ↔ ∃ e ∈ hist, e.Target = t := by
  constructor
  · rintro ⟨x, hx, rfl⟩
    exact ⟨x.2, List.getElem?_mem (h.hist x hx), rfl⟩
  · rintro ⟨e, he, rfl⟩
    obtain ⟨i, hi, hie⟩ := List.getElem_of_mem he
    refine ⟨(i, e), h.perm_enum.mem_iff.2 ?_, rfl⟩
    rw [List.mk_mem_enum_iff_getElem?, List.getElem?_eq_getElem hi, hie]

theorem pendingTargetStore_reach :
    Reach [processEvent 1 5, processEvent 2 10] [processEvent 1 5] pendingTargetStore :=
  Reach.consume (some (processEvent 1 5))
    (Reach.insert (processEvent 2 10)
      (Reach.insert (processEvent 1 5) (Reach.empty "" "") (by decide) rfl)
      (by decide) rfl) rfl

/-- C11 (`Write` records realized history only): in a log reached from an empty log
with insertion history `hist` and returned events `ret`, `NodeConfigs` returns a list
`ncs` whose Ids are the targets of all inserted events, so also those of the pending
entries, and `Write` (a function of the log that returns only bytes) returns `out`
exactly when the header with the log name, description and `ncs` marshals to some
`hb`, the events of `ret` marshal, in order, to some `bss`, and `out` is the frame of
`hb` followed by the frames of `bss`: one header frame, one event frame per returned
event in consumption order, and no frame for a pending entry. -/
theorem write_realized_history (pc : Codec) (hist ret : List Event) (s : Store)
    (h : Reach hist ret s) :
    ∃ ncs cs ps, NodeConfigs s = .ok ncs ∧ consumedEntries s = .ok cs ∧
      pendingEntries s = .ok ps ∧ cs.map Prod.snd = ret ∧
      (∀ t, t ∈ ncs.map (fun c => c.Id) ↔ ∃ e ∈ hist, e.Target = t) ∧
      (∀ x ∈ ps, x.2.Target ∈ ncs.map (fun c => c.Id)) ∧
      (∀ out, Write pc s [] = .ok out ↔
        ∃ hb bss, pc.Marshal { Type_ := some (LogEntryType.Scenario (some
            { Name := s.l.Name, Description := s.l.Description, NodeConfigs := ncs })) } =
              .ok hb ∧
          List.Forall₂ (fun ev bs =>
            pc.Marshal { Type_ := some (LogEntryType.Event (some ev)) } = .ok bs) ret bss ∧
          out = frameOf hb ++ (bss.map frameOf).flatten) := by
  obtain ⟨cs, ps, hinv⟩ := h.inv
  obtain ⟨ncs, hn, hids⟩ := NodeConfigs_ids hinv.rep.fwd
  refine ⟨ncs, cs, ps, hn, hinv.rep.consumedEntries, hinv.rep.pendingEntries,
    hinv.ret.symm, fun t => (hids t).trans (hinv.mem_hist t), ?_, ?_⟩
  · intro x hx
    exact (hids _).2 ⟨x, List.mem_append_right _ hx, rfl⟩
  · intro out
    rw [hinv.ret]
    exact hinv.rep.write pc hn out

/-- Witness of C11: node 2 occurs only in the pending entry, the header lists the
nodes 1 and 2, and the only event frame is the one of the consumed event. -/
theorem write_realized_history_witness :
    Reach [processEvent 1 5, processEvent 2 10] [processEvent 1 5] pendingTargetStore ∧
    NodeConfigs pendingTargetStore = .ok [{ Id := 1 }, { Id := 2 }] ∧
    pendingEntries pendingTargetStore = .ok [(1, processEvent 2 10)] ∧
    Write sampleCodec pendingTargetStore [] = .ok [6, 0, 1, 2, 6, 1, 1, 5] ∧
    ∃ ncs cs ps, NodeConfigs pendingTargetStore = .ok ncs ∧
      consumedEntries pendingTargetStore = .ok cs ∧
      pendingEntries pendingTargetStore = .ok ps ∧ cs.map Prod.snd = [processEvent 1 5] ∧
      (∀ t, t ∈ ncs.map (fun c => c.Id) ↔
        ∃ e ∈ [processEvent 1 5, processEvent 2 10], e.Target = t) ∧
      (∀ x ∈ ps, x.2.Target ∈ ncs.map (fun c => c.Id)) ∧
      (∀ out, Write sampleCodec pendingTargetStore [] = .ok out ↔
        ∃ hb bss, sampleCodec.Marshal { Type_ := some (LogEntryType.Scenario (some
            { Name := pendingTargetStore.l.Name,
              Description := pendingTargetStore.l.Description, NodeConfigs := ncs })) } =
              .ok hb ∧
          List.Forall₂ (fun ev bs =>
            sampleCodec.Marshal { Type_ := some (LogEntryType.Event (some ev)) } = .ok bs)
            [processEvent 1 5] bss ∧
          out = frameOf hb ++ (bss.map frameOf).flatten) :=
  ⟨pendingTargetStore_reach, rfl, rfl, rfl,
    write_realized_history sampleCodec _ _ _ pendingTargetStore_reach⟩

/-! ## Writing a freshly loaded log -/

theorem frameOf_not_prefix (a b rest : List Nat) (ha : a.length < 2 ^ 63)
    (hb : b.length < 2 ^ 63) (h : frameOf a = frameOf b ++ rest) : rest = [] := by
  have h1 : ReadVarint (frameOf a) = .ok ((a.length : Int), a) :=
    ReadVarint_PutVarint a.length ha a
  have h2 : ReadVarint (frameOf b ++ rest) = .ok ((b.length : Int), b ++ rest) := by
    unfold frameOf
    rw [List.append_assoc]
    exact ReadVarint_PutVarint b.length hb (b ++ rest)
  rw [h, h2] at h1
  have h3 := Except.ok.inj h1
  have h4 : b ++ rest = a := congrArg Prod.snd h3
  have h5 : (b.length : Int) = (a.length : Int) := congrArg Prod.fst h3
  have h6 : b.length = a.length := by exact_mod_cast h5
  have h7 : (b ++ rest).length = a.length := by rw [h4]
  rw [List.length_append] at h7
  exact List.length_eq_zero.1 (by omega)

theorem Write_loaded (pc : Codec) {source : List Nat} {s : Store}
    (h : ReadEventLog pc source = .ok s) :
    s.l.NextEventLogEntry = s.l.FirstEventLogEntry ∧
    ∃ ys ncs, entries s = .ok ys ∧ consumedEntries s = .ok [] ∧ NodeConfigs s = .ok ncs ∧
      (∀ t, t ∈ ncs.map (fun c => c.Id) ↔ ∃ x ∈ ys, x.2.Target = t) ∧
      ∀ out, Write pc s [] = .ok out ↔
        ∃ hb, pc.Marshal { Type_ := some (LogEntryType.Scenario (some
            { Name := s.l.Name, Description := s.l.Description, NodeConfigs := ncs })) } =
              .ok hb ∧ out = frameOf hb := by
  obtain ⟨ys, hrep⟩ := Rep_of_ReadEventLog h
  obtain ⟨ncs, hn, hids⟩ := NodeConfigs_ids hrep.fwd
  refine ⟨?_, ys, ncs, ?_, hrep.consumedEntries, hn, ?_, ?_⟩
  · rw [hrep.cursor, hrep.first]
    rfl
  · simpa using hrep.entries
  · simpa using hids
  · intro out
    rw [hrep.write pc hn out]
    constructor
    · rintro ⟨hb, bss, hm, hf, rfl⟩
      simp only [List.map_nil, List.forall₂_nil_left_iff] at hf
      subst hf
      exact ⟨hb, hm, by simp⟩
    · rintro ⟨hb, hm, rfl⟩
      exact ⟨hb, [], hm, by simp, by simp⟩

/-- C20 (re-saving a freshly loaded log drops its events): for every input on which
`ReadEventLog` succeeds, the returned log has its cursor at the head and no entry
before it, and `Write` on it returns `out` exactly when the header with the name and
description of the log and `NodeConfigs` of the loaded entries marshals to some `hb`
and `out` is the frame of `hb` alone: one frame, no event frame. Hence, for a codec
whose messages are shorter than `2 ^ 63` bytes and a log with a chain of entries from
the head of which at least one is before the cursor, the bytes of `Write` after
`ReadEventLog` after `Write` differ from the bytes of the first `Write`. -/
theorem resave_drops_events (pc : Codec) :
    (∀ (source : List Nat) (s : Store), ReadEventLog pc source = .ok s →
      s.l.NextEventLogEntry = s.l.FirstEventLogEntry ∧
      ∃ ys ncs, entries s = .ok ys ∧ consumedEntries s = .ok [] ∧
        NodeConfigs s = .ok ncs ∧
        (∀ t, t ∈ ncs.map (fun c => c.Id) ↔ ∃ x ∈ ys, x.2.Target = t) ∧
        ∀ out, Write pc s [] = .ok out ↔
          ∃ hb, pc.Marshal { Type_ := some (LogEntryType.Scenario (some
              { Name := s.l.Name, Description := s.l.Description,
                NodeConfigs := ncs })) } = .ok hb ∧ out = frameOf hb) ∧
    ((∀ m bs, pc.Marshal m = .ok bs → bs.length < 2 ^ 63) →
      ∀ (s0 : Store) (xs cs : List (Nat × Event)) (bytes : List Nat) (s1 : Store)
        (bytes2 : List Nat),
        Fwd s0.heap s0.l.FirstEventLogEntry xs → consumedEntries s0 = .ok cs → cs ≠ [] →
        Write pc s0 [] = .ok bytes → ReadEventLog pc bytes = .ok s1 →
        Write pc s1 [] = .ok bytes2 → bytes2 ≠ bytes) := by
  refine ⟨fun source s h => Write_loaded pc h, ?_⟩
  intro hlen s0 xs cs bytes s1 bytes2 hxs hcs hne hW hR hW2 hEq
  obtain ⟨ncs0, hn0, -⟩ := NodeConfigs_ids hxs
  obtain ⟨hb, bss, hm, hf, hout⟩ := (Write_of_Fwd pc hxs hn0 bytes).1 hW
  have htw := consumedEntries_of_Fwd hxs
  rw [hcs] at htw
  rw [← Except.ok.inj htw] at hf
  obtain ⟨-, ys, ncs, -, -, -, -, hw⟩ := Write_loaded pc hR
  obtain ⟨hb2, hm2, hout2⟩ := (hw bytes2).1 hW2
  cases cs with
  | nil => exact hne rfl
  | cons c cs2 =>
    simp only [List.map_cons] at hf
    obtain ⟨b, bss2, -, -, rfl⟩ := List.forall₂_cons_left_iff.1 hf
    have hnil := frameOf_not_prefix hb2 hb _ (hlen _ _ hm2) (hlen _ _ hm)
      (by rw [← hout2, hEq, hout])
    simp only [List.map_cons, List.flatten_cons, List.append_eq_nil] at hnil
    exact frameOf_ne_nil b hnil.1

/-- Witness of C20: the sample log after one consumption is written as a header frame
and one event frame; the log read back from these bytes is written as the header
frame alone. -/
theorem resave_drops_events_witness :
    Write sampleCodec sampleStoreConsumed [] = .ok [4, 0, 1, 6, 1, 1, 5] ∧
    ReadEventLog sampleCodec [4, 0, 1, 6, 1, 1, 5] = .ok reloadedStore ∧
    Write sampleCodec reloadedStore [] = .ok [4, 0, 1] ∧
    (reloadedStore.l.NextEventLogEntry = reloadedStore.l.FirstEventLogEntry ∧
      ∃ ys ncs, entries reloadedStore = .ok ys ∧ consumedEntries reloadedStore = .ok [] ∧
        NodeConfigs reloadedStore = .ok ncs ∧
        (∀ t, t ∈ ncs.map (fun c => c.Id) ↔ ∃ x ∈ ys, x.2.Target = t) ∧
        ∀ out, Write sampleCodec reloadedStore [] = .ok out ↔
          ∃ hb, sampleCodec.Marshal { Type_ := some (LogEntryType.Scenario (some
              { Name := reloadedStore.l.Name, Description := reloadedStore.l.Description,
                NodeConfigs := ncs })) } = .ok hb ∧ out = frameOf hb) ∧
    ([4, 0, 1] : List Nat) ≠ [4, 0, 1, 6, 1, 1, 5] :=
  ⟨rfl, rfl, rfl,
    (resave_drops_events sampleCodec).1 [4, 0, 1, 6, 1, 1, 5] reloadedStore rfl,
    (resave_drops_events sampleCodec).2 (fun m bs h => (sampleCodec_inverse m bs h).2)
      sampleStoreConsumed
      [(1, processEvent 1 5), (0, processEvent 1 10), (2, processEvent 1 20)]
      [(1, processEvent 1 5)] [4, 0, 1, 6, 1, 1, 5] reloadedStore [4, 0, 1]
      ⟨rfl, _, rfl, rfl, rfl, _, rfl, rfl, rfl, _, rfl, rfl, rfl⟩ rfl (by simp)
      rfl rfl rfl⟩

/-! ## `ConsumeAndAdvance` and `NodeConfigs` on the logs of the program -/

theorem Reach.reachAny {hist ret : List Event} {s : Store} (h : Reach hist ret s) :
    ReachAny s := by
  induction h with
  | empty name description => exact ReachAny.empty name description
  | insert e _ _ hins ih => exact ReachAny.insert e ih hins
  | consume r _ hcon ih => exact ReachAny.consume r ih hcon

theorem Rep.cursor_entry {s : Store} {cs ps : List (Nat × Event)} (h : Rep s cs ps)
    {a : Nat} (ha : s.l.NextEventLogEntry = some a) :
    ∃ entry ev, s.heap[a]? = some entry ∧ entry.Event = some ev := by
  cases ps with
  | nil =>
    rw [h.cursor] at ha
    cases ha
  | cons x ps2 =>
    rw [h.cursor, headPtr_cons] at ha
    cases ha
    obtain ⟨entry, h1, h2⟩ := Seg_getElem _ _ _ h.seg x
      (List.mem_append_right _ (List.mem_cons_self _ _))
    exact ⟨entry, x.2, h1, h2⟩

theorem targetsStore_reachAny : ReachAny targetsStore :=
  ReachAny.insert (processEvent 5 5)
    (ReachAny.insert (processEvent 1 4)
      (ReachAny.insert (processEvent 3 3)
        (ReachAny.insert (processEvent 1 2)
          (ReachAny.insert (processEvent 5 1) (ReachAny.empty "" "") rfl) rfl) rfl) rfl) rfl

/-- C4 (`ConsumeAndAdvance` postcondition): for every log of the program (reached from
an empty log or from a successful `ReadEventLog` by `Insert` and `ConsumeAndAdvance`
calls), if the cursor is empty the call returns nil and leaves the store as it is;
otherwise the cursor entry exists and carries an event, the call returns that event,
sets `FakeTime` to its time, `LastConsumed` to the cursor entry and the cursor to its
successor, and leaves the head, the heap (so the linked sequence of entries), the name
and the description unchanged. -/
theorem consume_postcondition (s : Store) (h : ReachAny s) :
    (s.l.NextEventLogEntry = none → ConsumeAndAdvance s = .ok (none, s)) ∧
    (∀ a, s.l.NextEventLogEntry = some a →
      ∃ entry ev s2, s.heap[a]? = some entry ∧ entry.Event = some ev ∧
        ConsumeAndAdvance s = .ok (some ev, s2) ∧
        s2.l.FakeTime = ev.Time ∧ s2.l.LastConsumed = some a ∧
        s2.l.NextEventLogEntry = entry.Next ∧
        s2.l.FirstEventLogEntry = s.l.FirstEventLogEntry ∧
        s2.l.Name = s.l.Name ∧ s2.l.Description = s.l.Description ∧
        s2.heap = s.heap ∧ traverse s2 = traverse s ∧ entries s2 = entries s) := by
  refine ⟨(ConsumeAndAdvance_spec s).1, fun a ha => ?_⟩
  obtain ⟨cs, ps, hrep⟩ := h.rep
  obtain ⟨entry, ev, h1, h2⟩ := hrep.cursor_entry ha
  obtain ⟨s2, g1, g2, g3, g4, g5, g6, g7, g8, g9⟩ :=
    (ConsumeAndAdvance_spec s).2 a entry ev ha h1 h2
  exact ⟨entry, ev, s2, h1, h2, g1, g2, g3, g4, g5, g6, g7, g8, g9,
    (Consume_same_count g1).2⟩

/-- Witness of C4: the empty log and the sample log. -/
theorem consume_postcondition_witness :
    ReachAny (emptyLog "" "") ∧ ReachAny sampleStore ∧
    ConsumeAndAdvance (emptyLog "" "") = .ok (none, emptyLog "" "") ∧
    ConsumeAndAdvance sampleStore = .ok (some (processEvent 1 5), sampleStoreConsumed) ∧
    ∃ entry ev s2, sampleStore.heap[1]? = some entry ∧ entry.Event = some ev ∧
        ConsumeAndAdvance sampleStore = .ok (some ev, s2) ∧
        s2.l.FakeTime = ev.Time ∧ s2.l.LastConsumed = some 1 ∧
        s2.l.NextEventLogEntry = entry.Next ∧
        s2.l.FirstEventLogEntry = sampleStore.l.FirstEventLogEntry ∧
        s2.l.Name = sampleStore.l.Name ∧ s2.l.Description = sampleStore.l.Description ∧
        s2.heap = sampleStore.heap ∧ traverse s2 = traverse sampleStore ∧
        entries s2 = entries sampleStore :=
  ⟨ReachAny.empty "" "", sampleStore_reach.reachAny,
    (consume_postcondition (emptyLog "" "") (ReachAny.empty "" "")).1 rfl, rfl,
    (consume_postcondition sampleStore sampleStore_reach.reachAny).2 1 rfl⟩

/-- C9 (`NodeConfigs` derivation): for every log of the program (reached from an empty
log or from a successful `ReadEventLog` by `Insert` and `ConsumeAndAdvance` calls),
`NodeConfigs` returns a list whose Ids are strictly ascending and whose Ids are exactly
the targets of the entries linked from the head, consumed and pending alike; when no
entry is linked, and so for an empty log, the list is empty; and the log with the
targets 5, 1, 3, 1, 5 gives the Ids 1, 3, 5. -/
theorem nodeConfigs_derivation :
    (∀ s : Store, ReachAny s →
      ∃ xs cs ps ncs, entries s = .ok xs ∧ consumedEntries s = .ok cs ∧
        pendingEntries s = .ok ps ∧ xs = cs ++ ps ∧ NodeConfigs s = .ok ncs ∧
        List.Sorted (· < ·) (ncs.map (fun c => c.Id)) ∧
        (∀ t, t ∈ ncs.map (fun c => c.Id) ↔ ∃ x ∈ xs, x.2.Target = t) ∧
        (xs = [] → ncs = [])) ∧
    (∀ name description, NodeConfigs (emptyLog name description) = .ok []) ∧
    (ReachAny targetsStore ∧
      entries targetsStore =
        .ok [(0, processEvent 5 1), (1, processEvent 1 2), (2, processEvent 3 3),
             (3, processEvent 1 4), (4, processEvent 5 5)] ∧
      NodeConfigs targetsStore = .ok [{ Id := 1 }, { Id := 3 }, { Id := 5 }]) := by
  refine ⟨fun s h => ?_, fun _ _ => rfl, targetsStore_reachAny, rfl, rfl⟩
  obtain ⟨cs, ps, hrep⟩ := h.rep
  obtain ⟨ncs, h1, h2, h3, h4⟩ := NodeConfigs_of_Fwd s (cs ++ ps) hrep.fwd
  exact ⟨cs ++ ps, cs, ps, ncs, hrep.entries, hrep.consumedEntries, hrep.pendingEntries,
    rfl, h1, h2, h3, h4⟩

/-- Witness of C9: the log with a consumed entry of node 1 and a pending entry of
node 2. -/
theorem nodeConfigs_derivation_witness :
    ReachAny pendingTargetStore ∧
    NodeConfigs pendingTargetStore = .ok [{ Id := 1 }, { Id := 2 }] ∧
    ∃ xs cs ps ncs, entries pendingTargetStore = .ok xs ∧
      consumedEntries pendingTargetStore = .ok cs ∧
      pendingEntries pendingTargetStore = .ok ps ∧ xs = cs ++ ps ∧
      NodeConfigs pendingTargetStore = .ok ncs ∧
      List.Sorted (· < ·) (ncs.map (fun c => c.Id)) ∧
      (∀ t, t ∈ ncs.map (fun c => c.Id) ↔ ∃ x ∈ xs, x.2.Target = t) ∧
      (xs = [] → ncs = []) :=
  ⟨pendingTargetStore_reach.reachAny, rfl,
    nodeConfigs_derivation.1 pendingTargetStore pendingTargetStore_reach.reachAny⟩

end Testengine
